import Mathlib

/-!
# Verification of the chess/mahjong/big-two rule engines

Shallow embedding of the rule-engine functions of the repository
(Chinese Dark Chess, Taiwanese 16-tile Mahjong, Big Two) and proofs of the
spec claims about them.  Each definition is translated from the TypeScript
source; the file/function of origin is named in its doc comment.
-/

set_option maxHeartbeats 1000000

namespace DarkChess

/-- Piece types of Chinese Dark Chess (`PieceType` in `types`). -/
inductive PieceType where
  | king | advisor | elephant | rook | knight | cannon | pawn
  deriving DecidableEq, Repr

/-- Piece colors (`PieceColor`). -/
inductive PieceColor where
  | red | black
  deriving DecidableEq, Repr

/-- `PIECE_VALUES` from the dark-chess logic module: rank order
king(7) > advisor(6) > elephant(5) > rook(4) > knight(3) > cannon(2) > pawn(1). -/
def PIECE_VALUES : PieceType → Nat
  | .king => 7
  | .advisor => 6
  | .elephant => 5
  | .rook => 4
  | .knight => 3
  | .cannon => 2
  | .pawn => 1

/-- A dark-chess piece.  The source `Piece` also carries a string `id`,
which none of the rule functions inspect, so it is omitted here. -/
structure Piece where
  type : PieceType
  color : PieceColor
  isFlipped : Bool
  position : Nat
  deriving DecidableEq, Repr

/-- The board is a 32-slot array of `Piece | null`; out-of-range reads give
`undefined` in JS, which the occupancy tests treat like `null`, so `getD`
with default `none` models indexing exactly. -/
def Board := List (Option Piece)

/-- Occupancy test `board[i]` used in the cannon screen count
(a truthiness test in the source). -/
def boardOcc (board : Board) (i : Nat) : Bool :=
  (List.getD board i none).isSome

/-- `COLS = 8` (8-wide grid). -/
def COLS : Nat := 8

/-- `isValidMove(from, to)` from the dark-chess logic module: decomposes both
indices into row/column on the 8-wide grid and demands one orthogonal step. -/
def isValidMove (fromPos toPos : Nat) : Bool :=
  let fromRow := fromPos / COLS
  let fromCol := fromPos % COLS
  let toRow := toPos / COLS
  let toCol := toPos % COLS
  let rowDiff := (Int.natAbs ((fromRow : Int) - (toRow : Int)))
  let colDiff := (Int.natAbs ((fromCol : Int) - (toCol : Int)))
  (rowDiff == 1 && colDiff == 0) || (rowDiff == 0 && colDiff == 1)

/-- The cannon screen count of `canCapture`: number of occupied squares
strictly between `from` and `to` on their shared row (resp. column). -/
def cannonScreens (board : Board) (fromPos toPos : Nat) : Nat :=
  let fromRow := fromPos / COLS
  let fromCol := fromPos % COLS
  let toRow := toPos / COLS
  let toCol := toPos % COLS
  if fromRow == toRow then
    let minCol := min fromCol toCol
    let maxCol := max fromCol toCol
    ((List.range' (minCol + 1) (maxCol - (minCol + 1))).filter
      (fun c => boardOcc board (fromRow * COLS + c))).length
  else
    let minRow := min fromRow toRow
    let maxRow := max fromRow toRow
    ((List.range' (minRow + 1) (maxRow - (minRow + 1))).filter
      (fun r => boardOcc board (r * COLS + fromCol))).length

/-- `canCapture(attacker, target, board)` from the dark-chess logic module.
Checks color opposition and that the target is face-up, then the cannon
screen rule, or adjacency plus the king/pawn exceptions and rank dominance. -/
def canCapture (attacker target : Piece) (board : Board) : Bool :=
  if attacker.color == target.color then false
  else if !target.isFlipped then false
  else
    let fromPos := attacker.position
    let toPos := target.position
    if attacker.type == .cannon then
      let fromRow := fromPos / COLS
      let fromCol := fromPos % COLS
      let toRow := toPos / COLS
      let toCol := toPos % COLS
      if fromRow != toRow && fromCol != toCol then false
      else cannonScreens board fromPos toPos == 1
    else
      if !isValidMove fromPos toPos then false
      else if attacker.type == .king && target.type == .pawn then false
      else if attacker.type == .pawn && target.type == .king then true
      else PIECE_VALUES attacker.type ≥ PIECE_VALUES target.type

/-- Spec-side reading of C9: destination orthogonally adjacent (Manhattan
distance 1 on the 8-wide grid) and the destination square empty. -/
def validMoveSpec (board : Board) (fromPos toPos : Nat) : Prop :=
  (Int.natAbs ((fromPos / COLS : Int) - (toPos / COLS : Int)) +
    Int.natAbs ((fromPos % COLS : Int) - (toPos % COLS : Int)) = 1) ∧
  List.getD board toPos none = none

instance (board : Board) (fromPos toPos : Nat) :
    Decidable (validMoveSpec board fromPos toPos) := by
  unfold validMoveSpec; infer_instance

/-- Spec-side count for C4: occupied squares with column strictly between the
two pieces' columns, on their (shared) row. -/
def rowScreens (board : Board) (row c1 c2 : Nat) : Nat :=
  ((Finset.Ioo (min c1 c2) (max c1 c2)).filter
    (fun c => boardOcc board (row * COLS + c))).card

/-- Spec-side count for C4: occupied squares with row strictly between the
two pieces' rows, on their (shared) column. -/
def colScreens (board : Board) (col r1 r2 : Nat) : Nat :=
  ((Finset.Ioo (min r1 r2) (max r1 r2)).filter
    (fun r => boardOcc board (r * COLS + col))).card

/-- Spec-side reading of C4's capture condition: attacker and target share a
row or a column, and exactly one occupied square lies strictly between them. -/
def cannonCaptureSpec (board : Board) (a b : Nat) : Prop :=
  (a / COLS = b / COLS ∧ rowScreens board (a / COLS) (a % COLS) (b % COLS) = 1) ∨
  (a % COLS = b % COLS ∧ colScreens board (a % COLS) (a / COLS) (b / COLS) = 1)

instance (board : Board) (a b : Nat) : Decidable (cannonCaptureSpec board a b) := by
  unfold cannonCaptureSpec; infer_instance

theorem filter_Ioo_card_eq_range' (p : Nat → Bool) (a b : Nat) :
    ((Finset.Ioo a b).filter (fun c => p c)).card
      = ((List.range' (a + 1) (b - (a + 1))).filter p).length := by
  rw [Nat.Ioo_eq_range']
  change Multiset.card (Multiset.filter _ ((List.range' (a + 1) (b - a - 1) : List Nat) : Multiset Nat)) = _
  rw [Multiset.filter_coe, Multiset.coe_card]
  simp [Nat.sub_sub]

theorem cannonScreens_of_sameRow (board : Board) (a b : Nat) (hr : a / COLS = b / COLS) :
    cannonScreens board a b = rowScreens board (a / COLS) (a % COLS) (b % COLS) := by
  unfold cannonScreens rowScreens
  rw [if_pos (by simpa using hr), filter_Ioo_card_eq_range']

theorem cannonScreens_of_diffRow (board : Board) (a b : Nat) (hr : ¬a / COLS = b / COLS) :
    cannonScreens board a b = colScreens board (a % COLS) (a / COLS) (b / COLS) := by
  unfold cannonScreens colScreens
  rw [if_neg (by simpa using hr), filter_Ioo_card_eq_range']

theorem rowScreens_self (board : Board) (row c : Nat) : rowScreens board row c c = 0 := by
  simp [rowScreens]

theorem colScreens_self (board : Board) (col r : Nat) : colScreens board col r r = 0 := by
  simp [colScreens]

theorem pos_eq_of_row_col (a b : Nat) (hr : a / COLS = b / COLS) (hc : a % COLS = b % COLS) :
    a = b := by
  have ha := Nat.div_add_mod a COLS
  have hb := Nat.div_add_mod b COLS
  rw [hr, hc] at ha
  omega

/-- C4: for a cannon attacker and a face-up opposing target, `canCapture` is
true exactly when the two pieces share a row or a column and exactly one
occupied square lies strictly between them. -/
theorem cannon_capture_iff_one_screen (att tgt : Piece) (board : Board)
    (hA : att.type = .cannon) (hO : att.color ≠ tgt.color) (hF : tgt.isFlipped = true) :
    canCapture att tgt board = true ↔ cannonCaptureSpec board att.position tgt.position := by
  have h1 : (att.color == tgt.color) = false := by
    simp [hO]
  unfold canCapture
  rw [h1]
  simp only [Bool.false_eq_true, if_false, hF, Bool.not_true, hA]
  by_cases hr : att.position / COLS = tgt.position / COLS
  · rw [cannonScreens_of_sameRow board _ _ hr]
    by_cases hc : att.position % COLS = tgt.position % COLS
    · have heq : att.position = tgt.position := pos_eq_of_row_col _ _ hr hc
      simp [cannonCaptureSpec, heq, rowScreens_self, colScreens_self]
    · have : (att.position / COLS != tgt.position / COLS) = false := by
        simp [hr]
      simp only [this, Bool.false_and, Bool.false_eq_true, if_false]
      simp [cannonCaptureSpec, hr, hc]
  · by_cases hc : att.position % COLS = tgt.position % COLS
    · have : (att.position % COLS != tgt.position % COLS) = false := by
        simp [hc]
      simp only [this, Bool.and_false, Bool.false_eq_true, if_false]
      rw [cannonScreens_of_diffRow board _ _ hr]
      simp [cannonCaptureSpec, hr, hc]
    · have h2 : (att.position / COLS != tgt.position / COLS) = true := by
        simp [hr]
      have h3 : (att.position % COLS != tgt.position % COLS) = true := by
        simp [hc]
      simp only [h2, h3, Bool.and_self, Bool.true_and, if_true]
      simp [cannonCaptureSpec, hr, hc]

/-- Demo cannon attacker at square 0 (row 0). -/
def cannonAtt : Piece := ⟨.cannon, .red, true, 0⟩

/-- Demo capture target at square 6, same row as the cannon. -/
def targetPc : Piece := ⟨.king, .black, true, 6⟩

/-- Demo screen piece at square 3, between the cannon and its target. -/
def screenPc : Piece := ⟨.pawn, .black, true, 3⟩

/-- Demo board holding the cannon scenario of the spec's §8. -/
def demoBoard : Board :=
  [some cannonAtt, none, none, some screenPc, none, none, some targetPc]

/-- Witness for C4: the spec's own scenario (cannon at 0, screen at 3,
target at 6) satisfies the hypotheses, and the capture goes through. -/
theorem cannon_capture_iff_one_screen_witness :
    cannonAtt.type = .cannon ∧ cannonAtt.color ≠ targetPc.color ∧
      targetPc.isFlipped = true ∧ canCapture cannonAtt targetPc demoBoard = true ∧
      (canCapture cannonAtt targetPc demoBoard = true ↔
        cannonCaptureSpec demoBoard cannonAtt.position targetPc.position) :=
  ⟨rfl, by decide, rfl, by decide,
    cannon_capture_iff_one_screen cannonAtt targetPc demoBoard rfl (by decide) rfl⟩

/-- C8 (amended): `canCapture` returns false unless the target is face-up and
the colors oppose; the attacker's own flipped state is not inspected. -/
theorem capture_requires_faceup_target_opposing (att tgt : Piece) (board : Board)
    (h : canCapture att tgt board = true) :
    att.color ≠ tgt.color ∧ tgt.isFlipped = true := by
  unfold canCapture at h
  by_cases h1 : (att.color == tgt.color) = true
  · rw [if_pos h1] at h; exact absurd h (by simp)
  · rw [if_neg h1] at h
    refine ⟨by simpa using h1, ?_⟩
    by_cases h2 : tgt.isFlipped = true
    · exact h2
    · rw [Bool.not_eq_true] at h2
      rw [h2] at h
      exact absurd h (by simp)

/-- Demo face-down red pawn at square 0. -/
def downPawn : Piece := ⟨.pawn, .red, false, 0⟩

/-- Demo face-up black king at square 1. -/
def upKing : Piece := ⟨.king, .black, true, 1⟩

/-- Counterexample for C8 as stated: a face-down pawn is allowed by
`canCapture` to capture an adjacent face-up opposing king — the function never
checks `attacker.isFlipped`. -/
theorem capture_facedown_attacker_counterexample :
    downPawn.isFlipped = false ∧
      canCapture downPawn upKing [some downPawn, some upKing] = true :=
  ⟨rfl, by decide⟩

/-- Demo face-up red advisor at square 0. -/
def upAdvisor : Piece := ⟨.advisor, .red, true, 0⟩

/-- Demo face-up black pawn at square 1. -/
def upBlackPawn : Piece := ⟨.pawn, .black, true, 1⟩

/-- Witness for the amended C8: a concrete successful capture indeed has a
face-up target of the opposing color. -/
theorem capture_requires_faceup_target_opposing_witness :
    canCapture upAdvisor upBlackPawn [some upAdvisor, some upBlackPawn] = true ∧
      (upAdvisor.color ≠ upBlackPawn.color ∧ upBlackPawn.isFlipped = true) :=
  ⟨by decide,
    capture_requires_faceup_target_opposing upAdvisor upBlackPawn
      [some upAdvisor, some upBlackPawn] (by decide)⟩

/-- C9 (amended): `isValidMove(from,to)` is true iff `to` is orthogonally
adjacent to `from` (Manhattan distance 1 on the 8-wide grid).  The function
takes no board, so it cannot and does not test destination emptiness. -/
theorem isValidMove_iff_adjacent (a b : Nat) :
    isValidMove a b = true ↔
      Int.natAbs ((a / COLS : Int) - (b / COLS : Int)) +
        Int.natAbs ((a % COLS : Int) - (b % COLS : Int)) = 1 := by
  unfold isValidMove
  constructor
  · intro h
    simp only [Bool.or_eq_true, Bool.and_eq_true, beq_iff_eq] at h
    rcases h with ⟨h1, h2⟩ | ⟨h1, h2⟩ <;> omega
  · intro h
    simp only [Bool.or_eq_true, Bool.and_eq_true, beq_iff_eq]
    push_cast at h ⊢
    omega

/-- Counterexample for C9 as stated: moving from square 0 to the adjacent
square 1 is accepted by `isValidMove` even though square 1 is occupied, so the
"destination is empty" clause of the claim is not part of the function. -/
theorem isValidMove_ignores_occupancy_counterexample :
    isValidMove 0 1 = true ∧ ¬ validMoveSpec [none, some upKing] 0 1 := by
  constructor
  · decide
  · intro h
    exact absurd h.2 (by decide)

end DarkChess

namespace BigTwo

/-- Card suits (`BigTwoSuit`), power order clubs < diamonds < hearts < spades. -/
inductive Suit where
  | clubs | diamonds | hearts | spades
  deriving DecidableEq, Repr

/-- `SUIT_ORDER` from `bigTwoLogic.ts`. -/
def SUIT_ORDER : Suit → Nat
  | .clubs => 0
  | .diamonds => 1
  | .hearts => 2
  | .spades => 3

/-- A Big Two card.  Ranks are stored 3..15 with 15 for the "2"; the source
`BigTwoCard` also carries a string `id` that no rule function reads. -/
structure Card where
  suit : Suit
  rank : Nat
  deriving DecidableEq, Repr

/-- Hand types (`BigTwoHandType`). -/
inductive HandType where
  | single | pair | triple | straight | full_house | four_of_a_kind | straight_flush
  deriving DecidableEq, Repr

/-- `compareBigTwoCards(a, b)`: rank difference, suit order breaking ties. -/
def compareBigTwoCards (a b : Card) : Int :=
  if a.rank ≠ b.rank then (a.rank : Int) - b.rank
  else (SUIT_ORDER a.suit : Int) - SUIT_ORDER b.suit

/-- The comparator of `compareBigTwoCards` as a Bool relation (used to model
`Array.prototype.sort(compareBigTwoCards)`, which is a stable sort). -/
def cardLE (a b : Card) : Prop := compareBigTwoCards a b ≤ 0

instance : DecidableRel cardLE := fun a b => by unfold cardLE; infer_instance

/-- `[...cards].sort(compareBigTwoCards)` modeled by a stable sort. -/
def sortCards (cards : List Card) : List Card :=
  List.insertionSort cardLE cards

/-- Fallback card for out-of-range `cards[0]` accesses; never reached on the
well-formed plays the claims quantify over. -/
def card0 : Card := ⟨.clubs, 0⟩

/-- `getHighCard(cards)`: left fold of the strict comparison, seeded with
`cards[0]` (`Array.prototype.reduce` with an initial value). -/
def getHighCard (cards : List Card) : Card :=
  cards.foldl (fun mx c => if compareBigTwoCards c mx > 0 then c else mx)
    (cards.headD card0)

/-- `getRankCounts(ranks)[r]`: occurrences of rank `r`. -/
def rankCount (ranks : List Nat) (r : Nat) : Nat := ranks.count r

/-- `isConsecutive(ranks)`: ascending adjacent steps of exactly one. -/
def chainInc : List Nat → Bool
  | [] => true
  | [_] => true
  | a :: b :: t => (b == a + 1) && chainInc (b :: t)

/-- `isConsecutive(ranks)`: sort ascending, reject any rank-15 "2", then
require strictly consecutive ranks. -/
def isConsecutive (ranks : List Nat) : Bool :=
  let sorted := List.insertionSort (· ≤ ·) ranks
  if sorted.contains 15 then false
  else chainInc sorted

/-- `isFourOfAKind(ranks)`: some rank occurs exactly four times
(`Object.values(counts).some(c => c === 4)`). -/
def isFourOfAKind (ranks : List Nat) : Bool :=
  ranks.dedup.any (fun r => rankCount ranks r == 4)

/-- `isFullHouse(ranks)`: the per-rank counts, sorted, are exactly `[2, 3]`. -/
def isFullHouse (ranks : List Nat) : Bool :=
  let vals := List.insertionSort (· ≤ ·) (ranks.dedup.map (rankCount ranks))
  vals == [2, 3]

/-- `isPair(cards)`. -/
def isPair (cards : List Card) : Bool :=
  match cards with
  | [a, b] => a.rank == b.rank
  | _ => false

/-- `isTriple(cards)`. -/
def isTriple (cards : List Card) : Bool :=
  match cards with
  | [a, b, c] => a.rank == b.rank && b.rank == c.rank
  | _ => false

/-- `detect5CardHand(cards)` from `bigTwoLogic.ts`: straight flush, four of a
kind, full house, plain-flush rejection, straight, in that order. -/
def detect5CardHand (cards : List Card) : Option HandType :=
  let sorted := sortCards cards
  let ranks := sorted.map (·.rank)
  let isStraightCheck := isConsecutive ranks
  let isFlushCheck := sorted.all (fun c => c.suit == (sorted.headD card0).suit)
  if isStraightCheck && isFlushCheck then some .straight_flush
  else if isFourOfAKind ranks then some .four_of_a_kind
  else if isFullHouse ranks then some .full_house
  else if isFlushCheck then none
  else if isStraightCheck then some .straight
  else none

/-- `detectHandType(cards)` from `bigTwoLogic.ts`. -/
def detectHandType (cards : List Card) : Option HandType :=
  match cards.length with
  | 1 => some .single
  | 2 => if isPair cards then some .pair else none
  | 3 => if isTriple cards then some .triple else none
  | 5 => detect5CardHand cards
  | _ => none

/-- `HAND_TYPE_POWER` from `bigTwoLogic.ts`. -/
def HAND_TYPE_POWER : HandType → Nat
  | .single => 0
  | .pair => 0
  | .triple => 0
  | .straight => 1
  | .full_house => 2
  | .four_of_a_kind => 3
  | .straight_flush => 4

/-- A play (`BigTwoPlay`); the owning player id is irrelevant to comparison. -/
structure Play where
  cards : List Card
  handType : HandType
  deriving Repr

/-- `getTripleRank(cards)`: first rank (numeric keys iterate ascending) with
count exactly 3, defaulting to 0. -/
def getTripleRank (cards : List Card) : Nat :=
  let ranks := cards.map (·.rank)
  ((List.insertionSort (· ≤ ·) ranks.dedup).find?
    (fun r => rankCount ranks r == 3)).getD 0

/-- `getFourRank(cards)`: first rank with count exactly 4, defaulting to 0. -/
def getFourRank (cards : List Card) : Nat :=
  let ranks := cards.map (·.rank)
  ((List.insertionSort (· ≤ ·) ranks.dedup).find?
    (fun r => rankCount ranks r == 4)).getD 0

/-- The same-hand-type `switch` of `canBeatPlay`. -/
def canBeatSameType (play lastPlay : Play) : Bool :=
  match play.handType with
  | .single =>
      compareBigTwoCards (play.cards.headD card0) (lastPlay.cards.headD card0) > 0
  | .pair | .triple =>
      compareBigTwoCards (getHighCard play.cards) (getHighCard lastPlay.cards) > 0
  | .straight | .straight_flush =>
      compareBigTwoCards (getHighCard play.cards) (getHighCard lastPlay.cards) > 0
  | .full_house => getTripleRank play.cards > getTripleRank lastPlay.cards
  | .four_of_a_kind => getFourRank play.cards > getFourRank lastPlay.cards

/-- The stage of `canBeatPlay` after the card-count guard: 5-card hands of
different types compare by `HAND_TYPE_POWER`, equal types by representative. -/
def canBeatTail (play lastPlay : Play) : Bool :=
  if play.handType ≠ lastPlay.handType ∧ play.cards.length = 5 then
    HAND_TYPE_POWER play.handType > HAND_TYPE_POWER lastPlay.handType
  else if play.handType ≠ lastPlay.handType then false
  else canBeatSameType play lastPlay

/-- `canBeatPlay(play, lastPlay)` from `bigTwoLogic.ts`.  The source's first
branch (different card counts) contains a both-are-5-card sub-branch that can
never fire, since two different counts cannot both be 5; it is kept verbatim. -/
def canBeatPlay (play lastPlay : Play) : Bool :=
  if play.cards.length ≠ lastPlay.cards.length then
    if play.cards.length = 5 ∧ lastPlay.cards.length = 5 then
      if HAND_TYPE_POWER play.handType > HAND_TYPE_POWER lastPlay.handType then true
      else if HAND_TYPE_POWER play.handType < HAND_TYPE_POWER lastPlay.handType then false
      else canBeatTail play lastPlay
    else false
  else canBeatTail play lastPlay

/-- C7: a 5-card hand containing a rank-15 "2" is never detected as a
straight or a straight flush. -/
theorem no_straight_with_two (cards : List Card) (h5 : cards.length = 5)
    (h15 : ∃ c ∈ cards, c.rank = 15) :
    detectHandType cards ≠ some .straight ∧ detectHandType cards ≠ some .straight_flush := by
  have hmem : (15 : Nat) ∈ (sortCards cards).map (·.rank) := by
    obtain ⟨c, hc, hr⟩ := h15
    exact List.mem_map.mpr
      ⟨c, (List.perm_insertionSort cardLE cards).mem_iff.mpr hc, hr⟩
  have hcons : isConsecutive ((sortCards cards).map (·.rank)) = false := by
    unfold isConsecutive
    have h15s : (15 : Nat) ∈
        List.insertionSort (· ≤ ·) ((sortCards cards).map (·.rank)) :=
      (List.perm_insertionSort _ _).mem_iff.mpr hmem
    rw [if_pos (by simpa using h15s)]
  have hd : detectHandType cards = detect5CardHand cards := by
    unfold detectHandType
    rw [h5]
  rw [hd]
  simp only [detect5CardHand, hcons, Bool.false_and, Bool.false_eq_true, if_false]
  split_ifs <;> simp

/-- Spec-side strict card order of C6: higher rank wins, equal ranks fall to
suit power (clubs < diamonds < hearts < spades). -/
def cardBeats (a b : Card) : Prop :=
  b.rank < a.rank ∨ (a.rank = b.rank ∧ SUIT_ORDER b.suit < SUIT_ORDER a.suit)

instance : DecidableRel cardBeats := fun a b => by unfold cardBeats; infer_instance

/-- Numeric key realizing the rank-then-suit order (suit order is < 4). -/
def cardKey (c : Card) : Nat := c.rank * 4 + SUIT_ORDER c.suit

theorem suit_order_lt_four (s : Suit) : SUIT_ORDER s < 4 := by
  cases s <;> simp [SUIT_ORDER]

theorem cardBeats_iff_key (a b : Card) : cardBeats a b ↔ cardKey b < cardKey a := by
  have ha := suit_order_lt_four a.suit
  have hb := suit_order_lt_four b.suit
  unfold cardBeats cardKey
  omega

theorem compare_pos_iff_beats (a b : Card) :
    compareBigTwoCards a b > 0 ↔ cardBeats a b := by
  have ha := suit_order_lt_four a.suit
  have hb := suit_order_lt_four b.suit
  unfold compareBigTwoCards cardBeats
  split_ifs with h
  · constructor
    · intro hgt; left; omega
    · rintro (hr | ⟨hr, _⟩) <;> omega
  · push_neg at h
    constructor
    · intro hgt; right; exact ⟨h, by omega⟩
    · rintro (hr | ⟨_, hs⟩) <;> omega

/-- Spec-side "highest representative card of `ps` beats that of `ls`". -/
def specHighBeats (ps ls : List Card) : Prop :=
  ∃ hp ∈ ps, ∃ hl ∈ ls,
    (∀ c ∈ ps, cardKey c ≤ cardKey hp) ∧
    (∀ c ∈ ls, cardKey c ≤ cardKey hl) ∧ cardBeats hp hl

theorem foldl_high_mem (l : List Card) (a : Card) :
    l.foldl (fun mx c => if compareBigTwoCards c mx > 0 then c else mx) a = a ∨
      l.foldl (fun mx c => if compareBigTwoCards c mx > 0 then c else mx) a ∈ l := by
  induction l generalizing a with
  | nil => left; rfl
  | cons x t ih =>
    simp only [List.foldl_cons]
    rcases ih (if compareBigTwoCards x a > 0 then x else a) with h | h
    · rw [h]
      split_ifs with hc
      · right; exact List.mem_cons_self x t
      · left; rfl
    · right; exact List.mem_cons_of_mem x h

theorem foldl_high_ge (l : List Card) (a : Card) :
    cardKey a ≤
        cardKey (l.foldl (fun mx c => if compareBigTwoCards c mx > 0 then c else mx) a) ∧
      ∀ c ∈ l,
        cardKey c ≤
          cardKey (l.foldl (fun mx c => if compareBigTwoCards c mx > 0 then c else mx) a) := by
  induction l generalizing a with
  | nil => exact ⟨le_refl _, by simp⟩
  | cons x t ih =>
    simp only [List.foldl_cons]
    obtain ⟨ih1, ih2⟩ := ih (if compareBigTwoCards x a > 0 then x else a)
    constructor
    · refine le_trans ?_ ih1
      split_ifs with hc
      · have := (compare_pos_iff_beats x a).mp hc
        rw [cardBeats_iff_key] at this
        omega
      · exact le_refl _
    · intro c hc
      rcases List.mem_cons.mp hc with rfl | hmem
      · refine le_trans ?_ ih1
        split_ifs with hx
        · exact le_refl _
        · have : ¬ cardBeats c a := fun hb =>
            hx ((compare_pos_iff_beats c a).mpr hb)
          rw [cardBeats_iff_key] at this
          omega
      · exact ih2 c hmem

theorem getHighCard_mem (cards : List Card) (h : cards ≠ []) :
    getHighCard cards ∈ cards := by
  obtain ⟨c0, rest, rfl⟩ := List.exists_cons_of_ne_nil h
  unfold getHighCard
  rcases foldl_high_mem (c0 :: rest) ((c0 :: rest).headD card0) with hm | hm
  · rw [hm]; exact List.mem_cons_self _ _
  · exact hm

theorem getHighCard_max (cards : List Card) :
    ∀ c ∈ cards, cardKey c ≤ cardKey (getHighCard cards) := by
  intro c hc
  unfold getHighCard
  exact (foldl_high_ge cards (cards.headD card0)).2 c hc

theorem highBeats_iff (ps ls : List Card) (hps : ps ≠ []) (hls : ls ≠ []) :
    compareBigTwoCards (getHighCard ps) (getHighCard ls) > 0 ↔ specHighBeats ps ls := by
  rw [compare_pos_iff_beats]
  constructor
  · intro h
    exact ⟨getHighCard ps, getHighCard_mem ps hps, getHighCard ls, getHighCard_mem ls hls,
      getHighCard_max ps, getHighCard_max ls, h⟩
  · rintro ⟨hp, hpm, hl, hlm, hpmax, hlmax, hb⟩
    rw [cardBeats_iff_key] at hb ⊢
    have h1 : cardKey hp ≤ cardKey (getHighCard ps) := getHighCard_max ps hp hpm
    have h2 : cardKey (getHighCard ps) ≤ cardKey hp :=
      hpmax _ (getHighCard_mem ps hps)
    have h3 : cardKey hl ≤ cardKey (getHighCard ls) := getHighCard_max ls hl hlm
    have h4 : cardKey (getHighCard ls) ≤ cardKey hl :=
      hlmax _ (getHighCard_mem ls hls)
    omega

theorem two_counts_le_length (l : List Nat) (a b : Nat) (h : a ≠ b) :
    l.count a + l.count b ≤ l.length := by
  induction l with
  | nil => simp
  | cons x t ih =>
    simp only [List.count_cons, List.length_cons, beq_iff_eq]
    split_ifs with h1 h2 h3
    · exact absurd (by omega : a = b) h
    · omega
    · omega
    · omega

theorem count_unique_rank (l : List Nat) (k a b : Nat) (hk : l.length < 2 * k)
    (ha : l.count a = k) (hb : l.count b = k) : a = b := by
  by_contra hne
  have := two_counts_le_length l a b hne
  omega

/-- `find?`-based extraction: if some rank in `ranks` has count `k`, the
first such rank in the sorted dedup list also has count `k`. -/
theorem find_rank_with_count (ranks : List Nat) (k : Nat)
    (h : ∃ r, ranks.count r = k) (hk : 0 < k) :
    ranks.count
      (((List.insertionSort (· ≤ ·) ranks.dedup).find?
        (fun r => rankCount ranks r == k)).getD 0) = k := by
  obtain ⟨r, hr⟩ := h
  have hmem : r ∈ List.insertionSort (· ≤ ·) ranks.dedup := by
    refine (List.perm_insertionSort _ _).mem_iff.mpr ?_
    exact List.mem_dedup.mpr (List.count_pos_iff.mp (hr ▸ hk))
  have hsome : (List.insertionSort (· ≤ ·) ranks.dedup).find?
      (fun r => rankCount ranks r == k) |>.isSome := by
    rw [List.find?_isSome]
    exact ⟨r, hmem, by simp [rankCount, hr]⟩
  obtain ⟨r₀, hr₀⟩ := Option.isSome_iff_exists.mp hsome
  have := List.find?_some hr₀
  rw [hr₀]
  simpa [rankCount] using this

/-- Spec-side comparison for one identical hand type, following C6's wording. -/
def specSameType (t : HandType) (ps ls : List Card) : Prop :=
  match t with
  | .single => ∃ p0 l0, ps = [p0] ∧ ls = [l0] ∧ cardBeats p0 l0
  | .pair | .triple | .straight | .straight_flush => specHighBeats ps ls
  | .full_house => ∃ rp rl, (ps.map (·.rank)).count rp = 3 ∧
      (ls.map (·.rank)).count rl = 3 ∧ rl < rp
  | .four_of_a_kind => ∃ rp rl, (ps.map (·.rank)).count rp = 4 ∧
      (ls.map (·.rank)).count rl = 4 ∧ rl < rp

/-- Spec-side reading of C6 as a whole: equal card count always required;
5-card plays of different types compare by type power (straight < full_house
< four_of_a_kind < straight_flush, the `HAND_TYPE_POWER` table); identical
types compare by representative card. -/
def specBeats (play lastPlay : Play) : Prop :=
  play.cards.length = lastPlay.cards.length ∧
  ((play.handType ≠ lastPlay.handType ∧ play.cards.length = 5 ∧
      HAND_TYPE_POWER lastPlay.handType < HAND_TYPE_POWER play.handType) ∨
    (play.handType = lastPlay.handType ∧
      specSameType play.handType play.cards lastPlay.cards))

/-- Number of cards each detected hand type necessarily has. -/
def typeLen : HandType → Nat
  | .single => 1
  | .pair => 2
  | .triple => 3
  | _ => 5

theorem length_of_detect (cards : List Card) (t : HandType)
    (h : detectHandType cards = some t) : cards.length = typeLen t := by
  unfold detectHandType at h
  split at h
  · rename_i hl
    injection h with h
    subst h
    simpa using hl
  · rename_i hl
    split at h
    · injection h with h; subst h; simpa using hl
    · exact absurd h (by simp)
  · rename_i hl
    split at h
    · injection h with h; subst h; simpa using hl
    · exact absurd h (by simp)
  · rename_i hl
    simp only [detect5CardHand] at h
    split_ifs at h <;> injection h with h <;> (subst h; simpa using hl)
  · exact absurd h (by simp)

theorem detect5_of_detect (cards : List Card) (t : HandType)
    (h : detectHandType cards = some t) (h5 : cards.length = 5) :
    detect5CardHand cards = some t := by
  unfold detectHandType at h
  rw [h5] at h
  exact h

theorem count_sorted_ranks (cards : List Card) (r : Nat) :
    ((sortCards cards).map (·.rank)).count r = (cards.map (·.rank)).count r :=
  ((List.perm_insertionSort cardLE cards).map (·.rank)).count_eq r

theorem exists_triple_of_fullHouse (cards : List Card)
    (h : detectHandType cards = some .full_house) :
    ∃ r, (cards.map (·.rank)).count r = 3 := by
  have h5 := length_of_detect _ _ h
  have hd := detect5_of_detect _ _ h (by simpa [typeLen] using h5)
  simp only [detect5CardHand] at hd
  split_ifs at hd with h1 h2 h3 <;> try (simp at hd)
  unfold isFullHouse at h3
  have h3' : List.insertionSort (· ≤ ·)
      ((((sortCards cards).map (·.rank)).dedup).map
        (rankCount ((sortCards cards).map (·.rank)))) = [2, 3] := by
    simpa using h3
  have h3mem : (3 : Nat) ∈ List.insertionSort (· ≤ ·)
      ((((sortCards cards).map (·.rank)).dedup).map
        (rankCount ((sortCards cards).map (·.rank)))) := by
    rw [h3']
    simp
  have hmem := (List.perm_insertionSort (· ≤ ·) _).mem_iff.mp h3mem
  obtain ⟨r, _, hr⟩ := List.mem_map.mp hmem
  exact ⟨r, by rw [← count_sorted_ranks]; exact hr⟩

theorem exists_four_of_fourKind (cards : List Card)
    (h : detectHandType cards = some .four_of_a_kind) :
    ∃ r, (cards.map (·.rank)).count r = 4 := by
  have h5 := length_of_detect _ _ h
  have hd := detect5_of_detect _ _ h (by simpa [typeLen] using h5)
  simp only [detect5CardHand] at hd
  split_ifs at hd with h1 h2 <;> try (simp at hd)
  unfold isFourOfAKind at h2
  obtain ⟨r, _, hr⟩ := List.any_eq_true.mp h2
  refine ⟨r, ?_⟩
  rw [← count_sorted_ranks]
  simpa [rankCount] using hr

theorem canBeatSameType_iff (play lastPlay : Play)
    (hp : detectHandType play.cards = some play.handType)
    (hl : detectHandType lastPlay.cards = some lastPlay.handType)
    (ht : lastPlay.handType = play.handType) :
    canBeatSameType play lastPlay = true ↔
      specSameType play.handType play.cards lastPlay.cards := by
  have hplen := length_of_detect _ _ hp
  have hllen := length_of_detect _ _ hl
  rw [ht] at hllen
  unfold canBeatSameType
  cases htp : play.handType with
  | single =>
    rw [htp] at hplen hllen
    simp only [typeLen] at hplen hllen
    obtain ⟨p0, hp0⟩ := List.length_eq_one.mp hplen
    obtain ⟨l0, hl0⟩ := List.length_eq_one.mp hllen
    rw [hp0, hl0]
    simp only [List.headD, specSameType, decide_eq_true_eq]
    rw [compare_pos_iff_beats]
    constructor
    · intro h
      exact ⟨p0, l0, rfl, rfl, h⟩
    · rintro ⟨q0, m0, he1, he2, hb⟩
      rw [List.cons.injEq] at he1 he2
      rw [he1.1, he2.1]
      exact hb
  | pair =>
    rw [htp] at hplen hllen
    simp only [typeLen] at hplen hllen
    simp only [specSameType, decide_eq_true_eq]
    exact highBeats_iff _ _ (by intro hnil; rw [hnil] at hplen; simp at hplen)
      (by intro hnil; rw [hnil] at hllen; simp at hllen)
  | triple =>
    rw [htp] at hplen hllen
    simp only [typeLen] at hplen hllen
    simp only [specSameType, decide_eq_true_eq]
    exact highBeats_iff _ _ (by intro hnil; rw [hnil] at hplen; simp at hplen)
      (by intro hnil; rw [hnil] at hllen; simp at hllen)
  | straight =>
    rw [htp] at hplen hllen
    simp only [typeLen] at hplen hllen
    simp only [specSameType, decide_eq_true_eq]
    exact highBeats_iff _ _ (by intro hnil; rw [hnil] at hplen; simp at hplen)
      (by intro hnil; rw [hnil] at hllen; simp at hllen)
  | straight_flush =>
    rw [htp] at hplen hllen
    simp only [typeLen] at hplen hllen
    simp only [specSameType, decide_eq_true_eq]
    exact highBeats_iff _ _ (by intro hnil; rw [hnil] at hplen; simp at hplen)
      (by intro hnil; rw [hnil] at hllen; simp at hllen)
  | full_house =>
    rw [htp] at hplen hllen hp
    rw [ht, htp] at hl
    simp only [typeLen] at hplen hllen
    have hex1 := exists_triple_of_fullHouse _ hp
    have hex2 := exists_triple_of_fullHouse _ hl
    have e1 : (play.cards.map (·.rank)).count (getTripleRank play.cards) = 3 := by
      unfold getTripleRank
      exact find_rank_with_count _ 3 hex1 (by norm_num)
    have e2 : (lastPlay.cards.map (·.rank)).count (getTripleRank lastPlay.cards) = 3 := by
      unfold getTripleRank
      exact find_rank_with_count _ 3 hex2 (by norm_num)
    simp only [specSameType, decide_eq_true_eq]
    constructor
    · intro hgt
      exact ⟨getTripleRank play.cards, getTripleRank lastPlay.cards, e1, e2, hgt⟩
    · rintro ⟨rp, rl, hc1, hc2, hlt⟩
      have hrp : rp = getTripleRank play.cards :=
        count_unique_rank _ 3 _ _ (by simp [hplen]) hc1 e1
      have hrl : rl = getTripleRank lastPlay.cards :=
        count_unique_rank _ 3 _ _ (by simp [hllen]) hc2 e2
      rw [hrp, hrl] at hlt
      exact hlt
  | four_of_a_kind =>
    rw [htp] at hplen hllen hp
    rw [ht, htp] at hl
    simp only [typeLen] at hplen hllen
    have hex1 := exists_four_of_fourKind _ hp
    have hex2 := exists_four_of_fourKind _ hl
    have e1 : (play.cards.map (·.rank)).count (getFourRank play.cards) = 4 := by
      unfold getFourRank
      exact find_rank_with_count _ 4 hex1 (by norm_num)
    have e2 : (lastPlay.cards.map (·.rank)).count (getFourRank lastPlay.cards) = 4 := by
      unfold getFourRank
      exact find_rank_with_count _ 4 hex2 (by norm_num)
    simp only [specSameType, decide_eq_true_eq]
    constructor
    · intro hgt
      exact ⟨getFourRank play.cards, getFourRank lastPlay.cards, e1, e2, hgt⟩
    · rintro ⟨rp, rl, hc1, hc2, hlt⟩
      have hrp : rp = getFourRank play.cards :=
        count_unique_rank _ 4 _ _ (by simp [hplen]) hc1 e1
      have hrl : rl = getFourRank lastPlay.cards :=
        count_unique_rank _ 4 _ _ (by simp [hllen]) hc2 e2
      rw [hrp, hrl] at hlt
      exact hlt

/-- C6: `canBeatPlay` demands equal card count; 5-card plays of different
detected types are decided by the power order straight < full_house <
four_of_a_kind < straight_flush; identical types compare by the highest
representative card (rank, then suit power), with full house and four of a
kind compared by the rank of their triple resp. quad. -/
theorem canBeatPlay_iff_spec (play lastPlay : Play)
    (hp : detectHandType play.cards = some play.handType)
    (hl : detectHandType lastPlay.cards = some lastPlay.handType) :
    canBeatPlay play lastPlay = true ↔ specBeats play lastPlay := by
  unfold canBeatPlay
  by_cases hlen : play.cards.length = lastPlay.cards.length
  · rw [if_neg (by simpa using hlen)]
    unfold canBeatTail
    by_cases hty : play.handType = lastPlay.handType
    · rw [if_neg (by simp [hty]), if_neg (by simp [hty])]
      unfold specBeats
      rw [canBeatSameType_iff play lastPlay hp hl hty.symm]
      constructor
      · intro h
        exact ⟨hlen, Or.inr ⟨hty, h⟩⟩
      · rintro ⟨_, h | ⟨_, h⟩⟩
        · exact absurd hty h.1
        · exact h
    · by_cases h5 : play.cards.length = 5
      · rw [if_pos ⟨hty, h5⟩]
        unfold specBeats
        simp only [decide_eq_true_eq]
        constructor
        · intro h
          exact ⟨hlen, Or.inl ⟨hty, h5, h⟩⟩
        · rintro ⟨_, ⟨_, _, h⟩ | ⟨he, _⟩⟩
          · exact h
          · exact absurd he hty
      · rw [if_neg (by rintro ⟨_, h⟩; exact h5 h), if_pos hty]
        unfold specBeats
        constructor
        · intro h
          exact absurd h (by simp)
        · rintro ⟨_, ⟨_, h, _⟩ | ⟨he, _⟩⟩
          · exact absurd h h5
          · exact absurd he hty
  · rw [if_pos (by simpa using hlen)]
    rw [if_neg (by rintro ⟨ha, hb⟩; exact hlen (ha.trans hb.symm))]
    unfold specBeats
    constructor
    · intro h
      exact absurd h (by simp)
    · rintro ⟨h, _⟩
      exact absurd h hlen

/-- Demo play: pair of kings (♥K ♠K). -/
def pairKings : Play := ⟨[⟨.hearts, 13⟩, ⟨.spades, 13⟩], .pair⟩

/-- Demo play: pair of queens (♣Q ♦Q). -/
def pairQueens : Play := ⟨[⟨.clubs, 12⟩, ⟨.diamonds, 12⟩], .pair⟩

/-- Witness for C6: two concrete well-formed pairs satisfy the hypotheses,
and the comparison plays out. -/
theorem canBeatPlay_iff_spec_witness :
    detectHandType pairKings.cards = some pairKings.handType ∧
      detectHandType pairQueens.cards = some pairQueens.handType ∧
      canBeatPlay pairKings pairQueens = true ∧
      (canBeatPlay pairKings pairQueens = true ↔ specBeats pairKings pairQueens) :=
  ⟨by decide, by decide, by decide,
    canBeatPlay_iff_spec pairKings pairQueens (by decide) (by decide)⟩

/-- Witness for C7: a concrete 5-card hand with ♠2 (rank 15) present. -/
theorem no_straight_with_two_witness :
    ([⟨Suit.spades, 15⟩, ⟨Suit.clubs, 3⟩, ⟨Suit.clubs, 4⟩, ⟨Suit.clubs, 5⟩,
        ⟨Suit.clubs, 6⟩] : List Card).length = 5 ∧
      (detectHandType [⟨Suit.spades, 15⟩, ⟨Suit.clubs, 3⟩, ⟨Suit.clubs, 4⟩,
          ⟨Suit.clubs, 5⟩, ⟨Suit.clubs, 6⟩] ≠ some .straight ∧
        detectHandType [⟨Suit.spades, 15⟩, ⟨Suit.clubs, 3⟩, ⟨Suit.clubs, 4⟩,
          ⟨Suit.clubs, 5⟩, ⟨Suit.clubs, 6⟩] ≠ some .straight_flush) :=
  ⟨rfl, no_straight_with_two _ rfl ⟨⟨Suit.spades, 15⟩, by decide, rfl⟩⟩

end BigTwo

namespace Mahjong

/-- Mahjong tile suits (`MahjongSuit`). -/
inductive Suit where
  | wan | tong | tiao | wind | dragon
  deriving DecidableEq, Repr

/-- The suit order used by `sortHand` in `mahjongLogic.ts`. -/
def suitOrder : Suit → Nat
  | .wan => 0
  | .tong => 1
  | .tiao => 2
  | .wind => 3
  | .dragon => 4

/-- A mahjong tile.  The source `MahjongTile` also carries string `id` and
deck `index` fields that none of the decomposition logic reads; tile values
are JS numbers, embedded as integers. -/
structure MTile where
  suit : Suit
  value : Int
  deriving DecidableEq, Repr

/-- `['wan','tong','tiao'].includes(suit)`: the three number suits. -/
def isNumberSuitB (s : Suit) : Bool :=
  s == .wan || s == .tong || s == .tiao

/-- The order imposed by `sortHand`'s comparator: suit order first, numeric
value inside one suit. -/
def tileLE (a b : MTile) : Prop :=
  suitOrder a.suit < suitOrder b.suit ∨
    (suitOrder a.suit = suitOrder b.suit ∧ a.value ≤ b.value)

instance : DecidableRel tileLE := fun a b => by unfold tileLE; infer_instance

instance : IsTotal MTile tileLE :=
  ⟨fun a b => by unfold tileLE; omega⟩

instance : IsTrans MTile tileLE :=
  ⟨fun a b c hab hbc => by unfold tileLE at *; omega⟩

instance : IsRefl MTile tileLE :=
  ⟨fun a => by unfold tileLE; omega⟩

theorem suitOrder_inj (a b : Suit) (h : suitOrder a = suitOrder b) : a = b := by
  cases a <;> cases b <;> first | rfl | simp [suitOrder] at h

theorem tileLE_antisymm (a b : MTile) (h1 : tileLE a b) (h2 : tileLE b a) : a = b := by
  unfold tileLE at h1 h2
  have hs : a.suit = b.suit := by
    apply suitOrder_inj
    omega
  have hv : a.value = b.value := by omega
  cases a
  cases b
  simp_all

/-- `sortHand(hand)` from `mahjongLogic.ts` (a stable comparator sort). -/
def sortHand (hand : List MTile) : List MTile :=
  List.insertionSort tileLE hand

/-- The `findIndex`-plus-`splice` removal of the first tile matching a
suit/value pair, used by `checkHu` and both backtracking routines. -/
def eraseKind (s : Suit) (v : Int) (l : List MTile) : List MTile :=
  l.eraseP (fun t => t.suit == s && t.value == v)

theorem predKind_iff (s : Suit) (v : Int) (t : MTile) :
    ((t.suit == s && t.value == v) = true) ↔ t = ⟨s, v⟩ := by
  cases t
  simp [MTile.mk.injEq]

theorem eraseKind_eq_erase (s : Suit) (v : Int) (l : List MTile) :
    eraseKind s v l = l.erase ⟨s, v⟩ := by
  induction l with
  | nil => rfl
  | cons x t ih =>
    unfold eraseKind at ih ⊢
    by_cases hx : x = ⟨s, v⟩
    · have hb : (x.suit == s && x.value == v) = true := (predKind_iff s v x).mpr hx
      have hb2 : (x == (⟨s, v⟩ : MTile)) = true := by simp [hx]
      simp [List.eraseP_cons, List.erase_cons, hb, hb2]
    · have hb : (x.suit == s && x.value == v) = false := by
        rw [Bool.eq_false_iff]
        intro hc
        exact hx ((predKind_iff s v x).mp hc)
      have hb2 : (x == (⟨s, v⟩ : MTile)) = false := by simp [hx]
      simp [List.eraseP_cons, List.erase_cons, hb, hb2, ih]

theorem countKind_eq_count (s : Suit) (v : Int) (l : List MTile) :
    l.countP (fun t => t.suit == s && t.value == v) = l.count ⟨s, v⟩ := by
  induction l with
  | nil => rfl
  | cons x t ih =>
    by_cases hx : x = ⟨s, v⟩
    · have hb : (x.suit == s && x.value == v) = true := (predKind_iff s v x).mpr hx
      have hb2 : (x == (⟨s, v⟩ : MTile)) = true := by simp [hx]
      simp [List.countP_cons, List.count_cons, hb, hb2, ih]
    · have hb : (x.suit == s && x.value == v) = false := by
        rw [Bool.eq_false_iff]
        intro hc
        exact hx ((predKind_iff s v x).mp hc)
      have hb2 : (x == (⟨s, v⟩ : MTile)) = false := by simp [hx]
      simp [List.countP_cons, List.count_cons, hb, hb2, ih]

theorem anyKind_iff (s : Suit) (v : Int) (l : List MTile) :
    (l.any (fun t => t.suit == s && t.value == v) = true) ↔ (⟨s, v⟩ : MTile) ∈ l := by
  rw [List.any_eq_true]
  constructor
  · rintro ⟨t, ht, hp⟩
    rwa [(predKind_iff s v t).mp hp] at ht
  · intro h
    exact ⟨_, h, (predKind_iff s v _).mpr rfl⟩

/-- `canFormSets(tiles)` from `mahjongLogic.ts`, with an explicit fuel in
place of the source's implicit well-founded recursion (each recursive call is
on a list exactly 3 tiles shorter, so `tiles.length` fuel always suffices).
The pong branch requires at least three tiles matching the first tile and
removes the first three such occurrences; the chow branch requires a number
suit and the two successor values present, and removes the first tile plus
the first occurrence of each successor. -/
def canFormSetsGo : Nat → List MTile → Bool
  | _, [] => true
  | 0, _ :: _ => false
  | fuel + 1, first :: rest =>
    let tiles := first :: rest
    let pongOk :=
      if 3 ≤ tiles.countP (fun t => t.suit == first.suit && t.value == first.value) then
        canFormSetsGo fuel
          (eraseKind first.suit first.value
            (eraseKind first.suit first.value (eraseKind first.suit first.value tiles)))
      else false
    let chiOk :=
      if isNumberSuitB first.suit then
        if tiles.any (fun t => t.suit == first.suit && t.value == first.value + 1) &&
            tiles.any (fun t => t.suit == first.suit && t.value == first.value + 2) then
          canFormSetsGo fuel
            (eraseKind first.suit (first.value + 2)
              (eraseKind first.suit (first.value + 1) rest))
        else false
      else false
    pongOk || chiOk

/-- `canFormSets(tiles)`: the source's recursion with sufficient fuel. -/
def canFormSets (tiles : List MTile) : Bool :=
  canFormSetsGo tiles.length tiles

/-- The adjacent-equal scan of `checkHu` that collects candidate pair kinds
(the source accumulates `"suit-value"` keys in a `Set`). -/
def adjacentPairs : List MTile → List (Suit × Int)
  | a :: b :: t =>
    if a.suit == b.suit && a.value == b.value then
      (a.suit, a.value) :: adjacentPairs (b :: t)
    else adjacentPairs (b :: t)
  | _ => []

/-- `checkHu(hand)` from `mahjongLogic.ts`: sort, enumerate candidate pairs,
remove each pair (two `findIndex`/`splice` steps) and backtrack over the
remainder. -/
def checkHu (hand : List MTile) : Bool :=
  let sortedHand := sortHand hand
  ((adjacentPairs sortedHand).dedup).any
    (fun k => canFormSets (eraseKind k.1 k.2 (eraseKind k.1 k.2 sortedHand)))

/-- Spec-side set shapes for C2: a triplet of one tile kind, or a run of
three consecutive values in a number suit. -/
inductive IsMSet : List MTile → Prop
  | triplet (s : Suit) (v : Int) : IsMSet [⟨s, v⟩, ⟨s, v⟩, ⟨s, v⟩]
  | run (s : Suit) (v : Int) (h : isNumberSuitB s = true) :
      IsMSet [⟨s, v⟩, ⟨s, v + 1⟩, ⟨s, v + 2⟩]

/-- Spec-side for C2: the tile multiset splits into triplet/run sets. -/
def CanFormSets (l : List MTile) : Prop :=
  ∃ sets : List (List MTile), (∀ m ∈ sets, IsMSet m) ∧ l.Perm sets.flatten

/-- Spec-side for C2: exactly one pair plus triplet/run sets covering all
remaining tiles. -/
def HuHand (l : List MTile) : Prop :=
  ∃ (s : Suit) (v : Int) (rest : List MTile),
    l.Perm (⟨s, v⟩ :: ⟨s, v⟩ :: rest) ∧ CanFormSets rest

end Mahjong

namespace Mahjong

theorem CanFormSets_nil : CanFormSets [] := ⟨[], by simp, by simp⟩

theorem CanFormSets_perm (l l' : List MTile) (hp : l.Perm l') (h : CanFormSets l') :
    CanFormSets l := by
  obtain ⟨sets, h1, h2⟩ := h
  exact ⟨sets, h1, hp.trans h2⟩

theorem tile_ne_of_value_ne (s : Suit) (v w : Int) (h : v ≠ w) :
    (⟨s, v⟩ : MTile) ≠ ⟨s, w⟩ := by
  intro hc
  rw [MTile.mk.injEq] at hc
  exact h hc.2

theorem canFormSetsGo_sound :
    ∀ (fuel : Nat) (tiles : List MTile),
      canFormSetsGo fuel tiles = true → CanFormSets tiles := by
  intro fuel
  induction fuel with
  | zero =>
    intro tiles h
    cases tiles with
    | nil => exact CanFormSets_nil
    | cons a t => simp [canFormSetsGo] at h
  | succ fuel ih =>
    intro tiles h
    cases tiles with
    | nil => exact CanFormSets_nil
    | cons first rest =>
      simp only [canFormSetsGo, eraseKind_eq_erase, Bool.or_eq_true] at h
      rcases h with h | h
      · -- pong branch
        split_ifs at h with hcnt
        rw [countKind_eq_count] at hcnt
        have hfe : (⟨first.suit, first.value⟩ : MTile) = first := rfl
        rw [hfe] at hcnt h
        have hm1 : first ∈ first :: rest := List.mem_cons_self _ _
        have hc1 : 2 ≤ ((first :: rest).erase first).count first := by
          rw [List.count_erase_self]
          omega
        have hm2 : first ∈ (first :: rest).erase first :=
          List.count_pos_iff.mp (by omega)
        have hc2 : 1 ≤ (((first :: rest).erase first).erase first).count first := by
          rw [List.count_erase_self, List.count_erase_self]
          omega
        have hm3 : first ∈ ((first :: rest).erase first).erase first :=
          List.count_pos_iff.mp (by omega)
        have p1 := List.perm_cons_erase hm1
        have p2 := List.perm_cons_erase hm2
        have p3 := List.perm_cons_erase hm3
        obtain ⟨sets, hsets, hperm⟩ := ih _ h
        refine ⟨[first, first, first] :: sets, ?_, ?_⟩
        · intro m hm
          rcases List.mem_cons.mp hm with rfl | hm
          · have : IsMSet [(⟨first.suit, first.value⟩ : MTile),
                ⟨first.suit, first.value⟩, ⟨first.suit, first.value⟩] :=
              IsMSet.triplet first.suit first.value
            simpa [hfe] using this
          · exact hsets m hm
        · have hfinal : ([first, first, first] :: sets).flatten
              = first :: first :: first :: sets.flatten := by simp
          rw [hfinal]
          exact p1.trans ((p2.cons first).trans
            (((p3.cons first).cons first).trans
              (((hperm.cons first).cons first).cons first)))
      · -- chow branch
        split_ifs at h with hn hany
        rw [Bool.and_eq_true, anyKind_iff, anyKind_iff] at hany

        obtain ⟨ha1, ha2⟩ := hany
        have hfe : (⟨first.suit, first.value⟩ : MTile) = first := rfl
        have hne1 : (⟨first.suit, first.value + 1⟩ : MTile) ≠ first := by
          rw [← hfe]
          exact tile_ne_of_value_ne first.suit (first.value + 1) first.value (by omega)
        have hne2 : (⟨first.suit, first.value + 2⟩ : MTile) ≠ first := by
          rw [← hfe]
          exact tile_ne_of_value_ne first.suit (first.value + 2) first.value (by omega)
        have hne21 : (⟨first.suit, first.value + 2⟩ : MTile) ≠
            ⟨first.suit, first.value + 1⟩ :=
          tile_ne_of_value_ne first.suit (first.value + 2) (first.value + 1) (by omega)
        have hm1 : (⟨first.suit, first.value + 1⟩ : MTile) ∈ rest := by
          rcases List.mem_cons.mp ha1 with hc | hc
          · exact absurd hc hne1
          · exact hc
        have hm2 : (⟨first.suit, first.value + 2⟩ : MTile) ∈
            rest.erase ⟨first.suit, first.value + 1⟩ := by
          rw [List.mem_erase_of_ne hne21]
          rcases List.mem_cons.mp ha2 with hc | hc
          · exact absurd hc hne2
          · exact hc
        have p1 := List.perm_cons_erase hm1
        have p2 := List.perm_cons_erase hm2
        obtain ⟨sets, hsets, hperm⟩ := ih _ h
        refine ⟨[⟨first.suit, first.value⟩, ⟨first.suit, first.value + 1⟩,
            ⟨first.suit, first.value + 2⟩] :: sets, ?_, ?_⟩
        · intro m hm
          rcases List.mem_cons.mp hm with rfl | hm
          · exact IsMSet.run first.suit first.value hn
          · exact hsets m hm
        · have hfinal : ([(⟨first.suit, first.value⟩ : MTile),
              ⟨first.suit, first.value + 1⟩,
              ⟨first.suit, first.value + 2⟩] :: sets).flatten
              = (⟨first.suit, first.value⟩ : MTile) ::
                ⟨first.suit, first.value + 1⟩ ::
                ⟨first.suit, first.value + 2⟩ :: sets.flatten := by simp
          rw [hfinal, hfe]
          exact (p1.cons first).trans
            (((p2.cons _).cons first).trans
              (((hperm.cons _).cons _).cons first))

end Mahjong

namespace Mahjong

theorem flatten_extract (l1 l2 : List (List MTile)) (S : List MTile) :
    (l1 ++ S :: l2).flatten.Perm (S ++ (l1 ++ l2).flatten) := by
  have h1 : (l1.flatten ++ S).Perm (S ++ l1.flatten) := List.perm_append_comm
  have h0 : (l1 ++ S :: l2).flatten = l1.flatten ++ (S ++ l2.flatten) := by
    simp [List.flatten_append]
  have h2 : (l1 ++ l2).flatten = l1.flatten ++ l2.flatten := by
    simp [List.flatten_append]
  rw [h0, h2, ← List.append_assoc, ← List.append_assoc]
  exact h1.append_right _

theorem tileLE_refl (a : MTile) : tileLE a a := by
  unfold tileLE
  omega

theorem sorted_head_min (first : MTile) (rest : List MTile)
    (hs : List.Sorted tileLE (first :: rest)) :
    ∀ x ∈ first :: rest, tileLE first x := by
  intro x hx
  rcases List.mem_cons.mp hx with rfl | hx
  · exact tileLE_refl x
  · exact (List.sorted_cons.mp hs).1 x hx

theorem not_tileLE_succ (s : Suit) (v k : Int) (hk : 0 < k) :
    ¬ tileLE ⟨s, v + k⟩ ⟨s, v⟩ := by
  unfold tileLE
  dsimp only
  omega

theorem canFormSetsGo_complete :
    ∀ (fuel : Nat) (tiles : List MTile),
      tiles.length ≤ fuel → List.Sorted tileLE tiles → CanFormSets tiles →
      canFormSetsGo fuel tiles = true := by
  intro fuel
  induction fuel with
  | zero =>
    intro tiles hf _ _
    have h0 : tiles = [] := List.eq_nil_of_length_eq_zero (Nat.le_zero.mp hf)
    rw [h0]
    rfl
  | succ fuel ih =>
    intro tiles hf hs hcf
    cases tiles with
    | nil => rfl
    | cons first rest =>
      obtain ⟨sets, hsets, hperm⟩ := hcf
      have hfm : first ∈ sets.flatten := hperm.mem_iff.mp (List.mem_cons_self _ _)
      obtain ⟨S, hS, hfS⟩ := List.mem_flatten.mp hfm
      obtain ⟨l1, l2, rfl⟩ := List.append_of_mem hS
      have hperm2 : (first :: rest).Perm (S ++ (l1 ++ l2).flatten) :=
        hperm.trans (flatten_extract l1 l2 S)
      have hsets' : ∀ m ∈ l1 ++ l2, IsMSet m := by
        intro m hm
        apply hsets
        rcases List.mem_append.mp hm with h | h
        · exact List.mem_append.mpr (Or.inl h)
        · exact List.mem_append.mpr (Or.inr (List.mem_cons_of_mem _ h))
      have hmin := sorted_head_min first rest hs
      have hsrest : List.Sorted tileLE rest := (List.sorted_cons.mp hs).2
      cases hsets S (List.mem_append.mpr (Or.inr (List.mem_cons_self _ _))) with
      | triplet s v =>
        have hfe : first = ⟨s, v⟩ := by simpa using hfS
        subst hfe
        have hc : 3 ≤ ((⟨s, v⟩ : MTile) :: rest).count (⟨s, v⟩ : MTile) := by
          rw [hperm2.count_eq]
          rw [List.count_append]
          simp
        have hm1 : (⟨s, v⟩ : MTile) ∈ (⟨s, v⟩ : MTile) :: rest :=
          List.mem_cons_self _ _
        have hc1 : 2 ≤ (((⟨s, v⟩ : MTile) :: rest).erase ⟨s, v⟩).count (⟨s, v⟩ : MTile) := by
          rw [List.count_erase_self]
          omega
        have hm2 : (⟨s, v⟩ : MTile) ∈ ((⟨s, v⟩ : MTile) :: rest).erase ⟨s, v⟩ :=
          List.count_pos_iff.mp (by omega)
        have hm3 : (⟨s, v⟩ : MTile) ∈
            (((⟨s, v⟩ : MTile) :: rest).erase ⟨s, v⟩).erase ⟨s, v⟩ := by
          apply List.count_pos_iff.mp
          rw [List.count_erase_self, List.count_erase_self]
          omega
        have p1 : (((⟨s, v⟩ : MTile) :: rest).erase ⟨s, v⟩).Perm
            ((⟨s, v⟩ : MTile) :: (⟨s, v⟩ : MTile) :: (l1 ++ l2).flatten) := by
          have h := hperm2.erase (⟨s, v⟩ : MTile)
          simpa using h
        have p2 : ((((⟨s, v⟩ : MTile) :: rest).erase ⟨s, v⟩).erase ⟨s, v⟩).Perm
            ((⟨s, v⟩ : MTile) :: (l1 ++ l2).flatten) := by
          have h := p1.erase (⟨s, v⟩ : MTile)
          simpa using h
        have p3 : (((((⟨s, v⟩ : MTile) :: rest).erase ⟨s, v⟩).erase ⟨s, v⟩).erase
            ⟨s, v⟩).Perm ((l1 ++ l2).flatten) := by
          have h := p2.erase (⟨s, v⟩ : MTile)
          simpa using h
        have hlen : (((((⟨s, v⟩ : MTile) :: rest).erase ⟨s, v⟩).erase ⟨s, v⟩).erase
            ⟨s, v⟩).length + 3 = rest.length + 1 := by
          rw [List.length_erase_of_mem hm3, List.length_erase_of_mem hm2,
            List.length_erase_of_mem hm1]
          have hcl : 3 ≤ ((⟨s, v⟩ : MTile) :: rest).length :=
            le_trans hc (List.count_le_length _ _)
          simp only [List.length_cons] at hcl ⊢
          omega
        have hsort3 : List.Sorted tileLE
            (((((⟨s, v⟩ : MTile) :: rest).erase ⟨s, v⟩).erase ⟨s, v⟩).erase ⟨s, v⟩) := by
          refine List.Pairwise.sublist ?_ hs
          exact ((List.erase_sublist _ _).trans
            ((List.erase_sublist _ _).trans (List.erase_sublist _ _)))
        simp only [canFormSetsGo, eraseKind_eq_erase, Bool.or_eq_true]
        left
        rw [countKind_eq_count]
        rw [if_pos (by simpa using hc)]
        apply ih
        · simp only [List.length_cons] at hf
          omega
        · exact hsort3
        · exact ⟨l1 ++ l2, hsets', p3⟩
      | run s v hn =>
        have hv0 : (⟨s, v⟩ : MTile) ∈ first :: rest :=
          hperm2.mem_iff.mpr (by simp)
        have hle := hmin ⟨s, v⟩ hv0
        have hfS' : first = ⟨s, v⟩ ∨ first = ⟨s, v + 1⟩ ∨ first = ⟨s, v + 2⟩ := by
          simpa using hfS
        have hfe : first = ⟨s, v⟩ := by
          rcases hfS' with h | h | h
          · exact h
          · rw [h] at hle
            exact absurd hle (not_tileLE_succ s v 1 (by omega))
          · rw [h] at hle
            exact absurd hle (not_tileLE_succ s v 2 (by omega))
        subst hfe
        have hrest : rest.Perm ((⟨s, v + 1⟩ : MTile) :: (⟨s, v + 2⟩ : MTile) ::
            (l1 ++ l2).flatten) := by
          have h : ((⟨s, v⟩ : MTile) :: rest).Perm ((⟨s, v⟩ : MTile) ::
              (⟨s, v + 1⟩ : MTile) :: (⟨s, v + 2⟩ : MTile) :: (l1 ++ l2).flatten) := by
            simpa using hperm2
          exact h.cons_inv
        have hm1 : (⟨s, v + 1⟩ : MTile) ∈ rest := hrest.mem_iff.mpr (by simp)
        have p1 : (rest.erase ⟨s, v + 1⟩).Perm
            ((⟨s, v + 2⟩ : MTile) :: (l1 ++ l2).flatten) := by
          have h := hrest.erase (⟨s, v + 1⟩ : MTile)
          simpa using h
        have hm2 : (⟨s, v + 2⟩ : MTile) ∈ rest.erase ⟨s, v + 1⟩ :=
          p1.mem_iff.mpr (by simp)
        have p2 : ((rest.erase ⟨s, v + 1⟩).erase ⟨s, v + 2⟩).Perm
            ((l1 ++ l2).flatten) := by
          have h := p1.erase (⟨s, v + 2⟩ : MTile)
          simpa using h
        have hlen : ((rest.erase ⟨s, v + 1⟩).erase ⟨s, v + 2⟩).length + 2 =
            rest.length := by
          rw [List.length_erase_of_mem hm2, List.length_erase_of_mem hm1]
          have : 1 ≤ rest.length := List.length_pos.mpr (List.ne_nil_of_mem hm1)
          have h2 : 1 ≤ (rest.erase ⟨s, v + 1⟩).length :=
            List.length_pos.mpr (List.ne_nil_of_mem hm2)
          rw [List.length_erase_of_mem hm1] at h2
          omega
        have hsort2 : List.Sorted tileLE ((rest.erase ⟨s, v + 1⟩).erase ⟨s, v + 2⟩) := by
          refine List.Pairwise.sublist ?_ hsrest
          exact (List.erase_sublist _ _).trans (List.erase_sublist _ _)
        simp only [canFormSetsGo, eraseKind_eq_erase, Bool.or_eq_true]
        right
        rw [if_pos hn]
        have hany1 : (((⟨s, v⟩ : MTile) :: rest).any
            (fun t => t.suit == (⟨s, v⟩ : MTile).suit &&
              t.value == (⟨s, v⟩ : MTile).value + 1)) = true := by
          rw [anyKind_iff]
          exact List.mem_cons_of_mem _ hm1
        have hany2 : (((⟨s, v⟩ : MTile) :: rest).any
            (fun t => t.suit == (⟨s, v⟩ : MTile).suit &&
              t.value == (⟨s, v⟩ : MTile).value + 2)) = true := by
          rw [anyKind_iff]
          have : (⟨s, v + 2⟩ : MTile) ∈ rest.erase ⟨s, v + 1⟩ := hm2
          exact List.mem_cons_of_mem _ (List.mem_of_mem_erase this)
        rw [if_pos (by rw [hany1, hany2]; rfl)]
        apply ih
        · have hrl := hrest.length_eq
          simp only [List.length_cons] at hf hrl
          omega
        · exact hsort2
        · exact ⟨l1 ++ l2, hsets', p2⟩

end Mahjong

namespace Mahjong

/-- `canFormSets` decides partitionability into triplet/run sets, for sorted
tile lists. -/
theorem canFormSets_iff (tiles : List MTile) (hs : List.Sorted tileLE tiles) :
    canFormSets tiles = true ↔ CanFormSets tiles :=
  ⟨canFormSetsGo_sound _ _,
    canFormSetsGo_complete tiles.length tiles (le_refl _) hs⟩

theorem mem_adjacentPairs_count (l : List MTile) (s : Suit) (v : Int)
    (h : (s, v) ∈ adjacentPairs l) : 2 ≤ l.count (⟨s, v⟩ : MTile) := by
  induction l with
  | nil => simp [adjacentPairs] at h
  | cons a t ih =>
    cases t with
    | nil => simp [adjacentPairs] at h
    | cons b t' =>
      rw [adjacentPairs] at h
      split_ifs at h with hab
      · rcases List.mem_cons.mp h with he | hmem
        · have h1 : s = a.suit ∧ v = a.value := by
            rw [Prod.mk.injEq] at he
            exact he
          have hb : b = ⟨s, v⟩ := by
            rw [Bool.and_eq_true, beq_iff_eq, beq_iff_eq] at hab
            obtain ⟨hs', hv'⟩ := hab
            cases b
            simp only [MTile.mk.injEq]
            exact ⟨hs'.symm.trans h1.1.symm, hv'.symm.trans h1.2.symm⟩
          have ha : a = ⟨s, v⟩ := by
            cases a
            simp only [MTile.mk.injEq]
            exact ⟨h1.1.symm, h1.2.symm⟩
          rw [ha, hb, List.count_cons_self, List.count_cons_self]
          omega
        · have := ih hmem
          rw [List.count_cons]
          omega
      · have := ih h
        rw [List.count_cons]
        omega

theorem adjacentPairs_mem_of_tail (a b : MTile) (t : List MTile) (k : Suit × Int)
    (h : k ∈ adjacentPairs (b :: t)) : k ∈ adjacentPairs (a :: b :: t) := by
  rw [adjacentPairs]
  split_ifs with hab
  · exact List.mem_cons_of_mem _ h
  · exact h

theorem count_two_mem_adjacentPairs (l : List MTile) (s : Suit) (v : Int)
    (hs : List.Sorted tileLE l) (h : 2 ≤ l.count (⟨s, v⟩ : MTile)) :
    (s, v) ∈ adjacentPairs l := by
  induction l with
  | nil => simp at h
  | cons a t ih =>
    by_cases ha : a = ⟨s, v⟩
    · have hct : 1 ≤ t.count (⟨s, v⟩ : MTile) := by
        rw [ha, List.count_cons_self] at h
        omega
      have hmem : (⟨s, v⟩ : MTile) ∈ t := List.count_pos_iff.mp (by omega)
      cases t with
      | nil => simp at hmem
      | cons b t' =>
        have hab : tileLE a b := (List.sorted_cons.mp hs).1 b (List.mem_cons_self _ _)
        have hbsv : tileLE b ⟨s, v⟩ := by
          rcases List.mem_cons.mp hmem with he | hmem'
          · rw [he]
            exact tileLE_refl _
          · exact (List.sorted_cons.mp (List.sorted_cons.mp hs).2).1 _ hmem'
        have hb : b = ⟨s, v⟩ := by
          apply tileLE_antisymm
          · exact hbsv
          · rw [← ha]
            exact hab
        rw [adjacentPairs]
        rw [if_pos (by rw [ha, hb]; simp)]
        rw [ha]
        exact List.mem_cons_self _ _
    · have hct : 2 ≤ t.count (⟨s, v⟩ : MTile) := by
        rwa [List.count_cons_of_ne (fun hc => ha hc.symm)] at h
      have hmem : (⟨s, v⟩ : MTile) ∈ t := List.count_pos_iff.mp (by omega)
      cases t with
      | nil => simp at hmem
      | cons b t' =>
        exact adjacentPairs_mem_of_tail a b t' (s, v)
          (ih (List.sorted_cons.mp hs).2 hct)

/-- `checkHu` decides the pair-plus-sets partition property (C2's iff),
for arbitrary input order. -/
theorem checkHu_iff_huHand (hand : List MTile) :
    checkHu hand = true ↔ HuHand hand := by
  have hperm : (sortHand hand).Perm hand := List.perm_insertionSort _ _
  have hsorted : List.Sorted tileLE (sortHand hand) :=
    List.sorted_insertionSort tileLE hand
  unfold checkHu
  rw [List.any_eq_true]
  constructor
  · rintro ⟨k, hk, hcan⟩
    obtain ⟨s, v⟩ := k
    have hkp : (s, v) ∈ adjacentPairs (sortHand hand) := List.mem_dedup.mp hk
    have hcnt := mem_adjacentPairs_count _ _ _ hkp
    have hm1 : (⟨s, v⟩ : MTile) ∈ sortHand hand := List.count_pos_iff.mp (by omega)
    have hm2 : (⟨s, v⟩ : MTile) ∈ (sortHand hand).erase ⟨s, v⟩ := by
      apply List.count_pos_iff.mp
      rw [List.count_erase_self]
      omega
    have p1 := List.perm_cons_erase hm1
    have p2 := List.perm_cons_erase hm2
    rw [eraseKind_eq_erase, eraseKind_eq_erase] at hcan
    have hcf : CanFormSets (((sortHand hand).erase ⟨s, v⟩).erase ⟨s, v⟩) :=
      canFormSetsGo_sound _ _ hcan
    refine ⟨s, v, ((sortHand hand).erase ⟨s, v⟩).erase ⟨s, v⟩, ?_, hcf⟩
    exact hperm.symm.trans (p1.trans (p2.cons _))
  · rintro ⟨s, v, rest, hp, hcf⟩
    have hsp : (sortHand hand).Perm ((⟨s, v⟩ : MTile) :: (⟨s, v⟩ : MTile) :: rest) :=
      hperm.trans hp
    have hcnt : 2 ≤ (sortHand hand).count (⟨s, v⟩ : MTile) := by
      rw [hsp.count_eq]
      rw [List.count_cons, List.count_cons]
      simp
    refine ⟨(s, v), List.mem_dedup.mpr
      (count_two_mem_adjacentPairs _ _ _ hsorted hcnt), ?_⟩
    rw [eraseKind_eq_erase, eraseKind_eq_erase]
    have p1 : ((sortHand hand).erase ⟨s, v⟩).Perm ((⟨s, v⟩ : MTile) :: rest) := by
      have h := hsp.erase (⟨s, v⟩ : MTile)
      simpa using h
    have p2 : (((sortHand hand).erase ⟨s, v⟩).erase ⟨s, v⟩).Perm rest := by
      have h := p1.erase (⟨s, v⟩ : MTile)
      simpa using h
    have hsort2 : List.Sorted tileLE (((sortHand hand).erase ⟨s, v⟩).erase ⟨s, v⟩) := by
      refine List.Pairwise.sublist ?_ hsorted
      exact (List.erase_sublist _ _).trans (List.erase_sublist _ _)
    exact (canFormSets_iff _ hsort2).mpr (CanFormSets_perm _ _ p2 hcf)

theorem IsMSet_length (S : List MTile) (h : IsMSet S) : S.length = 3 := by
  cases h <;> rfl

theorem flatten_sets_length (sets : List (List MTile))
    (h : ∀ m ∈ sets, IsMSet m) : sets.flatten.length = 3 * sets.length := by
  induction sets with
  | nil => simp
  | cons S t ih =>
    rw [List.flatten_cons, List.length_append,
      IsMSet_length S (h S (List.mem_cons_self _ _)),
      ih (fun m hm => h m (List.mem_cons_of_mem _ hm))]
    simp only [List.length_cons]
    ring

theorem huHand_length_mod (l : List MTile) (h : HuHand l) : l.length % 3 = 2 := by
  obtain ⟨s, v, rest, hp, sets, hsets, hrp⟩ := h
  have h1 := hp.length_eq
  have h2 := hrp.length_eq
  rw [flatten_sets_length sets hsets] at h2
  simp only [List.length_cons] at h1
  omega

end Mahjong

namespace Mahjong

/-- C2: for a tile multiset of size ≡ 2 mod 3, `checkHu` is true iff the
tiles split into exactly one pair plus triplet/run sets covering the rest;
the result is input-order (hence pair-choice) independent; and any list of
size ≡ 1 mod 3 — one tile short of such a partition — yields false. -/
theorem checkHu_partition_correct (hand : List MTile) (_h2 : hand.length % 3 = 2) :
    (checkHu hand = true ↔ HuHand hand) ∧
      (∀ hand' : List MTile, hand'.Perm hand → checkHu hand' = checkHu hand) ∧
      (∀ short : List MTile, short.length % 3 = 1 → checkHu short = false) := by
  refine ⟨checkHu_iff_huHand hand, ?_, ?_⟩
  · intro hand' hp
    by_cases hh : checkHu hand = true
    · have hH := (checkHu_iff_huHand hand).mp hh
      obtain ⟨s, v, rest, hpp, hcf⟩ := hH
      have h' : HuHand hand' := ⟨s, v, rest, hp.trans hpp, hcf⟩
      rw [hh, (checkHu_iff_huHand hand').mpr h']
    · have hh' : ¬ checkHu hand' = true := by
        intro hc
        obtain ⟨s, v, rest, hpp, hcf⟩ := (checkHu_iff_huHand hand').mp hc
        exact hh ((checkHu_iff_huHand hand).mpr ⟨s, v, rest, hp.symm.trans hpp, hcf⟩)
      rw [Bool.not_eq_true] at hh hh'
      rw [hh, hh']
  · intro short h1
    by_contra hc
    rw [Bool.not_eq_false] at hc
    have := huHand_length_mod short ((checkHu_iff_huHand short).mp hc)
    omega

/-- The spec's §8 winning-hand scenario: 111 wan triplet, 234 wan run,
567 tong run, east-wind triplet, 99 tiao pair (14 tiles). -/
def demoHuHand : List MTile :=
  [⟨.wan, 1⟩, ⟨.wan, 1⟩, ⟨.wan, 1⟩, ⟨.wan, 2⟩, ⟨.wan, 3⟩, ⟨.wan, 4⟩,
   ⟨.tong, 5⟩, ⟨.tong, 6⟩, ⟨.tong, 7⟩, ⟨.wind, 1⟩, ⟨.wind, 1⟩, ⟨.wind, 1⟩,
   ⟨.tiao, 9⟩, ⟨.tiao, 9⟩]

/-- Witness for C2: the spec's scenario hand has size ≡ 2 mod 3, `checkHu`
accepts it, and the claim's theorem applies. -/
theorem checkHu_partition_correct_witness :
    demoHuHand.length % 3 = 2 ∧ checkHu demoHuHand = true ∧
      (checkHu demoHuHand = true ↔ HuHand demoHuHand) :=
  ⟨by decide, by decide, (checkHu_partition_correct demoHuHand (by decide)).1⟩

/-- C10: both recursive calls of the backtracking decomposition (the pong
branch's triple removal and the chow branch's head-plus-two-successors
removal, shared verbatim — same `eraseKind` steps — by `canFormSets` in the
mahjong logic and `trySets` in the scoring calculator) receive a list exactly
3 tiles shorter, so the recursions are total with `length` as measure. -/
theorem backtracking_calls_shrink :
    (∀ (s : Suit) (v : Int) (tiles : List MTile),
        3 ≤ tiles.countP (fun t => t.suit == s && t.value == v) →
        (eraseKind s v (eraseKind s v (eraseKind s v tiles))).length + 3 =
          tiles.length) ∧
    (∀ (first : MTile) (rest : List MTile),
        ((first :: rest).any
          (fun t => t.suit == first.suit && t.value == first.value + 1)) = true →
        ((first :: rest).any
          (fun t => t.suit == first.suit && t.value == first.value + 2)) = true →
        (eraseKind first.suit (first.value + 2)
          (eraseKind first.suit (first.value + 1) rest)).length + 3 =
          (first :: rest).length) := by
  constructor
  · intro s v tiles hc
    rw [countKind_eq_count] at hc
    have hm1 : (⟨s, v⟩ : MTile) ∈ tiles := List.count_pos_iff.mp (by omega)
    have hm2 : (⟨s, v⟩ : MTile) ∈ tiles.erase ⟨s, v⟩ := by
      apply List.count_pos_iff.mp
      rw [List.count_erase_self]
      omega
    have hm3 : (⟨s, v⟩ : MTile) ∈ (tiles.erase ⟨s, v⟩).erase ⟨s, v⟩ := by
      apply List.count_pos_iff.mp
      rw [List.count_erase_self, List.count_erase_self]
      omega
    rw [eraseKind_eq_erase, eraseKind_eq_erase, eraseKind_eq_erase,
      List.length_erase_of_mem hm3, List.length_erase_of_mem hm2,
      List.length_erase_of_mem hm1]
    have := le_trans hc (List.count_le_length _ _)
    omega
  · intro first rest ha1 ha2
    rw [anyKind_iff] at ha1 ha2
    have hfe : (⟨first.suit, first.value⟩ : MTile) = first := rfl
    have hne1 : (⟨first.suit, first.value + 1⟩ : MTile) ≠ first := by
      rw [← hfe]
      exact tile_ne_of_value_ne first.suit (first.value + 1) first.value (by omega)
    have hne2 : (⟨first.suit, first.value + 2⟩ : MTile) ≠ first := by
      rw [← hfe]
      exact tile_ne_of_value_ne first.suit (first.value + 2) first.value (by omega)
    have hne21 : (⟨first.suit, first.value + 2⟩ : MTile) ≠
        ⟨first.suit, first.value + 1⟩ :=
      tile_ne_of_value_ne first.suit (first.value + 2) (first.value + 1) (by omega)
    have hm1 : (⟨first.suit, first.value + 1⟩ : MTile) ∈ rest := by
      rcases List.mem_cons.mp ha1 with hc | hc
      · exact absurd hc hne1
      · exact hc
    have hm2 : (⟨first.suit, first.value + 2⟩ : MTile) ∈
        rest.erase ⟨first.suit, first.value + 1⟩ := by
      rw [List.mem_erase_of_ne hne21]
      rcases List.mem_cons.mp ha2 with hc | hc
      · exact absurd hc hne2
      · exact hc
    rw [eraseKind_eq_erase, eraseKind_eq_erase,
      List.length_erase_of_mem hm2, List.length_erase_of_mem hm1]
    have h1 : 1 ≤ rest.length := List.length_pos.mpr (List.ne_nil_of_mem hm1)
    have h2 : 1 ≤ (rest.erase ⟨first.suit, first.value + 1⟩).length :=
      List.length_pos.mpr (List.ne_nil_of_mem hm2)
    rw [List.length_erase_of_mem hm1] at h2
    simp only [List.length_cons]
    omega

/-- Witness for C10: both shrink facts evaluated on concrete tile lists. -/
theorem backtracking_calls_shrink_witness :
    (3 ≤ ([⟨.wan, 5⟩, ⟨.wan, 5⟩, ⟨.wan, 5⟩, ⟨.tong, 1⟩] : List MTile).countP
        (fun t => t.suit == Suit.wan && t.value == (5 : Int)) ∧
      (eraseKind .wan 5 (eraseKind .wan 5 (eraseKind .wan 5
        ([⟨.wan, 5⟩, ⟨.wan, 5⟩, ⟨.wan, 5⟩, ⟨.tong, 1⟩] : List MTile)))).length + 3 =
        ([⟨.wan, 5⟩, ⟨.wan, 5⟩, ⟨.wan, 5⟩, ⟨.tong, 1⟩] : List MTile).length) ∧
    ((eraseKind Suit.tiao ((2 : Int) + 2) (eraseKind Suit.tiao ((2 : Int) + 1)
        ([⟨.tiao, 3⟩, ⟨.tiao, 4⟩] : List MTile))).length + 3 =
      ((⟨.tiao, 2⟩ : MTile) :: [⟨.tiao, 3⟩, ⟨.tiao, 4⟩]).length) :=
  ⟨⟨by decide, backtracking_calls_shrink.1 .wan 5 _ (by decide)⟩,
    backtracking_calls_shrink.2 ⟨.tiao, 2⟩ [⟨.tiao, 3⟩, ⟨.tiao, 4⟩]
      (by decide) (by decide)⟩

end Mahjong

namespace Mahjong

/-- `canPong(hand, tile)`: at least two matching tiles in hand. -/
def canPong (hand : List MTile) (tile : MTile) : Bool :=
  2 ≤ hand.countP (fun t => t.suit == tile.suit && t.value == tile.value)

/-- `canKong(hand, tile)`: exactly three matching tiles in hand. -/
def canKong (hand : List MTile) (tile : MTile) : Bool :=
  hand.countP (fun t => t.suit == tile.suit && t.value == tile.value) == 3

/-- `canChi(hand, tile)`: number suits only; one of the three adjacent-run
shapes (v+1,v+2 / v-1,v+1 / v-2,v-1) present in the same suit. -/
def canChi (hand : List MTile) (tile : MTile) : Bool :=
  if tile.suit == .wind || tile.suit == .dragon then false
  else
    let sameSuit := hand.filter (fun t => t.suit == tile.suit)
    let has := fun (val : Int) => sameSuit.any (fun t => t.value == val)
    (has (tile.value + 1) && has (tile.value + 2)) ||
      (has (tile.value - 1) && has (tile.value + 1)) ||
      (has (tile.value - 2) && has (tile.value - 1))

/-- A mahjong seat as the claim-resolution code reads it: id (a string in
the source, distinct per seat, embedded as `Nat`), seat wind (0-3), concealed
hand, and the number of declared melds (only the count is read here). -/
structure MPlayer where
  id : Nat
  wind : Nat
  hand : List MTile
  melds : Nat
  deriving DecidableEq, Repr

/-- One entry of `pendingActions` built by `discardMahjongTile`. -/
structure PendingEntry where
  playerId : Nat
  canChi : Bool
  canPong : Bool
  canKong : Bool
  canHu : Bool
  deriving DecidableEq, Repr

instance : Inhabited PendingEntry := ⟨⟨0, false, false, false, false⟩⟩

/-- The eligibility loop of `discardMahjongTile` (complete snapshot in
`types/index.ts`): for every seat other than the discarder with a non-empty
hand, compute Pong/Kong eligibility, Chi eligibility (next seat downstream
by wind only), and Hu against hand-plus-tile; push an entry if any holds. -/
def collectActions (currentPlayerId : Nat) (discarderWind : Nat) (tile : MTile) :
    List MPlayer → List PendingEntry
  | [] => []
  | p :: ps =>
    let restAcc := collectActions currentPlayerId discarderWind tile ps
    if p.id == currentPlayerId then restAcc
    else if p.hand.length == 0 then restAcc
    else
      let pongResult := canPong p.hand tile
      let kongResult := canKong p.hand tile
      let isNextPlayer := p.wind == (discarderWind + 1) % 4
      let chiResult := isNextPlayer && canChi p.hand tile
      let huResult := checkHu (p.hand ++ [tile])
      if pongResult || kongResult || chiResult || huResult then
        ⟨p.id, chiResult, pongResult, kongResult, huResult⟩ :: restAcc
      else restAcc

/-- `getScore` of the priority resolver: Hu=3, Pong/Kong=2, Chi=1, else 0. -/
def getScore (pa : PendingEntry) : Nat :=
  if pa.canHu then 3
  else if pa.canPong || pa.canKong then 2
  else if pa.canChi then 1
  else 0

/-- `players.findIndex(p => p.id === id)` (−1 when absent, as in JS). -/
def playerIndexOf (players : List MPlayer) (pid : Nat) : Int :=
  match players.findIdx? (fun p => p.id == pid) with
  | some i => (i : Int)
  | none => -1

/-- Downstream rotational distance `(idx - discarderIndex + 4) % 4` used to
order multiple Hu claimants. -/
def downstreamDist (players : List MPlayer) (dIdx : Nat) (pid : Nat) : Int :=
  (playerIndexOf players pid - (dIdx : Int) + 4) % 4

/-- The comparator of the multi-Hu sort (stable sort by downstream distance). -/
def distLE (players : List MPlayer) (dIdx : Nat) (a b : PendingEntry) : Prop :=
  downstreamDist players dIdx a.playerId ≤ downstreamDist players dIdx b.playerId

instance (players : List MPlayer) (dIdx : Nat) : DecidableRel (distLE players dIdx) :=
  fun a b => by unfold distLE; infer_instance

instance (players : List MPlayer) (dIdx : Nat) :
    IsTotal PendingEntry (distLE players dIdx) :=
  ⟨fun a b => by unfold distLE; omega⟩

instance (players : List MPlayer) (dIdx : Nat) :
    IsTrans PendingEntry (distLE players dIdx) :=
  ⟨fun a b c hab hbc => by unfold distLE at *; omega⟩

/-- The target-selection block of `discardMahjongTile`: maximum score wins;
on a score-3 (multi-Hu) tie the claimants are sorted by downstream distance
and the first is taken; otherwise the first highest-priority entry is taken. -/
def resolveTarget (players : List MPlayer) (dIdx : Nat)
    (pendingActions : List PendingEntry) : Nat :=
  let maxScore := (pendingActions.map getScore).foldl max 0
  let highestPriorityPlayers :=
    pendingActions.filter (fun pa => getScore pa == maxScore)
  if maxScore == 3 then
    ((List.insertionSort (distLE players dIdx) highestPriorityPlayers).headD
      default).playerId
  else (highestPriorityPlayers.headD default).playerId

/-- The claim-resolution core of `discardMahjongTile` (complete snapshot):
collect the eligibility entries; when any exist, the pending action targets
exactly one seat, chosen by `resolveTarget`. -/
def discardResolve (players : List MPlayer) (dIdx : Nat) (tile : MTile) :
    Option (Nat × List PendingEntry) :=
  match players.get? dIdx with
  | none => none
  | some discarder =>
    let pendingActions := collectActions discarder.id discarder.wind tile players
    if 0 < pendingActions.length then
      some (resolveTarget players dIdx pendingActions, pendingActions)
    else none

end Mahjong

namespace Mahjong

theorem foldl_max_ge (l : List Nat) (a : Nat) :
    a ≤ l.foldl max a ∧ ∀ x ∈ l, x ≤ l.foldl max a := by
  induction l generalizing a with
  | nil => exact ⟨le_refl _, by simp⟩
  | cons y t ih =>
    obtain ⟨ih1, ih2⟩ := ih (max a y)
    refine ⟨le_trans (le_max_left a y) ih1, ?_⟩
    intro x hx
    rcases List.mem_cons.mp hx with rfl | hx
    · exact le_trans (le_max_right a x) ih1
    · exact ih2 x hx

theorem foldl_max_le (l : List Nat) (a b : Nat) (ha : a ≤ b)
    (hl : ∀ x ∈ l, x ≤ b) : l.foldl max a ≤ b := by
  induction l generalizing a with
  | nil => exact ha
  | cons y t ih =>
    exact ih (max a y)
      (max_le ha (hl y (List.mem_cons_self _ _)))
      (fun x hx => hl x (List.mem_cons_of_mem _ hx))

theorem foldl_max_mem (l : List Nat) (a : Nat) :
    l.foldl max a = a ∨ l.foldl max a ∈ l := by
  induction l generalizing a with
  | nil => left; rfl
  | cons y t ih =>
    rcases ih (max a y) with h | h
    · simp only [List.foldl_cons]
      rcases max_cases a y with ⟨he, _⟩ | ⟨he, _⟩
      · left; rw [h, he]
      · right; rw [h, he]; exact List.mem_cons_self _ _
    · right
      exact List.mem_cons_of_mem _ h

theorem getScore_le_three (pa : PendingEntry) : getScore pa ≤ 3 := by
  unfold getScore
  split_ifs <;> omega

theorem getScore_eq_three_iff (pa : PendingEntry) :
    getScore pa = 3 ↔ pa.canHu = true := by
  unfold getScore
  split_ifs with h1 h2 h3 <;> simp_all

theorem collectActions_chi (cid dwind : Nat) (tile : MTile) :
    ∀ ps : List MPlayer, ∀ pa ∈ collectActions cid dwind tile ps,
      pa.canChi = true →
        ∃ p ∈ ps, p.id = pa.playerId ∧ p.wind = (dwind + 1) % 4 ∧
          canChi p.hand tile = true := by
  intro ps
  induction ps with
  | nil => intro pa hpa; simp [collectActions] at hpa
  | cons p t ih =>
    intro pa hpa hchi
    simp only [collectActions] at hpa
    split_ifs at hpa with h1 h2 h3
    · obtain ⟨q, hq, hrest⟩ := ih pa hpa hchi
      exact ⟨q, List.mem_cons_of_mem _ hq, hrest⟩
    · obtain ⟨q, hq, hrest⟩ := ih pa hpa hchi
      exact ⟨q, List.mem_cons_of_mem _ hq, hrest⟩
    · rcases List.mem_cons.mp hpa with rfl | hpa'
      · have hchi' : (p.wind == (dwind + 1) % 4 && canChi p.hand tile) = true := hchi
        rw [Bool.and_eq_true, beq_iff_eq] at hchi'
        exact ⟨p, List.mem_cons_self _ _, rfl, hchi'.1, hchi'.2⟩
      · obtain ⟨q, hq, hrest⟩ := ih pa hpa' hchi
        exact ⟨q, List.mem_cons_of_mem _ hq, hrest⟩
    · obtain ⟨q, hq, hrest⟩ := ih pa hpa hchi
      exact ⟨q, List.mem_cons_of_mem _ hq, hrest⟩

theorem maxScore_attained (actions : List PendingEntry) (hne : actions ≠ []) :
    ∃ pa ∈ actions, getScore pa = (actions.map getScore).foldl max 0 := by
  rcases foldl_max_mem (actions.map getScore) 0 with h | h
  · obtain ⟨pa0, hpa0⟩ := List.exists_mem_of_ne_nil actions hne
    refine ⟨pa0, hpa0, ?_⟩
    have hub := (foldl_max_ge (actions.map getScore) 0).2 (getScore pa0)
      (List.mem_map_of_mem _ hpa0)
    omega
  · obtain ⟨pa, hpa, he⟩ := List.mem_map.mp h
    exact ⟨pa, hpa, he⟩

/-- C1: whenever a discarded tile has at least one eligible claimant, the
resolver's entries carry the Hu=3 / Pong,Kong=2 / Chi=1 scores, Chi is only
granted to the seat immediately downstream of the discarder, the single seat
allowed to act holds the maximum score, and with two or more Hu-eligible
seats the acting seat is a Hu claimant of minimal downstream rotational
distance from the discarder. -/
theorem discard_claim_priority (players : List MPlayer) (dIdx : Nat) (tile : MTile)
    (discarder : MPlayer) (hd : players.get? dIdx = some discarder)
    (target : Nat) (actions : List PendingEntry)
    (hres : discardResolve players dIdx tile = some (target, actions)) :
    actions = collectActions discarder.id discarder.wind tile players ∧
    (∀ pa ∈ actions, pa.canChi = true →
        ∃ p ∈ players, p.id = pa.playerId ∧ p.wind = (discarder.wind + 1) % 4) ∧
    (∃ pa ∈ actions, pa.playerId = target ∧
        ∀ pb ∈ actions, getScore pb ≤ getScore pa) ∧
    (∀ pa ∈ actions, ∀ pb ∈ actions, pa ≠ pb →
        pa.canHu = true → pb.canHu = true →
        ∃ pt ∈ actions, pt.playerId = target ∧ pt.canHu = true ∧
          ∀ pc ∈ actions, pc.canHu = true →
            downstreamDist players dIdx pt.playerId ≤
              downstreamDist players dIdx pc.playerId) := by
  unfold discardResolve at hres
  rw [hd] at hres
  have hres2 : (if 0 < (collectActions discarder.id discarder.wind tile players).length
      then some (resolveTarget players dIdx
          (collectActions discarder.id discarder.wind tile players),
        collectActions discarder.id discarder.wind tile players)
      else none) = some (target, actions) := hres
  clear hres
  by_cases hne : 0 < (collectActions discarder.id discarder.wind tile players).length
  · rw [if_pos hne] at hres2
    injection hres2 with hres
    rw [Prod.mk.injEq] at hres
    obtain ⟨htarget, hactions⟩ := hres
    rw [hactions] at htarget hne
    have hnonnil : actions ≠ [] := by
      intro hc
      rw [hc] at hne
      simp at hne
    refine ⟨hactions.symm, ?_, ?_, ?_⟩
    · intro pa hpa hchi
      rw [← hactions] at hpa
      obtain ⟨p, hp, hid, hwind, _⟩ :=
        collectActions_chi discarder.id discarder.wind tile players pa hpa hchi
      exact ⟨p, hp, hid, hwind⟩
    · -- the selected seat holds the maximum score
      subst htarget
      unfold resolveTarget
      obtain ⟨paM, hpaM, hM⟩ := maxScore_attained actions hnonnil
      have hub : ∀ pb ∈ actions,
          getScore pb ≤ (actions.map getScore).foldl max 0 := fun pb hpb =>
        (foldl_max_ge (actions.map getScore) 0).2 _ (List.mem_map_of_mem _ hpb)
      have hfil : paM ∈ actions.filter
          (fun pa => getScore pa == (actions.map getScore).foldl max 0) :=
        List.mem_filter.mpr ⟨hpaM, by simp [hM]⟩
      by_cases h3 : ((actions.map getScore).foldl max 0 == 3)
      · rw [if_pos h3]
        set L := List.insertionSort (distLE players dIdx)
          (actions.filter
            (fun pa => getScore pa == (actions.map getScore).foldl max 0)) with hL
        have hLperm : L.Perm (actions.filter
            (fun pa => getScore pa == (actions.map getScore).foldl max 0)) :=
          List.perm_insertionSort _ _
        have hLne : L ≠ [] := by
          intro hc
          have := hLperm.mem_iff.mpr hfil
          rw [hc] at this
          simp at this
        obtain ⟨h0, t0, hLeq⟩ := List.exists_cons_of_ne_nil hLne
        have hh0 : h0 ∈ actions.filter
            (fun pa => getScore pa == (actions.map getScore).foldl max 0) := by
          apply hLperm.mem_iff.mp
          rw [hLeq]
          exact List.mem_cons_self _ _
        obtain ⟨hh0a, hh0s⟩ := List.mem_filter.mp hh0
        refine ⟨h0, hh0a, by rw [hLeq]; rfl, ?_⟩
        intro pb hpb
        have := hub pb hpb
        have hs0 : getScore h0 = (actions.map getScore).foldl max 0 := by
          simpa using hh0s
        omega
      · rw [if_neg h3]
        have hfne : actions.filter
            (fun pa => getScore pa == (actions.map getScore).foldl max 0) ≠ [] :=
          List.ne_nil_of_mem hfil
        obtain ⟨h0, t0, hLeq⟩ := List.exists_cons_of_ne_nil hfne
        have hh0 : h0 ∈ actions.filter
            (fun pa => getScore pa == (actions.map getScore).foldl max 0) := by
          rw [hLeq]
          exact List.mem_cons_self _ _
        obtain ⟨hh0a, hh0s⟩ := List.mem_filter.mp hh0
        refine ⟨h0, hh0a, by rw [hLeq]; rfl, ?_⟩
        intro pb hpb
        have := hub pb hpb
        have hs0 : getScore h0 = (actions.map getScore).foldl max 0 := by
          simpa using hh0s
        omega
    · -- multi-Hu case: minimal downstream distance
      intro pa hpa pb hpb hne2 hhua hhub
      subst htarget
      unfold resolveTarget
      have hM3 : (actions.map getScore).foldl max 0 = 3 := by
        have h1 : 3 ≤ (actions.map getScore).foldl max 0 := by
          have := (foldl_max_ge (actions.map getScore) 0).2 (getScore pa)
            (List.mem_map_of_mem _ hpa)
          rw [(getScore_eq_three_iff pa).mpr hhua] at this
          exact this
        have h2 : (actions.map getScore).foldl max 0 ≤ 3 :=
          foldl_max_le _ 0 3 (by omega)
            (by rintro x hx
                obtain ⟨pc, _, rfl⟩ := List.mem_map.mp hx
                exact getScore_le_three pc)
        omega
      rw [if_pos (by simp [hM3])]
      set F := actions.filter
        (fun pc => getScore pc == (actions.map getScore).foldl max 0) with hF
      set L := List.insertionSort (distLE players dIdx) F with hL
      have hLperm : L.Perm F := List.perm_insertionSort _ _
      have hfilpa : pa ∈ F := by
        rw [hF]
        refine List.mem_filter.mpr ⟨hpa, ?_⟩
        rw [hM3]
        simp [(getScore_eq_three_iff pa).mpr hhua]
      have hLne : L ≠ [] := by
        intro hc
        have := hLperm.mem_iff.mpr hfilpa
        rw [hc] at this
        simp at this
      obtain ⟨h0, t0, hLeq⟩ := List.exists_cons_of_ne_nil hLne
      have hsorted : List.Sorted (distLE players dIdx) L :=
        List.sorted_insertionSort _ _
      have hh0 : h0 ∈ F := by
        apply hLperm.mem_iff.mp
        rw [hLeq]
        exact List.mem_cons_self _ _
      obtain ⟨hh0a, hh0s⟩ := List.mem_filter.mp hh0
      have hh0hu : h0.canHu = true := by
        apply (getScore_eq_three_iff h0).mp
        have : getScore h0 = (actions.map getScore).foldl max 0 := by
          simpa using hh0s
        omega
      refine ⟨h0, hh0a, by rw [hLeq]; rfl, hh0hu, ?_⟩
      intro pc hpc hhc
      have hfc : pc ∈ F := by
        rw [hF]
        refine List.mem_filter.mpr ⟨hpc, ?_⟩
        rw [hM3]
        simp [(getScore_eq_three_iff pc).mpr hhc]
      have hcL : pc ∈ L := hLperm.mem_iff.mpr hfc
      rw [hLeq] at hcL hsorted
      rcases List.mem_cons.mp hcL with rfl | hcL'
      · exact le_refl _
      · exact (List.sorted_cons.mp hsorted).1 pc hcL'
  · rw [if_neg hne] at hres2
    exact absurd hres2 (by simp)

end Mahjong

namespace Mahjong

/-- Demo discarder seat (id 0, wind 0). -/
def demoPlayer0 : MPlayer := ⟨0, 0, [⟨.dragon, 2⟩], 0⟩

/-- Demo seats: seat 1 is chi-eligible on the discarded 3-wan, seats 2 and 3
are both Hu-eligible. -/
def demoPlayers : List MPlayer :=
  [demoPlayer0,
   ⟨1, 1, [⟨.wan, 1⟩, ⟨.wan, 2⟩, ⟨.dragon, 1⟩], 0⟩,
   ⟨2, 2, [⟨.wan, 1⟩, ⟨.wan, 2⟩, ⟨.tong, 7⟩, ⟨.tong, 7⟩], 0⟩,
   ⟨3, 3, [⟨.wan, 1⟩, ⟨.wan, 2⟩, ⟨.tong, 7⟩, ⟨.tong, 7⟩], 0⟩]

/-- The discarded tile of the demo scenario. -/
def demoTile : MTile := ⟨.wan, 3⟩

/-- The eligibility entries the resolver computes for the demo scenario. -/
def demoActions : List PendingEntry :=
  [⟨1, true, false, false, false⟩,
   ⟨2, false, false, false, true⟩,
   ⟨3, false, false, false, true⟩]

/-- Witness for C1: with a chi seat and two Hu seats, the resolver targets
seat 2 — the Hu claimant closest downstream — and that target carries the
maximum score. -/
theorem discard_claim_priority_witness :
    discardResolve demoPlayers 0 demoTile = some (2, demoActions) ∧
      (∃ pa ∈ demoActions, pa.playerId = 2 ∧
        ∀ pb ∈ demoActions, getScore pb ≤ getScore pa) :=
  ⟨by decide,
    (discard_claim_priority demoPlayers 0 demoTile demoPlayer0 rfl 2 demoActions
      (by decide)).2.2.1⟩

/-- Game status values written to the store (`gameStatus`). -/
inductive GameStatus where
  | waiting | playing | ended
  deriving DecidableEq, Repr

/-- Round-end reasons (`endReason`). -/
inductive EndReason where
  | hu | zimo | exhaustive_draw
  deriving DecidableEq, Repr

/-- The slice of `MahjongGameState` that `drawMahjongTile` reads. -/
structure MahjongState where
  gameStatus : GameStatus
  pendingAction : Bool
  currentTurn : Nat
  players : List MPlayer
  wall : List MTile
  deriving Repr

/-- Outcome of a draw attempt: the round ends (status `ended` with a reason,
no tile delivered), or a tile is drawn from the wall's end, with a Zimo
pending action when the new hand wins. -/
inductive DrawOutcome where
  | ended (reason : EndReason)
  | drawn (tile : MTile) (newWall : List MTile) (zimoPending : Bool)
  deriving DecidableEq, Repr

/-- `drawMahjongTile` from the complete snapshot (in `types/index.ts`):
guards (playing, no pending action, current player found, effective hand
size below 17), then the Taiwanese dead-wall rule — a wall at or below 16
tiles ends the round as an exhaustive draw — otherwise pop a tile from the
wall's end and check self-draw win.  Store writes and the user-identity
check are outside the embedding; `none` models the silent early returns. -/
def drawMahjongTile (st : MahjongState) : Option DrawOutcome :=
  if st.gameStatus ≠ .playing then none
  else if st.pendingAction then none
  else
    match st.players.findIdx? (fun p => p.id == st.currentTurn) with
    | none => none
    | some playerIndex =>
      match st.players.get? playerIndex with
      | none => none
      | some player =>
        let effectiveSize := player.hand.length + player.melds * 3
        if 17 ≤ effectiveSize then none
        else if st.wall.length ≤ 16 then some (.ended .exhaustive_draw)
        else
          match st.wall.getLast? with
          | none => none
          | some tile =>
            some (.drawn tile st.wall.dropLast
              (checkHu (sortHand (player.hand ++ [tile]))))

/-- The `gameStatus` value each outcome writes. -/
def drawOutcomeStatus : DrawOutcome → GameStatus
  | .ended _ => .ended
  | .drawn _ _ _ => .playing

/-- The `gameStatus` value `performHu` writes on a win
(`gameStatus: 'ended', endReason: 'hu'`, complete snapshot). -/
def performHuStatus : GameStatus := .ended

/-- C5: when a normal draw would consume one of the last 16 wall tiles, the
round ends as an exhaustive draw — the same `ended` game-status a win
writes — and no tile is delivered. -/
theorem dead_wall_exhaustive_draw (st : MahjongState)
    (hplay : st.gameStatus = .playing) (hpa : st.pendingAction = false)
    (pIdx : Nat) (hfind : st.players.findIdx? (fun p => p.id == st.currentTurn) = some pIdx)
    (p : MPlayer) (hp : st.players.get? pIdx = some p)
    (hsize : p.hand.length + p.melds * 3 < 17)
    (hwall : st.wall.length ≤ 16) :
    drawMahjongTile st = some (.ended .exhaustive_draw) ∧
      drawOutcomeStatus (.ended .exhaustive_draw) = performHuStatus := by
  refine ⟨?_, rfl⟩
  unfold drawMahjongTile
  rw [if_neg (by simp [hplay]), if_neg (by simp [hpa]), hfind]
  dsimp only
  rw [hp]
  dsimp only
  rw [if_neg (by omega), if_pos hwall]

/-- Demo state for C5: 17 tiles remain in the wall minus one... a wall of
exactly 16 tiles, a playing game, and seat 0 to draw. -/
def demoDrawState : MahjongState :=
  { gameStatus := .playing
    pendingAction := false
    currentTurn := 0
    players := demoPlayers
    wall := [⟨.wan, 1⟩, ⟨.wan, 2⟩, ⟨.wan, 3⟩, ⟨.wan, 4⟩, ⟨.wan, 5⟩, ⟨.wan, 6⟩,
      ⟨.wan, 7⟩, ⟨.wan, 8⟩, ⟨.tong, 1⟩, ⟨.tong, 2⟩, ⟨.tong, 3⟩, ⟨.tong, 4⟩,
      ⟨.tong, 5⟩, ⟨.tong, 6⟩, ⟨.tong, 7⟩, ⟨.tong, 8⟩] }

/-- Witness for C5: drawing with exactly 16 wall tiles left ends the round. -/
theorem dead_wall_exhaustive_draw_witness :
    demoDrawState.wall.length = 16 ∧
      drawMahjongTile demoDrawState = some (.ended .exhaustive_draw) :=
  ⟨by decide,
    (dead_wall_exhaustive_draw demoDrawState rfl rfl 0 (by decide) demoPlayer0
      (by decide) (by decide) (by decide)).1⟩

end Mahjong

namespace Mahjong

/-- Alphabetical suit-name order used by `trySets`'s
`a.suit.localeCompare(b.suit)` comparator:
dragon < tiao < tong < wan < wind. -/
def localeOrder : Suit → Nat
  | .dragon => 0
  | .tiao => 1
  | .tong => 2
  | .wan => 3
  | .wind => 4

/-- The order imposed by `trySets`'s comparator: locale suit order, then
numeric value. -/
def tileLocLE (a b : MTile) : Prop :=
  localeOrder a.suit < localeOrder b.suit ∨
    (localeOrder a.suit = localeOrder b.suit ∧ a.value ≤ b.value)

instance : DecidableRel tileLocLE := fun a b => by unfold tileLocLE; infer_instance

instance : IsTotal MTile tileLocLE :=
  ⟨fun a b => by unfold tileLocLE; omega⟩

instance : IsTrans MTile tileLocLE :=
  ⟨fun a b c hab hbc => by unfold tileLocLE at *; omega⟩

theorem localeOrder_inj (a b : Suit) (h : localeOrder a = localeOrder b) : a = b := by
  cases a <;> cases b <;> first | rfl | simp [localeOrder] at h

/-- The per-call sort `[...tiles].sort((a,b) => ...)` of `trySets`. -/
def sortLoc (tiles : List MTile) : List MTile :=
  List.insertionSort tileLocLE tiles

/-- Concealed set kinds recorded by `trySets` (`'pong' | 'chow'`). -/
inductive SetType where
  | pong | chow
  deriving DecidableEq, Repr

/-- One set recorded by `trySets`: for a pong the tile value, for a chow the
start value. -/
structure SetChoice where
  type : SetType
  suit : Suit
  value : Int
  deriving DecidableEq, Repr

/-- The three tiles a recorded set stands for. -/
def scTiles (sc : SetChoice) : List MTile :=
  match sc.type with
  | .pong => [⟨sc.suit, sc.value⟩, ⟨sc.suit, sc.value⟩, ⟨sc.suit, sc.value⟩]
  | .chow => [⟨sc.suit, sc.value⟩, ⟨sc.suit, sc.value + 1⟩, ⟨sc.suit, sc.value + 2⟩]

/-- Spec-side validity of a recorded set list against a tile multiset: chows
only in number suits, and the sets' tiles are exactly the multiset. -/
def ValidChoices (T : List MTile) (scs : List SetChoice) : Prop :=
  (∀ sc ∈ scs, sc.type = .chow → isNumberSuitB sc.suit = true) ∧
    T.Perm (scs.map scTiles).flatten

/-- Number of pongs among recorded sets. -/
def pongsOf (scs : List SetChoice) : Nat :=
  scs.countP (fun sc => sc.type == .pong)

/-- `trySets(tiles, sets)` from the scoring calculator (`part_007`), with
explicit fuel standing in for the implicit well-founded recursion (each
recursive call is exactly 3 tiles shorter).  Sorts at every entry, tries a
pong on the first (minimal) tile, then a chow, backtracking; returns the
recorded sets of the first fully successful branch, depth-first. -/
def trySetsGo : Nat → List MTile → Option (List SetChoice)
  | _, [] => some []
  | 0, _ :: _ => none
  | fuel + 1, t :: ts =>
    let sorted := sortLoc (t :: ts)
    let first := sorted.headD ⟨Suit.wan, 0⟩
    let pongRes :=
      if 3 ≤ sorted.countP
          (fun x => x.suit == first.suit && x.value == first.value) then
        match trySetsGo fuel
            (eraseKind first.suit first.value
              (eraseKind first.suit first.value
                (eraseKind first.suit first.value sorted))) with
        | some sets => some (SetChoice.mk .pong first.suit first.value :: sets)
        | none => none
      else none
    match pongRes with
    | some r => some r
    | none =>
      if isNumberSuitB first.suit then
        if sorted.any (fun x => x.suit == first.suit && x.value == first.value + 1) &&
            sorted.any (fun x => x.suit == first.suit && x.value == first.value + 2) then
          match trySetsGo fuel
              (eraseKind first.suit (first.value + 2)
                (eraseKind first.suit (first.value + 1) sorted.tail)) with
          | some sets => some (SetChoice.mk .chow first.suit first.value :: sets)
          | none => none
        else none
      else none

/-- `trySets` with sufficient fuel. -/
def trySets (tiles : List MTile) : Option (List SetChoice) :=
  trySetsGo tiles.length tiles

end Mahjong

namespace Mahjong

theorem trySetsGo_step (fuel : Nat) (t : MTile) (ts : List MTile)
    (first : MTile) (stail : List MTile)
    (hseq : sortLoc (t :: ts) = first :: stail) :
    trySetsGo (fuel + 1) (t :: ts) =
      (match (if 3 ≤ (first :: stail).countP
            (fun x => x.suit == first.suit && x.value == first.value) then
          match trySetsGo fuel
              (eraseKind first.suit first.value
                (eraseKind first.suit first.value
                  (eraseKind first.suit first.value (first :: stail)))) with
          | some sets => some (SetChoice.mk .pong first.suit first.value :: sets)
          | none => none
        else none) with
      | some r => some r
      | none =>
        if isNumberSuitB first.suit then
          if (first :: stail).any
              (fun x => x.suit == first.suit && x.value == first.value + 1) &&
              (first :: stail).any
                (fun x => x.suit == first.suit && x.value == first.value + 2) then
            match trySetsGo fuel
                (eraseKind first.suit (first.value + 2)
                  (eraseKind first.suit (first.value + 1) stail)) with
            | some sets => some (SetChoice.mk .chow first.suit first.value :: sets)
            | none => none
          else none
        else none) := by
  simp only [trySetsGo]
  rw [hseq]
  rfl

theorem ValidChoices_nil : ValidChoices [] [] := ⟨by simp, by simp⟩

theorem sortLoc_ne_nil (t : MTile) (ts : List MTile) : sortLoc (t :: ts) ≠ [] := by
  intro hc
  have := (List.perm_insertionSort tileLocLE (t :: ts)).length_eq
  rw [show sortLoc (t :: ts) = List.insertionSort tileLocLE (t :: ts) from rfl] at hc
  rw [hc] at this
  simp at this

theorem trySetsGo_sound :
    ∀ (fuel : Nat) (tiles : List MTile) (scs : List SetChoice),
      trySetsGo fuel tiles = some scs → ValidChoices tiles scs := by
  intro fuel
  induction fuel with
  | zero =>
    intro tiles scs h
    cases tiles with
    | nil =>
      injection h with h
      subst h
      exact ValidChoices_nil
    | cons a t => simp [trySetsGo] at h
  | succ fuel ih =>
    intro tiles scs h
    cases tiles with
    | nil =>
      injection h with h
      subst h
      exact ValidChoices_nil
    | cons t ts =>
      obtain ⟨first, stail, hseq⟩ := List.exists_cons_of_ne_nil (sortLoc_ne_nil t ts)
      have hsp : (first :: stail).Perm (t :: ts) := by
        rw [← hseq]
        exact List.perm_insertionSort _ _
      rw [trySetsGo_step fuel t ts first stail hseq] at h
      have hfe : (⟨first.suit, first.value⟩ : MTile) = first := rfl
      cases hpong : (if 3 ≤ (first :: stail).countP
            (fun x => x.suit == first.suit && x.value == first.value) then
          match trySetsGo fuel
              (eraseKind first.suit first.value
                (eraseKind first.suit first.value
                  (eraseKind first.suit first.value (first :: stail)))) with
          | some sets => some (SetChoice.mk .pong first.suit first.value :: sets)
          | none => none
        else none) with
      | some r =>
        rw [hpong] at h
        injection h with h
        subst h
        -- analyze the pong branch
        split_ifs at hpong with hcnt
        · cases hrec : trySetsGo fuel
              (eraseKind first.suit first.value
                (eraseKind first.suit first.value
                  (eraseKind first.suit first.value (first :: stail)))) with
          | none => rw [hrec] at hpong; exact absurd hpong (by simp)
          | some sets =>
            rw [hrec] at hpong
            injection hpong with hpong
            subst hpong
            obtain ⟨hchow, hperm⟩ := ih _ _ hrec
            rw [countKind_eq_count, hfe] at hcnt
            have hm1 : first ∈ first :: stail := List.mem_cons_self _ _
            have hm2 : first ∈ (first :: stail).erase first :=
              List.count_pos_iff.mp (by rw [List.count_erase_self]; omega)
            have hm3 : first ∈ ((first :: stail).erase first).erase first := by
              apply List.count_pos_iff.mp
              rw [List.count_erase_self, List.count_erase_self]
              omega
            have p1 := List.perm_cons_erase hm1
            have p2 := List.perm_cons_erase hm2
            have p3 := List.perm_cons_erase hm3
            constructor
            · intro sc hsc hty
              rcases List.mem_cons.mp hsc with rfl | hsc'
              · simp at hty
              · exact hchow sc hsc' hty
            · have hflat : ((SetChoice.mk .pong first.suit first.value :: sets).map
                  scTiles).flatten =
                  first :: first :: first :: (sets.map scTiles).flatten := by
                simp [scTiles]
              rw [hflat]
              rw [eraseKind_eq_erase, eraseKind_eq_erase, eraseKind_eq_erase, hfe] at hperm
              exact hsp.symm.trans (p1.trans ((p2.cons first).trans
                (((p3.trans (hperm.cons first)).cons first).cons first)))
      | none =>
        rw [hpong] at h
        split_ifs at h with hn hany
        rw [Bool.and_eq_true, anyKind_iff, anyKind_iff] at hany
        obtain ⟨ha1, ha2⟩ := hany
        cases hrec : trySetsGo fuel
            (eraseKind first.suit (first.value + 2)
              (eraseKind first.suit (first.value + 1) stail)) with
        | none => rw [hrec] at h; exact absurd h (by simp)
        | some sets =>
          rw [hrec] at h
          injection h with h
          subst h
          obtain ⟨hchow, hperm⟩ := ih _ _ hrec
          have hne1 : (⟨first.suit, first.value + 1⟩ : MTile) ≠ first := by
            rw [← hfe]
            exact tile_ne_of_value_ne first.suit (first.value + 1) first.value (by omega)
          have hne2 : (⟨first.suit, first.value + 2⟩ : MTile) ≠ first := by
            rw [← hfe]
            exact tile_ne_of_value_ne first.suit (first.value + 2) first.value (by omega)
          have hne21 : (⟨first.suit, first.value + 2⟩ : MTile) ≠
              ⟨first.suit, first.value + 1⟩ :=
            tile_ne_of_value_ne first.suit (first.value + 2) (first.value + 1) (by omega)
          have hm1 : (⟨first.suit, first.value + 1⟩ : MTile) ∈ stail := by
            rcases List.mem_cons.mp ha1 with hc | hc
            · exact absurd hc hne1
            · exact hc
          have hm2 : (⟨first.suit, first.value + 2⟩ : MTile) ∈
              stail.erase ⟨first.suit, first.value + 1⟩ := by
            rw [List.mem_erase_of_ne hne21]
            rcases List.mem_cons.mp ha2 with hc | hc
            · exact absurd hc hne2
            · exact hc
          have p1 := List.perm_cons_erase hm1
          have p2 := List.perm_cons_erase hm2
          constructor
          · intro sc hsc hty
            rcases List.mem_cons.mp hsc with rfl | hsc'
            · exact hn
            · exact hchow sc hsc' hty
          · have hflat : ((SetChoice.mk .chow first.suit first.value :: sets).map
                scTiles).flatten =
                (⟨first.suit, first.value⟩ : MTile) ::
                  ⟨first.suit, first.value + 1⟩ ::
                  ⟨first.suit, first.value + 2⟩ :: (sets.map scTiles).flatten := by
              simp [scTiles]
            rw [hflat, hfe]
            rw [eraseKind_eq_erase, eraseKind_eq_erase] at hperm
            refine hsp.symm.trans ?_
            exact (p1.trans ((p2.trans (hperm.cons _)).cons _)).cons first

theorem tileLocLE_refl (a : MTile) : tileLocLE a a := by
  unfold tileLocLE
  omega

theorem sortLoc_perm (l : List MTile) : (sortLoc l).Perm l :=
  List.perm_insertionSort _ _

theorem sortLoc_head_min (t : MTile) (ts : List MTile) (first : MTile)
    (stail : List MTile) (hseq : sortLoc (t :: ts) = first :: stail) :
    ∀ x ∈ t :: ts, tileLocLE first x := by
  intro x hx
  have hx' : x ∈ first :: stail := by
    rw [← hseq]
    exact (sortLoc_perm (t :: ts)).mem_iff.mpr hx
  have hs : List.Sorted tileLocLE (first :: stail) := by
    rw [← hseq]
    exact List.sorted_insertionSort tileLocLE (t :: ts)
  rcases List.mem_cons.mp hx' with rfl | h
  · exact tileLocLE_refl x
  · exact (List.sorted_cons.mp hs).1 x h

theorem tileLocLE_value_le (s : Suit) (v w : Int)
    (h : tileLocLE ⟨s, v⟩ ⟨s, w⟩) : v ≤ w := by
  unfold tileLocLE at h
  dsimp only at h
  omega

theorem scTiles_length (sc : SetChoice) : (scTiles sc).length = 3 := by
  unfold scTiles
  cases sc.type <;> rfl

theorem flattenSC_length (scs : List SetChoice) :
    ((scs.map scTiles).flatten).length = 3 * scs.length := by
  induction scs with
  | nil => simp
  | cons sc rest ih =>
    rw [List.map_cons, List.flatten_cons, List.length_append, ih,
      scTiles_length, List.length_cons]
    ring

theorem ValidChoices_length (T : List MTile) (scs : List SetChoice)
    (h : ValidChoices T scs) : T.length = 3 * scs.length := by
  rw [h.2.length_eq]
  exact flattenSC_length scs

theorem mem_flattenSC (scs : List SetChoice) (x : MTile) :
    x ∈ (scs.map scTiles).flatten ↔ ∃ sc ∈ scs, x ∈ scTiles sc := by
  simp [List.mem_flatten]

theorem mem_scTiles (sc : SetChoice) (x : MTile) (hx : x ∈ scTiles sc) :
    (sc.type = .pong ∧ x = ⟨sc.suit, sc.value⟩) ∨
      (sc.type = .chow ∧ (x = ⟨sc.suit, sc.value⟩ ∨ x = ⟨sc.suit, sc.value + 1⟩ ∨
        x = ⟨sc.suit, sc.value + 2⟩)) := by
  unfold scTiles at hx
  cases hty : sc.type <;> rw [hty] at hx <;> simp at hx
  · exact Or.inl ⟨rfl, hx⟩
  · exact Or.inr ⟨rfl, hx⟩

theorem flattenSC_cons_perm (scs : List SetChoice) (sc : SetChoice) (hm : sc ∈ scs) :
    ((scs.map scTiles).flatten).Perm
      (scTiles sc ++ ((scs.erase sc).map scTiles).flatten) := by
  have hp : scs.Perm (sc :: scs.erase sc) := List.perm_cons_erase hm
  have h2 := (hp.map scTiles).flatten
  rw [List.map_cons, List.flatten_cons] at h2
  exact h2

/-- Number of chows among recorded sets. -/
def chowsOf (scs : List SetChoice) : Nat :=
  scs.countP (fun sc => sc.type == .chow)

theorem pongsOf_add_chowsOf (scs : List SetChoice) :
    pongsOf scs + chowsOf scs = scs.length := by
  induction scs with
  | nil => rfl
  | cons sc rest ih =>
    unfold pongsOf chowsOf at *
    rw [List.countP_cons, List.countP_cons, List.length_cons]
    cases hty : sc.type <;> simp [hty] <;> omega

theorem pongsOf_perm (scs scs' : List SetChoice) (h : scs.Perm scs') :
    pongsOf scs = pongsOf scs' :=
  h.countP_eq _

theorem countSC_eq (T : List MTile) (scs : List SetChoice) (h : ValidChoices T scs)
    (s : Suit) (v : Int) :
    T.count ⟨s, v⟩ =
      3 * scs.count ⟨SetType.pong, s, v⟩ + scs.count ⟨SetType.chow, s, v⟩ +
        scs.count ⟨SetType.chow, s, v - 1⟩ + scs.count ⟨SetType.chow, s, v - 2⟩ := by
  rw [h.2.count_eq]
  clear h
  induction scs with
  | nil => simp
  | cons sc rest ih =>
    rw [List.map_cons, List.flatten_cons, List.count_append, ih]
    obtain ⟨ty, su, vl⟩ := sc
    cases ty with
    | pong =>
      by_cases hsu : su = s
      · subst hsu
        simp only [scTiles, List.count_cons, List.count_nil, beq_iff_eq,
          MTile.mk.injEq, SetChoice.mk.injEq, true_and]
        split_ifs <;> simp_all <;> omega
      · simp [scTiles, List.count_cons, MTile.mk.injEq, SetChoice.mk.injEq,
          hsu, Ne.symm hsu]
    | chow =>
      by_cases hsu : su = s
      · subst hsu
        simp only [scTiles, List.count_cons, List.count_nil, beq_iff_eq,
          MTile.mk.injEq, SetChoice.mk.injEq, true_and]
        split_ifs <;> simp_all <;> omega
      · simp [scTiles, List.count_cons, MTile.mk.injEq, SetChoice.mk.injEq,
          hsu, Ne.symm hsu]

theorem chowsOf_cons_pong (su : Suit) (vl : Int) (rest : List SetChoice) :
    chowsOf (⟨SetType.pong, su, vl⟩ :: rest) = chowsOf rest := by
  simp [chowsOf, List.countP_cons]

theorem chowsOf_cons_chow (su : Suit) (vl : Int) (rest : List SetChoice) :
    chowsOf (⟨SetType.chow, su, vl⟩ :: rest) = chowsOf rest + 1 := by
  simp [chowsOf, List.countP_cons]

theorem pongsOf_cons_pong (su : Suit) (vl : Int) (rest : List SetChoice) :
    pongsOf (⟨SetType.pong, su, vl⟩ :: rest) = pongsOf rest + 1 := by
  simp [pongsOf, List.countP_cons]

theorem pongsOf_cons_chow (su : Suit) (vl : Int) (rest : List SetChoice) :
    pongsOf (⟨SetType.chow, su, vl⟩ :: rest) = pongsOf rest := by
  simp [pongsOf, List.countP_cons]

theorem mod3Count_flattenSC (scs : List SetChoice) :
    (((scs.map scTiles).flatten).countP (fun t => t.value % 3 == 0)) % 3 =
      (chowsOf scs) % 3 := by
  induction scs with
  | nil => rfl
  | cons sc rest ih =>
    rw [List.map_cons, List.flatten_cons, List.countP_append]
    obtain ⟨ty, su, vl⟩ := sc
    cases ty with
    | pong =>
      have hhead : ((scTiles ⟨SetType.pong, su, vl⟩).countP
          (fun t => t.value % 3 == 0)) % 3 = 0 := by
        simp only [scTiles, List.countP_cons, List.countP_nil, decide_eq_true_eq,
          beq_iff_eq]
        split_ifs <;> omega
      rw [chowsOf_cons_pong]
      omega
    | chow =>
      have hhead : (scTiles ⟨SetType.chow, su, vl⟩).countP
          (fun t => t.value % 3 == 0) = 1 := by
        simp only [scTiles, List.countP_cons, List.countP_nil, decide_eq_true_eq,
          beq_iff_eq]
        split_ifs <;> omega
      rw [chowsOf_cons_chow, hhead]
      omega

theorem pongsOf_mod3_eq (T : List MTile) (scs scs' : List SetChoice)
    (hv : ValidChoices T scs) (hv' : ValidChoices T scs') :
    pongsOf scs % 3 = pongsOf scs' % 3 := by
  have h1 := mod3Count_flattenSC scs
  have h2 := mod3Count_flattenSC scs'
  have hc1 := hv.2.countP_eq (fun t => t.value % 3 == 0)
  have hc2 := hv'.2.countP_eq (fun t => t.value % 3 == 0)
  have hl1 := ValidChoices_length T scs hv
  have hl2 := ValidChoices_length T scs' hv'
  have hpc1 := pongsOf_add_chowsOf scs
  have hpc2 := pongsOf_add_chowsOf scs'
  omega

theorem min_set_shape (T : List MTile) (scs : List SetChoice) (h : ValidChoices T scs)
    (m : MTile) (hmin : ∀ x ∈ T, tileLocLE m x)
    (sc : SetChoice) (hsc : sc ∈ scs) (hm : m ∈ scTiles sc) :
    sc = ⟨SetType.pong, m.suit, m.value⟩ ∨ sc = ⟨SetType.chow, m.suit, m.value⟩ := by
  have hsub : ∀ x ∈ scTiles sc, x ∈ T := by
    intro x hx
    exact h.2.mem_iff.mpr ((mem_flattenSC scs x).mpr ⟨sc, hsc, hx⟩)
  obtain ⟨ty, su, vl⟩ := sc
  rcases mem_scTiles ⟨ty, su, vl⟩ m hm with ⟨hty, he⟩ | ⟨hty, he⟩
  · dsimp only at hty he
    subst hty
    subst he
    left
    rfl
  · dsimp only at hty he
    subst hty
    have hfT : (⟨su, vl⟩ : MTile) ∈ T := hsub _ (by simp [scTiles])
    rcases he with he | he | he
    · subst he
      right
      rfl
    · subst he
      exact absurd (tileLocLE_value_le su (vl + 1) vl (hmin _ hfT)) (by omega)
    · subst he
      exact absurd (tileLocLE_value_le su (vl + 2) vl (hmin _ hfT)) (by omega)

theorem trySetsGo_complete :
    ∀ (fuel : Nat) (tiles : List MTile) (scs : List SetChoice),
      tiles.length ≤ fuel → ValidChoices tiles scs →
      (trySetsGo fuel tiles).isSome = true := by
  intro fuel
  induction fuel with
  | zero =>
    intro tiles scs hf _
    have h0 : tiles = [] := List.eq_nil_of_length_eq_zero (Nat.le_zero.mp hf)
    subst h0
    rfl
  | succ fuel ih =>
    intro tiles scs hf hv
    cases tiles with
    | nil => rfl
    | cons t ts =>
      obtain ⟨first, stail, hseq⟩ := List.exists_cons_of_ne_nil (sortLoc_ne_nil t ts)
      have hsp : (first :: stail).Perm (t :: ts) := by
        rw [← hseq]
        exact sortLoc_perm _
      have hmin : ∀ x ∈ t :: ts, tileLocLE first x :=
        sortLoc_head_min t ts first stail hseq
      have hfe : (⟨first.suit, first.value⟩ : MTile) = first := rfl
      have hft : first ∈ t :: ts := hsp.mem_iff.mp (List.mem_cons_self _ _)
      have hfm : first ∈ (scs.map scTiles).flatten := hv.2.mem_iff.mp hft
      obtain ⟨sc, hscmem, hfsc⟩ := (mem_flattenSC scs first).mp hfm
      have hflat2 : (t :: ts).Perm
          (scTiles sc ++ ((scs.erase sc).map scTiles).flatten) :=
        hv.2.trans (flattenSC_cons_perm scs sc hscmem)
      have hlenS : stail.length + 1 = ts.length + 1 := by
        have := hsp.length_eq
        simpa using this
      rw [trySetsGo_step fuel t ts first stail hseq]
      rcases min_set_shape (t :: ts) scs hv first hmin sc hscmem hfsc with rfl | rfl
      · -- the minimal tile sits in a pong: the greedy pong branch succeeds
        have hsc3 : scTiles (⟨SetType.pong, first.suit, first.value⟩ : SetChoice) =
            [first, first, first] := rfl
        rw [hsc3] at hflat2
        simp only [List.cons_append, List.nil_append] at hflat2
        have hSp : (first :: stail).Perm (first :: first :: first ::
            ((scs.erase ⟨SetType.pong, first.suit, first.value⟩).map scTiles).flatten) :=
          hsp.trans hflat2
        have hstail : stail.Perm (first :: first ::
            ((scs.erase ⟨SetType.pong, first.suit, first.value⟩).map scTiles).flatten) :=
          hSp.cons_inv
        have h2 : (stail.erase first).Perm (first ::
            ((scs.erase ⟨SetType.pong, first.suit, first.value⟩).map scTiles).flatten) := by
          have := hstail.erase first
          rwa [List.erase_cons_head] at this
        have h3 : ((stail.erase first).erase first).Perm
            ((scs.erase ⟨SetType.pong, first.suit, first.value⟩).map scTiles).flatten := by
          have := h2.erase first
          rwa [List.erase_cons_head] at this
        have hcnt : 3 ≤ (first :: stail).countP
            (fun x => x.suit == first.suit && x.value == first.value) := by
          rw [countKind_eq_count, hfe, hSp.count_eq]
          simp [List.count_cons]
        have hm1 : first ∈ stail := hstail.mem_iff.mpr (List.mem_cons_self _ _)
        have hm2 : first ∈ stail.erase first := h2.mem_iff.mpr (List.mem_cons_self _ _)
        have hvE : ValidChoices ((stail.erase first).erase first)
            (scs.erase ⟨SetType.pong, first.suit, first.value⟩) :=
          ⟨fun sc' hm' => hv.1 sc' (List.mem_of_mem_erase hm'), h3⟩
        have hlE : ((stail.erase first).erase first).length ≤ fuel := by
          rw [List.length_erase_of_mem hm2, List.length_erase_of_mem hm1]
          have hlf : (t :: ts).length ≤ fuel + 1 := hf
          simp only [List.length_cons] at hlf
          omega
        have hsome := ih ((stail.erase first).erase first)
          (scs.erase ⟨SetType.pong, first.suit, first.value⟩) hlE hvE
        rw [eraseKind_eq_erase, eraseKind_eq_erase, eraseKind_eq_erase, hfe,
          List.erase_cons_head, if_pos hcnt]
        cases hrec : trySetsGo fuel ((stail.erase first).erase first) with
        | none => rw [hrec] at hsome; simp at hsome
        | some g => rfl
      · -- the minimal tile sits in a chow starting at itself
        have hnum : isNumberSuitB first.suit = true := hv.1 _ hscmem rfl
        have hsc3 : scTiles (⟨SetType.chow, first.suit, first.value⟩ : SetChoice) =
            [first, ⟨first.suit, first.value + 1⟩, ⟨first.suit, first.value + 2⟩] := rfl
        rw [hsc3] at hflat2
        simp only [List.cons_append, List.nil_append] at hflat2
        have hSp : (first :: stail).Perm (first ::
            (⟨first.suit, first.value + 1⟩ : MTile) ::
            (⟨first.suit, first.value + 2⟩ : MTile) ::
            ((scs.erase ⟨SetType.chow, first.suit, first.value⟩).map scTiles).flatten) :=
          hsp.trans hflat2
        have hstail : stail.Perm ((⟨first.suit, first.value + 1⟩ : MTile) ::
            (⟨first.suit, first.value + 2⟩ : MTile) ::
            ((scs.erase ⟨SetType.chow, first.suit, first.value⟩).map scTiles).flatten) :=
          hSp.cons_inv
        have h2 : (stail.erase ⟨first.suit, first.value + 1⟩).Perm
            ((⟨first.suit, first.value + 2⟩ : MTile) ::
            ((scs.erase ⟨SetType.chow, first.suit, first.value⟩).map scTiles).flatten) := by
          have := hstail.erase ⟨first.suit, first.value + 1⟩
          rwa [List.erase_cons_head] at this
        have h3 : ((stail.erase ⟨first.suit, first.value + 1⟩).erase
            ⟨first.suit, first.value + 2⟩).Perm
            ((scs.erase ⟨SetType.chow, first.suit, first.value⟩).map scTiles).flatten := by
          have := h2.erase ⟨first.suit, first.value + 2⟩
          rwa [List.erase_cons_head] at this
        have hany1 : (first :: stail).any
            (fun x => x.suit == first.suit && x.value == first.value + 1) = true :=
          (anyKind_iff _ _ _).mpr
            (List.mem_cons_of_mem _ (hstail.mem_iff.mpr (List.mem_cons_self _ _)))
        have hany2 : (first :: stail).any
            (fun x => x.suit == first.suit && x.value == first.value + 2) = true :=
          (anyKind_iff _ _ _).mpr (List.mem_cons_of_mem _ (hstail.mem_iff.mpr
            (List.mem_cons_of_mem _ (List.mem_cons_self _ _))))
        have hm1 : (⟨first.suit, first.value + 1⟩ : MTile) ∈ stail :=
          hstail.mem_iff.mpr (List.mem_cons_self _ _)
        have hm2 : (⟨first.suit, first.value + 2⟩ : MTile) ∈
            stail.erase ⟨first.suit, first.value + 1⟩ :=
          h2.mem_iff.mpr (List.mem_cons_self _ _)
        have hvE : ValidChoices ((stail.erase ⟨first.suit, first.value + 1⟩).erase
            ⟨first.suit, first.value + 2⟩)
            (scs.erase ⟨SetType.chow, first.suit, first.value⟩) :=
          ⟨fun sc' hm' => hv.1 sc' (List.mem_of_mem_erase hm'), h3⟩
        have hlE : ((stail.erase ⟨first.suit, first.value + 1⟩).erase
            ⟨first.suit, first.value + 2⟩).length ≤ fuel := by
          rw [List.length_erase_of_mem hm2, List.length_erase_of_mem hm1]
          have hlf : (t :: ts).length ≤ fuel + 1 := hf
          simp only [List.length_cons] at hlf
          omega
        have hsome := ih ((stail.erase ⟨first.suit, first.value + 1⟩).erase
          ⟨first.suit, first.value + 2⟩)
          (scs.erase ⟨SetType.chow, first.suit, first.value⟩) hlE hvE
        cases hpong : (if 3 ≤ (first :: stail).countP
              (fun x => x.suit == first.suit && x.value == first.value) then
            match trySetsGo fuel
                (eraseKind first.suit first.value
                  (eraseKind first.suit first.value
                    (eraseKind first.suit first.value (first :: stail)))) with
            | some sets => some (SetChoice.mk .pong first.suit first.value :: sets)
            | none => none
          else none) with
        | some r => rfl
        | none =>
          rw [if_pos hnum, if_pos (by rw [Bool.and_eq_true]; exact ⟨hany1, hany2⟩),
            eraseKind_eq_erase, eraseKind_eq_erase]
          cases hrec : trySetsGo fuel ((stail.erase ⟨first.suit, first.value + 1⟩).erase
              ⟨first.suit, first.value + 2⟩) with
          | none => rw [hrec] at hsome; simp at hsome
          | some g => rfl

theorem chow_triple_perm (s : Suit) (v : Int) :
    (scTiles ⟨SetType.chow, s, v⟩ ++ scTiles ⟨SetType.chow, s, v⟩ ++
        scTiles ⟨SetType.chow, s, v⟩).Perm
      (scTiles ⟨SetType.pong, s, v⟩ ++ scTiles ⟨SetType.pong, s, v + 1⟩ ++
        scTiles ⟨SetType.pong, s, v + 2⟩) := by
  apply List.perm_iff_count.mpr
  intro a
  obtain ⟨as, av⟩ := a
  simp only [scTiles, List.count_append, List.count_cons, List.count_nil,
    beq_iff_eq, MTile.mk.injEq]
  by_cases hs : as = s
  · subst hs
    simp only [eq_self_iff_true, true_and]
    split_ifs <;> omega
  · simp [Ne.symm hs]

theorem exchange_chows (T : List MTile) (scs : List SetChoice) (s : Suit) (v : Int)
    (hv : ValidChoices T scs) (hc : 3 ≤ scs.count ⟨SetType.chow, s, v⟩) :
    ∃ scs', ValidChoices T scs' ∧ pongsOf scs' = pongsOf scs + 3 ∧
      (⟨SetType.pong, s, v⟩ : SetChoice) ∈ scs' := by
  have hc1 : (⟨SetType.chow, s, v⟩ : SetChoice) ∈ scs :=
    List.count_pos_iff.mp (by omega)
  have hc2 : (⟨SetType.chow, s, v⟩ : SetChoice) ∈
      scs.erase ⟨SetType.chow, s, v⟩ :=
    List.count_pos_iff.mp (by rw [List.count_erase_self]; omega)
  have hc3 : (⟨SetType.chow, s, v⟩ : SetChoice) ∈
      (scs.erase ⟨SetType.chow, s, v⟩).erase ⟨SetType.chow, s, v⟩ :=
    List.count_pos_iff.mp
      (by rw [List.count_erase_self, List.count_erase_self]; omega)
  have hp1 := List.perm_cons_erase hc1
  have hp2 := List.perm_cons_erase hc2
  have hp3 := List.perm_cons_erase hc3
  have hchain : scs.Perm (⟨SetType.chow, s, v⟩ :: ⟨SetType.chow, s, v⟩ ::
      ⟨SetType.chow, s, v⟩ ::
      ((scs.erase ⟨SetType.chow, s, v⟩).erase ⟨SetType.chow, s, v⟩).erase
        ⟨SetType.chow, s, v⟩) :=
    hp1.trans ((hp2.trans (hp3.cons _)).cons _)
  refine ⟨⟨SetType.pong, s, v⟩ :: ⟨SetType.pong, s, v + 1⟩ ::
      ⟨SetType.pong, s, v + 2⟩ ::
      ((scs.erase ⟨SetType.chow, s, v⟩).erase ⟨SetType.chow, s, v⟩).erase
        ⟨SetType.chow, s, v⟩, ⟨?_, ?_⟩, ?_, ?_⟩
  · intro sc hsc hty
    rcases List.mem_cons.mp hsc with rfl | hsc
    · simp at hty
    rcases List.mem_cons.mp hsc with rfl | hsc
    · simp at hty
    rcases List.mem_cons.mp hsc with rfl | hsc
    · simp at hty
    exact hv.1 sc
      (List.mem_of_mem_erase (List.mem_of_mem_erase (List.mem_of_mem_erase hsc))) hty
  · have hfl := (hchain.map scTiles).flatten
    have hrw : ((⟨SetType.chow, s, v⟩ :: ⟨SetType.chow, s, v⟩ ::
        ⟨SetType.chow, s, v⟩ ::
        ((scs.erase ⟨SetType.chow, s, v⟩).erase ⟨SetType.chow, s, v⟩).erase
          ⟨SetType.chow, s, v⟩).map scTiles).flatten =
        (scTiles ⟨SetType.chow, s, v⟩ ++ scTiles ⟨SetType.chow, s, v⟩ ++
          scTiles ⟨SetType.chow, s, v⟩) ++
        ((((scs.erase ⟨SetType.chow, s, v⟩).erase ⟨SetType.chow, s, v⟩).erase
          ⟨SetType.chow, s, v⟩).map scTiles).flatten := by
      simp [List.append_assoc]
    rw [hrw] at hfl
    have hgoal : ((⟨SetType.pong, s, v⟩ :: ⟨SetType.pong, s, v + 1⟩ ::
        ⟨SetType.pong, s, v + 2⟩ ::
        ((scs.erase ⟨SetType.chow, s, v⟩).erase ⟨SetType.chow, s, v⟩).erase
          ⟨SetType.chow, s, v⟩).map scTiles).flatten =
        (scTiles ⟨SetType.pong, s, v⟩ ++ scTiles ⟨SetType.pong, s, v + 1⟩ ++
          scTiles ⟨SetType.pong, s, v + 2⟩) ++
        ((((scs.erase ⟨SetType.chow, s, v⟩).erase ⟨SetType.chow, s, v⟩).erase
          ⟨SetType.chow, s, v⟩).map scTiles).flatten := by
      simp [List.append_assoc]
    rw [hgoal]
    exact hv.2.trans (hfl.trans ((chow_triple_perm s v).append_right _))
  · have hpc : pongsOf scs = pongsOf (((scs.erase ⟨SetType.chow, s, v⟩).erase
        ⟨SetType.chow, s, v⟩).erase ⟨SetType.chow, s, v⟩) := by
      rw [pongsOf_perm _ _ hchain, pongsOf_cons_chow, pongsOf_cons_chow,
        pongsOf_cons_chow]
    rw [pongsOf_cons_pong, pongsOf_cons_pong, pongsOf_cons_pong, ← hpc]
  · exact List.mem_cons_self _ _

theorem pong_extract (t : MTile) (ts stail : List MTile) (first : MTile)
    (scs : List SetChoice)
    (hsp : (first :: stail).Perm (t :: ts))
    (hv : ValidChoices (t :: ts) scs)
    (hmem : (⟨SetType.pong, first.suit, first.value⟩ : SetChoice) ∈ scs) :
    ValidChoices ((stail.erase first).erase first)
      (scs.erase ⟨SetType.pong, first.suit, first.value⟩) ∧
    pongsOf scs = pongsOf (scs.erase ⟨SetType.pong, first.suit, first.value⟩) + 1 ∧
    ((stail.erase first).erase first).length + 2 = ts.length := by
  have hchain := List.perm_cons_erase hmem
  have hfl : ((scs.map scTiles).flatten).Perm (first :: first :: first ::
      ((scs.erase ⟨SetType.pong, first.suit, first.value⟩).map scTiles).flatten) := by
    have h0 := (hchain.map scTiles).flatten
    rw [List.map_cons, List.flatten_cons] at h0
    exact h0
  have hSp : (first :: stail).Perm (first :: first :: first ::
      ((scs.erase ⟨SetType.pong, first.suit, first.value⟩).map scTiles).flatten) :=
    hsp.trans (hv.2.trans hfl)
  have hstail : stail.Perm (first :: first ::
      ((scs.erase ⟨SetType.pong, first.suit, first.value⟩).map scTiles).flatten) :=
    hSp.cons_inv
  have h2 : (stail.erase first).Perm (first ::
      ((scs.erase ⟨SetType.pong, first.suit, first.value⟩).map scTiles).flatten) := by
    have := hstail.erase first
    rwa [List.erase_cons_head] at this
  have h3 : ((stail.erase first).erase first).Perm
      ((scs.erase ⟨SetType.pong, first.suit, first.value⟩).map scTiles).flatten := by
    have := h2.erase first
    rwa [List.erase_cons_head] at this
  have hm1 : first ∈ stail := hstail.mem_iff.mpr (List.mem_cons_self _ _)
  have hm2 : first ∈ stail.erase first := h2.mem_iff.mpr (List.mem_cons_self _ _)
  refine ⟨⟨fun sc' hm' => hv.1 sc' (List.mem_of_mem_erase hm'), h3⟩, ?_, ?_⟩
  · rw [pongsOf_perm _ _ hchain, pongsOf_cons_pong]
  · have hlt : stail.length + 1 = ts.length + 1 := by simpa using hsp.length_eq
    rw [List.length_erase_of_mem hm2, List.length_erase_of_mem hm1]
    have hp1 : 0 < stail.length := List.length_pos_of_mem hm1
    have hp2 : 0 < (stail.erase first).length := List.length_pos_of_mem hm2
    rw [List.length_erase_of_mem hm1] at hp2
    omega

theorem chow_extract (t : MTile) (ts stail : List MTile) (first : MTile)
    (scs : List SetChoice)
    (hsp : (first :: stail).Perm (t :: ts))
    (hv : ValidChoices (t :: ts) scs)
    (hmem : (⟨SetType.chow, first.suit, first.value⟩ : SetChoice) ∈ scs) :
    ValidChoices ((stail.erase ⟨first.suit, first.value + 1⟩).erase
        ⟨first.suit, first.value + 2⟩)
      (scs.erase ⟨SetType.chow, first.suit, first.value⟩) ∧
    pongsOf scs = pongsOf (scs.erase ⟨SetType.chow, first.suit, first.value⟩) ∧
    ((stail.erase ⟨first.suit, first.value + 1⟩).erase
      ⟨first.suit, first.value + 2⟩).length + 2 = ts.length := by
  have hchain := List.perm_cons_erase hmem
  have hfl : ((scs.map scTiles).flatten).Perm (first ::
      (⟨first.suit, first.value + 1⟩ : MTile) ::
      (⟨first.suit, first.value + 2⟩ : MTile) ::
      ((scs.erase ⟨SetType.chow, first.suit, first.value⟩).map scTiles).flatten) := by
    have h0 := (hchain.map scTiles).flatten
    rw [List.map_cons, List.flatten_cons] at h0
    exact h0
  have hSp : (first :: stail).Perm (first ::
      (⟨first.suit, first.value + 1⟩ : MTile) ::
      (⟨first.suit, first.value + 2⟩ : MTile) ::
      ((scs.erase ⟨SetType.chow, first.suit, first.value⟩).map scTiles).flatten) :=
    hsp.trans (hv.2.trans hfl)
  have hstail : stail.Perm ((⟨first.suit, first.value + 1⟩ : MTile) ::
      (⟨first.suit, first.value + 2⟩ : MTile) ::
      ((scs.erase ⟨SetType.chow, first.suit, first.value⟩).map scTiles).flatten) :=
    hSp.cons_inv
  have h2 : (stail.erase ⟨first.suit, first.value + 1⟩).Perm
      ((⟨first.suit, first.value + 2⟩ : MTile) ::
      ((scs.erase ⟨SetType.chow, first.suit, first.value⟩).map scTiles).flatten) := by
    have := hstail.erase ⟨first.suit, first.value + 1⟩
    rwa [List.erase_cons_head] at this
  have h3 : ((stail.erase ⟨first.suit, first.value + 1⟩).erase
      ⟨first.suit, first.value + 2⟩).Perm
      ((scs.erase ⟨SetType.chow, first.suit, first.value⟩).map scTiles).flatten := by
    have := h2.erase ⟨first.suit, first.value + 2⟩
    rwa [List.erase_cons_head] at this
  have hm1 : (⟨first.suit, first.value + 1⟩ : MTile) ∈ stail :=
    hstail.mem_iff.mpr (List.mem_cons_self _ _)
  have hm2 : (⟨first.suit, first.value + 2⟩ : MTile) ∈
      stail.erase ⟨first.suit, first.value + 1⟩ :=
    h2.mem_iff.mpr (List.mem_cons_self _ _)
  refine ⟨⟨fun sc' hm' => hv.1 sc' (List.mem_of_mem_erase hm'), h3⟩, ?_, ?_⟩
  · rw [pongsOf_perm _ _ hchain, pongsOf_cons_chow]
  · have hlt : stail.length + 1 = ts.length + 1 := by simpa using hsp.length_eq
    rw [List.length_erase_of_mem hm2, List.length_erase_of_mem hm1]
    have hp1 : 0 < stail.length := List.length_pos_of_mem hm1
    have hp2 : 0 < (stail.erase ⟨first.suit, first.value + 1⟩).length :=
      List.length_pos_of_mem hm2
    rw [List.length_erase_of_mem hm1] at hp2
    omega

theorem chow_below_min_zero (T : List MTile) (scs : List SetChoice) (first : MTile)
    (hmin : ∀ x ∈ T, tileLocLE first x) (hv : ValidChoices T scs)
    (k : Int) (hk : 0 < k) :
    scs.count ⟨SetType.chow, first.suit, first.value - k⟩ = 0 := by
  by_contra h
  have hmem : (⟨SetType.chow, first.suit, first.value - k⟩ : SetChoice) ∈ scs :=
    List.count_pos_iff.mp (Nat.pos_of_ne_zero h)
  have htm : (⟨first.suit, first.value - k⟩ : MTile) ∈ T :=
    hv.2.mem_iff.mpr ((mem_flattenSC scs _).mpr ⟨_, hmem, by simp [scTiles]⟩)
  have hle := tileLocLE_value_le first.suit first.value (first.value - k) (hmin _ htm)
  omega

theorem min_chow_count (t : MTile) (ts : List MTile) (scs : List SetChoice)
    (first : MTile)
    (hmin : ∀ x ∈ t :: ts, tileLocLE first x)
    (hv : ValidChoices (t :: ts) scs)
    (hnp : (⟨SetType.pong, first.suit, first.value⟩ : SetChoice) ∉ scs) :
    scs.count ⟨SetType.chow, first.suit, first.value⟩ = (t :: ts).count first := by
  have hq1 := chow_below_min_zero (t :: ts) scs first hmin hv 1 (by omega)
  have hq2 := chow_below_min_zero (t :: ts) scs first hmin hv 2 (by omega)
  have hp0 : scs.count ⟨SetType.pong, first.suit, first.value⟩ = 0 :=
    List.count_eq_zero.mpr hnp
  have h := countSC_eq (t :: ts) scs hv first.suit first.value
  have hfe : (⟨first.suit, first.value⟩ : MTile) = first := rfl
  rw [hfe] at h
  omega

theorem trySetsGo_pong_max :
    ∀ (fuel : Nat) (tiles : List MTile) (gscs scs : List SetChoice),
      tiles.length ≤ fuel → trySetsGo fuel tiles = some gscs →
      ValidChoices tiles scs → pongsOf scs ≤ pongsOf gscs := by
  intro fuel
  induction fuel with
  | zero =>
    intro tiles gscs scs hf _ hv
    have h0 : tiles = [] := List.eq_nil_of_length_eq_zero (Nat.le_zero.mp hf)
    subst h0
    have h3 := ValidChoices_length [] scs hv
    simp at h3
    subst h3
    simp [pongsOf]
  | succ fuel ih =>
    intro tiles gscs scs hf hg hv
    cases tiles with
    | nil =>
      have h3 := ValidChoices_length [] scs hv
      simp at h3
      subst h3
      simp [pongsOf]
    | cons t ts =>
      obtain ⟨first, stail, hseq⟩ := List.exists_cons_of_ne_nil (sortLoc_ne_nil t ts)
      have hsp : (first :: stail).Perm (t :: ts) := by
        rw [← hseq]
        exact sortLoc_perm _
      have hmin : ∀ x ∈ t :: ts, tileLocLE first x :=
        sortLoc_head_min t ts first stail hseq
      have hfe : (⟨first.suit, first.value⟩ : MTile) = first := rfl
      have hf' : ts.length + 1 ≤ fuel + 1 := by simpa using hf
      rw [trySetsGo_step fuel t ts first stail hseq] at hg
      cases hpong : (if 3 ≤ (first :: stail).countP
            (fun x => x.suit == first.suit && x.value == first.value) then
          match trySetsGo fuel
              (eraseKind first.suit first.value
                (eraseKind first.suit first.value
                  (eraseKind first.suit first.value (first :: stail)))) with
          | some sets => some (SetChoice.mk .pong first.suit first.value :: sets)
          | none => none
        else none) with
      | some r =>
        rw [hpong] at hg
        injection hg with hg
        subst hg
        split_ifs at hpong with hcnt
        cases hrec : trySetsGo fuel
            (eraseKind first.suit first.value
              (eraseKind first.suit first.value
                (eraseKind first.suit first.value (first :: stail)))) with
        | none => rw [hrec] at hpong; exact absurd hpong (by simp)
        | some g =>
          rw [hrec] at hpong
          injection hpong with hpong
          subst hpong
          rw [eraseKind_eq_erase, eraseKind_eq_erase, eraseKind_eq_erase, hfe,
            List.erase_cons_head] at hrec
          by_cases hpmem : (⟨SetType.pong, first.suit, first.value⟩ : SetChoice) ∈ scs
          · obtain ⟨hvE, hpe, hlen⟩ := pong_extract t ts stail first scs hsp hv hpmem
            have hle := ih _ _ _ (by omega) hrec hvE
            rw [pongsOf_cons_pong]
            omega
          · have hcnt' : 3 ≤ (t :: ts).count first := by
              rw [← hsp.count_eq, ← hfe, ← countKind_eq_count]
              exact hcnt
            have hq := min_chow_count t ts scs first hmin hv hpmem
            obtain ⟨scs', hv', hpl, hmem'⟩ :=
              exchange_chows (t :: ts) scs first.suit first.value hv (by omega)
            obtain ⟨hvE, hpe, hlen⟩ := pong_extract t ts stail first scs' hsp hv' hmem'
            have hle := ih _ _ _ (by omega) hrec hvE
            rw [pongsOf_cons_pong]
            omega
      | none =>
        rw [hpong] at hg
        split_ifs at hg with hn hany
        rw [eraseKind_eq_erase, eraseKind_eq_erase] at hg
        cases hrec : trySetsGo fuel
            ((stail.erase ⟨first.suit, first.value + 1⟩).erase
              ⟨first.suit, first.value + 2⟩) with
        | none => rw [hrec] at hg; exact absurd hg (by simp)
        | some g =>
          rw [hrec] at hg
          injection hg with hg
          subst hg
          by_cases hpmem : (⟨SetType.pong, first.suit, first.value⟩ : SetChoice) ∈ scs
          · exfalso
            obtain ⟨hvE, hpe, hlen⟩ := pong_extract t ts stail first scs hsp hv hpmem
            have hcnt : 3 ≤ (first :: stail).countP
                (fun x => x.suit == first.suit && x.value == first.value) := by
              rw [countKind_eq_count, hfe, hsp.count_eq]
              have h := countSC_eq (t :: ts) scs hv first.suit first.value
              have hc1 : 0 < scs.count ⟨SetType.pong, first.suit, first.value⟩ :=
                List.count_pos_iff.mpr hpmem
              rw [hfe] at h
              omega
            rw [if_pos hcnt] at hpong
            cases hrec3 : trySetsGo fuel
                (eraseKind first.suit first.value
                  (eraseKind first.suit first.value
                    (eraseKind first.suit first.value (first :: stail)))) with
            | some g3 => rw [hrec3] at hpong; exact absurd hpong (by simp)
            | none =>
              rw [eraseKind_eq_erase, eraseKind_eq_erase, eraseKind_eq_erase, hfe,
                List.erase_cons_head] at hrec3
              have hsome := trySetsGo_complete fuel ((stail.erase first).erase first)
                (scs.erase ⟨SetType.pong, first.suit, first.value⟩) (by omega) hvE
              rw [hrec3] at hsome
              simp at hsome
          · have hft : first ∈ t :: ts := hsp.mem_iff.mp (List.mem_cons_self _ _)
            have hc1 : 0 < (t :: ts).count first := List.count_pos_iff.mpr hft
            have hq := min_chow_count t ts scs first hmin hv hpmem
            have hcm : (⟨SetType.chow, first.suit, first.value⟩ : SetChoice) ∈ scs :=
              List.count_pos_iff.mp (by omega)
            obtain ⟨hvE, hpe, hlen⟩ := chow_extract t ts stail first scs hsp hv hcm
            have hle := ih _ _ _ (by omega) hrec hvE
            rw [pongsOf_cons_chow]
            omega

end Mahjong

namespace Mahjong

/-- `isHonor` from the scoring calculator: wind or dragon. -/
def isHonorB (s : Suit) : Bool :=
  s == .wind || s == .dragon

/-- Set kinds handled by `calculateScore` (`'pong' | 'kong' | 'chow'`). -/
inductive MSetType where
  | pong | kong | chow
  deriving DecidableEq, Repr

/-- A declared meld, in the normalised form `calculateScore` derives from
`meld.tiles` (type, suit, and value — for a chow the minimum tile value). -/
structure Meld where
  type : MSetType
  suit : Suit
  value : Int
  deriving DecidableEq, Repr

/-- An entry of the `allSets` array `calculateScore` builds. -/
structure ScoreSet where
  type : MSetType
  suit : Suit
  value : Int
  isConcealed : Bool
  deriving DecidableEq, Repr

/-- The tiles one score set contributes to `allTiles`. -/
def setTiles (s : ScoreSet) : List MTile :=
  match s.type with
  | .chow => [⟨s.suit, s.value⟩, ⟨s.suit, s.value + 1⟩, ⟨s.suit, s.value + 2⟩]
  | .kong => [⟨s.suit, s.value⟩, ⟨s.suit, s.value⟩, ⟨s.suit, s.value⟩,
      ⟨s.suit, s.value⟩]
  | .pong => [⟨s.suit, s.value⟩, ⟨s.suit, s.value⟩, ⟨s.suit, s.value⟩]

/-- The fields of `ScoringContext` that feed the fan arithmetic. -/
structure ScoringInput where
  melds : List Meld
  isZimo : Bool
  isLastTile : Bool
  isKongDraw : Bool
  prevailingWind : Int
  seatWind : Int
  isDealer : Bool
  lianZhuangCount : Nat
  deriving DecidableEq, Repr

/-- Labels of the fan items `calculateScore` pushes (its `name` strings). -/
inductive FanLabel where
  | zimo | menqing | menqingZimo
  | dragonKo (dv : Int)
  | bigThreeDragons
  | roundWindKo | seatWindKo
  | bigFourWinds | smallFourWinds
  | pinghu | pongpongHu
  | threeConcealedKo | fourConcealedKo
  | allHonors | pureOneSuit | mixedOneSuit
  | haidi | hedi | kongFlower
  | dealerFan
  | allClaimed
  | chickenHu
  deriving DecidableEq, Repr

def isDragonItem : FanLabel → Bool
  | .dragonKo _ => true
  | _ => false

def isWindKoItem : FanLabel → Bool
  | .roundWindKo => true
  | .seatWindKo => true
  | _ => false

/-- The score-set record pushed for a declared meld (`isConcealed: false`). -/
def meldScoreSet (m : Meld) : ScoreSet :=
  ⟨m.type, m.suit, m.value, false⟩

/-- The score-set record pushed for a concealed decomposition set
(`isConcealed: true`). -/
def choiceScoreSet (s : SetChoice) : ScoreSet :=
  ⟨(match s.type with
    | SetType.pong => MSetType.pong
    | SetType.chow => MSetType.chow), s.suit, s.value, true⟩

/-- `allSets`: declared melds (`isConcealed := false`) followed by the
concealed sets of the decomposition (`isConcealed := true`). -/
def allSetsOf (melds : List Meld) (scs : List SetChoice) : List ScoreSet :=
  melds.map meldScoreSet ++ scs.map choiceScoreSet

/-- `allTiles`: the pair twice plus every set's tiles. -/
def allTilesOf (pr : MTile) (sets : List ScoreSet) : List MTile :=
  pr :: pr :: (sets.map setTiles).flatten

def pongSetsOf (sets : List ScoreSet) : List ScoreSet :=
  sets.filter (fun s => s.type == .pong || s.type == .kong)

def chowSetsOf (sets : List ScoreSet) : List ScoreSet :=
  sets.filter (fun s => s.type == .chow)

def concealedPongsOf (sets : List ScoreSet) : List ScoreSet :=
  sets.filter (fun s => (s.type == .pong || s.type == .kong) && s.isConcealed)

/-- Number of distinct number suits among the tiles
(`new Set(allTiles.filter(isNumberSuit).map(suit)).size`). -/
def numberSuitCount (tiles : List MTile) : Nat :=
  ((tiles.filter (fun t => isNumberSuitB t.suit)).map (fun t => t.suit)).toFinset.card

/-- Sections 1–3 of `calculateScore`: 自摸, 門清, 門清自摸. -/
def itemsFlags (inp : ScoringInput) : List (FanLabel × Nat) :=
  (if inp.isZimo then [(FanLabel.zimo, 1)] else []) ++
    (if inp.melds.length == 0 then [(FanLabel.menqing, 1)] else []) ++
    (if inp.melds.length == 0 && inp.isZimo then [(FanLabel.menqingZimo, 1)] else [])

/-- Section 4: dragon values (1–3) with a pong/kong among the sets. -/
def dragonHits (pongSets : List ScoreSet) : List Int :=
  ([1, 2, 3] : List Int).filter
    (fun dv => pongSets.any (fun s => s.suit == .dragon && s.value == dv))

/-- Sections 4–5: dragon pongs, superseded by 大三元 when all three hit. -/
def itemsDragon (inp : ScoringInput) (pongSets : List ScoreSet) :
    List (FanLabel × Nat) :=
  let base := itemsFlags inp ++
    (dragonHits pongSets).map (fun dv => (FanLabel.dragonKo dv, 1))
  if (dragonHits pongSets).length == 3 then
    base.filter (fun it => !(isDragonItem it.1)) ++ [(FanLabel.bigThreeDragons, 8)]
  else base

/-- Sections 6–7: prevailing-wind and seat-wind pongs. -/
def itemsWindKo (inp : ScoringInput) (pongSets : List ScoreSet) :
    List (FanLabel × Nat) :=
  itemsDragon inp pongSets ++
    (if pongSets.any (fun s => s.suit == .wind && s.value == inp.prevailingWind + 1)
      then [(FanLabel.roundWindKo, 1)] else []) ++
    (if pongSets.any (fun s => s.suit == .wind && s.value == inp.seatWind + 1)
      then [(FanLabel.seatWindKo, 1)] else [])

/-- Section 8: wind pong counter. -/
def windPongCount (pongSets : List ScoreSet) : Nat :=
  (([1, 2, 3, 4] : List Int).filter
    (fun wv => pongSets.any (fun s => s.suit == .wind && s.value == wv))).length

/-- Section 8: wind pair counter. -/
def windPairCount (pr : MTile) : Nat :=
  (([1, 2, 3, 4] : List Int).filter
    (fun wv => pr.suit == .wind && pr.value == wv)).length

/-- Sections 9–10: 大四喜 / 小四喜 supersede the individual wind items. -/
def itemsWinds (inp : ScoringInput) (pr : MTile) (pongSets : List ScoreSet) :
    List (FanLabel × Nat) :=
  if windPongCount pongSets == 4 then
    (itemsWindKo inp pongSets).filter (fun it => !(isWindKoItem it.1)) ++
      [(FanLabel.bigFourWinds, 16)]
  else if windPongCount pongSets == 3 && windPairCount pr == 1 then
    (itemsWindKo inp pongSets).filter (fun it => !(isWindKoItem it.1)) ++
      [(FanLabel.smallFourWinds, 8)]
  else itemsWindKo inp pongSets

/-- Sections 11–13: 平胡, 碰碰胡, 三暗刻. -/
def itemsShape (inp : ScoringInput) (pr : MTile) (sets : List ScoreSet) :
    List (FanLabel × Nat) :=
  itemsWinds inp pr (pongSetsOf sets) ++
    (if (pongSetsOf sets).length == 0 &&
        (allTilesOf pr sets).all (fun t => isNumberSuitB t.suit) then
      [(FanLabel.pinghu, 1)] else []) ++
    (if (chowSetsOf sets).length == 0 && decide (0 < (pongSetsOf sets).length) then
      [(FanLabel.pongpongHu, 2)] else []) ++
    (if 3 ≤ (concealedPongsOf sets).length then [(FanLabel.threeConcealedKo, 2)]
      else [])

/-- Section 14: 四暗刻 replaces 三暗刻. -/
def itemsConcealed (inp : ScoringInput) (pr : MTile) (sets : List ScoreSet) :
    List (FanLabel × Nat) :=
  if 4 ≤ (concealedPongsOf sets).length then
    (itemsShape inp pr sets).filter (fun it => !(it.1 == FanLabel.threeConcealedKo)) ++
      [(FanLabel.fourConcealedKo, 5)]
  else itemsShape inp pr sets

/-- Section 15: 字一色 / 清一色 / 混一色. -/
def itemsSuit (inp : ScoringInput) (pr : MTile) (sets : List ScoreSet) :
    List (FanLabel × Nat) :=
  itemsConcealed inp pr sets ++
    (if !(decide (0 < numberSuitCount (allTilesOf pr sets))) &&
        (allTilesOf pr sets).any (fun t => isHonorB t.suit) then
      [(FanLabel.allHonors, 16)]
    else if numberSuitCount (allTilesOf pr sets) == 1 &&
        !((allTilesOf pr sets).any (fun t => isHonorB t.suit)) then
      [(FanLabel.pureOneSuit, 8)]
    else if numberSuitCount (allTilesOf pr sets) == 1 &&
        (allTilesOf pr sets).any (fun t => isHonorB t.suit) then
      [(FanLabel.mixedOneSuit, 4)]
    else [])

/-- Sections 16–19: 海底撈月, 河底撈魚, 槓上開花, 莊家/連莊, 全求人. -/
def itemsTail (inp : ScoringInput) (pr : MTile) (sets : List ScoreSet) :
    List (FanLabel × Nat) :=
  itemsSuit inp pr sets ++
    (if inp.isLastTile && inp.isZimo then [(FanLabel.haidi, 1)] else []) ++
    (if inp.isLastTile && !inp.isZimo then [(FanLabel.hedi, 1)] else []) ++
    (if inp.isKongDraw then [(FanLabel.kongFlower, 1)] else []) ++
    (if inp.isDealer then [(FanLabel.dealerFan, 1 + 2 * inp.lianZhuangCount)]
      else []) ++
    (if 5 ≤ inp.melds.length && !inp.isZimo then [(FanLabel.allClaimed, 2)] else [])

/-- Fan total of an item list (`reduce((sum, item) => sum + item.fan, 0)`). -/
def fanSum (items : List (FanLabel × Nat)) : Nat :=
  (items.map Prod.snd).sum

/-- Total fan of one decomposition inside `calculateScore`'s loop. -/
def scoreDecomp (inp : ScoringInput) (pr : MTile) (scs : List SetChoice) : Nat :=
  fanSum (itemsTail inp pr (allSetsOf inp.melds scs))

/-- First occurrences in order (the `tried` set in `decomposeHand`). -/
def firstUniques (tiles : List MTile) : List MTile :=
  tiles.foldl (fun acc t => if t ∈ acc then acc else acc ++ [t]) []

/-- Pair candidates: kinds occurring at least twice, in first-occurrence
order — exactly the pairs `decomposeHand`'s double loop tries. -/
def pairCandidates (tiles : List MTile) : List MTile :=
  (firstUniques tiles).filter (fun k => 2 ≤ tiles.count k)

/-- `decomposeHand`: for each pair candidate, remove two copies and run the
greedy `trySets`; keep the successful decompositions. -/
def decomposeHand (tiles : List MTile) : List (MTile × List SetChoice) :=
  (pairCandidates tiles).filterMap (fun k =>
    match trySets (eraseKind k.suit k.value (eraseKind k.suit k.value tiles)) with
    | some scs => some (k, scs)
    | none => none)

/-- The `totalFan` of `calculateScore`: maximum decomposition total, the
zimo/menqing fallback when no decomposition exists, and the 雞胡 floor of 1. -/
def calculateScore (inp : ScoringInput) (hand : List MTile)
    (winningTile : MTile) : Nat :=
  let fullHand := hand ++ [winningTile]
  let decomps := decomposeHand fullHand
  let best0 := decomps.foldl
    (fun best d => if best < scoreDecomp inp d.1 d.2 then scoreDecomp inp d.1 d.2
      else best) 0
  let bestScore := if decomps.length == 0 then
      (if inp.isZimo then 1 else 0) + (if inp.melds.length == 0 then 1 else 0)
    else best0
  if bestScore == 0 then 1 else bestScore

/-- A structurally-valid decomposition of the full concealed hand: a pair
kind occurring at least twice, and valid recorded sets for the remainder. -/
def ValidDecomp (T : List MTile) (pr : MTile) (scs : List SetChoice) : Prop :=
  2 ≤ T.count pr ∧
    ValidChoices (eraseKind pr.suit pr.value (eraseKind pr.suit pr.value T)) scs

theorem bool_eq_of_iff (a b : Bool) (h : a = true ↔ b = true) : a = b := by
  cases a <;> cases b <;> simp_all

theorem perm_any (l l' : List MTile) (h : l.Perm l') (p : MTile → Bool) :
    l.any p = l'.any p := by
  apply bool_eq_of_iff
  rw [List.any_eq_true, List.any_eq_true]
  constructor
  · rintro ⟨x, hx, hp⟩
    exact ⟨x, h.mem_iff.mp hx, hp⟩
  · rintro ⟨x, hx, hp⟩
    exact ⟨x, h.mem_iff.mpr hx, hp⟩

theorem perm_all (l l' : List MTile) (h : l.Perm l') (p : MTile → Bool) :
    l.all p = l'.all p := by
  apply bool_eq_of_iff
  rw [List.all_eq_true, List.all_eq_true]
  constructor
  · intro ha x hx
    exact ha x (h.mem_iff.mpr hx)
  · intro ha x hx
    exact ha x (h.mem_iff.mp hx)

theorem fanSum_append (a b : List (FanLabel × Nat)) :
    fanSum (a ++ b) = fanSum a + fanSum b := by
  simp [fanSum]

theorem fanSum_if_single (c : Prop) [Decidable c] (l : FanLabel) (k : Nat) :
    fanSum (if c then [(l, k)] else []) = if c then k else 0 := by
  split_ifs <;> simp [fanSum]

theorem filter_if_single (c : Prop) [Decidable c] (l : FanLabel) (k : Nat)
    (p : FanLabel × Nat → Bool) (hp : p (l, k) = true) :
    (if c then [(l, k)] else []).filter p = (if c then [(l, k)] else []) := by
  split_ifs <;> simp [hp]

theorem filter_if_single_neg (c : Prop) [Decidable c] (l : FanLabel) (k : Nat)
    (p : FanLabel × Nat → Bool) (hp : p (l, k) = false) :
    (if c then [(l, k)] else []).filter p = [] := by
  split_ifs <;> simp [hp]

theorem setTiles_choice (sc : SetChoice) :
    setTiles (choiceScoreSet sc) = scTiles sc := by
  obtain ⟨ty, su, vl⟩ := sc
  cases ty <;> rfl

theorem choice_pong_pred (sc : SetChoice) :
    ((choiceScoreSet sc).type == MSetType.pong ||
      (choiceScoreSet sc).type == MSetType.kong) = (sc.type == SetType.pong) := by
  obtain ⟨ty, su, vl⟩ := sc
  cases ty <;> rfl

theorem choice_chow_pred (sc : SetChoice) :
    ((choiceScoreSet sc).type == MSetType.chow) = (sc.type == SetType.chow) := by
  obtain ⟨ty, su, vl⟩ := sc
  cases ty <;> rfl

theorem choice_concealed_pred (sc : SetChoice) :
    (((choiceScoreSet sc).type == MSetType.pong ||
      (choiceScoreSet sc).type == MSetType.kong) &&
      (choiceScoreSet sc).isConcealed) = (sc.type == SetType.pong) := by
  obtain ⟨ty, su, vl⟩ := sc
  cases ty <;> rfl

theorem pongSets_allSets_length (melds : List Meld) (scs : List SetChoice) :
    (pongSetsOf (allSetsOf melds scs)).length =
      (pongSetsOf (melds.map meldScoreSet)).length + pongsOf scs := by
  unfold allSetsOf pongSetsOf
  rw [List.filter_append, List.length_append]
  congr 1
  rw [← List.countP_eq_length_filter, List.countP_map]
  exact List.countP_congr (fun sc _ => by simp only [Function.comp_apply]; rw [ choice_pong_pred sc])

theorem chowSets_allSets_length (melds : List Meld) (scs : List SetChoice) :
    (chowSetsOf (allSetsOf melds scs)).length =
      (chowSetsOf (melds.map meldScoreSet)).length + chowsOf scs := by
  unfold allSetsOf chowSetsOf
  rw [List.filter_append, List.length_append]
  congr 1
  rw [← List.countP_eq_length_filter, List.countP_map]
  exact List.countP_congr (fun sc _ => by simp only [Function.comp_apply]; rw [ choice_chow_pred sc])

theorem concealedPongs_allSets_length (melds : List Meld) (scs : List SetChoice) :
    (concealedPongsOf (allSetsOf melds scs)).length = pongsOf scs := by
  unfold allSetsOf concealedPongsOf
  rw [List.filter_append, List.length_append]
  have hm : ((melds.map meldScoreSet).filter
      (fun s => (s.type == MSetType.pong || s.type == MSetType.kong) &&
        s.isConcealed)) = [] := by
    rw [List.filter_eq_nil_iff]
    intro x hx
    obtain ⟨m, _, rfl⟩ := List.mem_map.mp hx
    simp [meldScoreSet]
  rw [hm]
  simp only [List.length_nil, Nat.zero_add]
  rw [← List.countP_eq_length_filter, List.countP_map]
  exact List.countP_congr (fun sc _ => by simp only [Function.comp_apply]; rw [ choice_concealed_pred sc])

theorem allTiles_perm (melds : List Meld) (scs : List SetChoice)
    (R : List MTile) (pr : MTile) (hv : ValidChoices R scs) :
    (allTilesOf pr (allSetsOf melds scs)).Perm
      (pr :: pr :: (((melds.map meldScoreSet).map setTiles).flatten ++ R)) := by
  unfold allTilesOf allSetsOf
  rw [List.map_append, List.flatten_append]
  have hmm : (scs.map choiceScoreSet).map setTiles = scs.map scTiles := by
    rw [List.map_map]
    exact List.map_congr_left (fun sc _ => setTiles_choice sc)
  rw [hmm]
  exact ((List.Perm.append_left _ hv.2.symm).cons pr).cons pr

theorem numberSuitCount_perm (l l' : List MTile) (h : l.Perm l') :
    numberSuitCount l = numberSuitCount l' := by
  unfold numberSuitCount
  rw [List.toFinset_eq_of_perm _ _ ((h.filter _).map _)]

theorem honor_pong_mem_iff (R : List MTile) (scs : List SetChoice)
    (hv : ValidChoices R scs) (s : Suit) (hs : isNumberSuitB s = false) (v : Int) :
    (⟨SetType.pong, s, v⟩ : SetChoice) ∈ scs ↔ 0 < R.count ⟨s, v⟩ := by
  constructor
  · intro hm
    have h := countSC_eq R scs hv s v
    have hc := List.count_pos_iff.mpr hm
    omega
  · intro hpos
    have hmem : (⟨s, v⟩ : MTile) ∈ R := List.count_pos_iff.mp hpos
    have hfm := hv.2.mem_iff.mp hmem
    obtain ⟨sc, hsc, hts⟩ := (mem_flattenSC scs _).mp hfm
    rcases mem_scTiles sc _ hts with ⟨hty, he⟩ | ⟨hty, he⟩
    · obtain ⟨ty, su, vl⟩ := sc
      dsimp only at hty he
      subst hty
      rw [MTile.mk.injEq] at he
      obtain ⟨rfl, rfl⟩ := he
      exact hsc
    · exfalso
      have hnum := hv.1 sc hsc hty
      have hsuit : sc.suit = s := by
        rcases he with he | he | he <;>
          (rw [MTile.mk.injEq] at he; exact he.1.symm)
      rw [hsuit] at hnum
      simp [hs] at hnum

theorem concealed_pong_any_iff (scs : List SetChoice) (s : Suit) (v : Int) :
    (((scs.map choiceScoreSet).filter
        (fun x => x.type == MSetType.pong || x.type == MSetType.kong)).any
      (fun x => x.suit == s && x.value == v) = true) ↔
    (⟨SetType.pong, s, v⟩ : SetChoice) ∈ scs := by
  rw [List.any_eq_true]
  constructor
  · rintro ⟨x, hx, hq⟩
    rw [List.mem_filter] at hx
    obtain ⟨hxm, hp⟩ := hx
    obtain ⟨sc, hsc, rfl⟩ := List.mem_map.mp hxm
    obtain ⟨ty, su, vl⟩ := sc
    cases ty
    · rw [show choiceScoreSet ⟨SetType.pong, su, vl⟩ =
        ⟨MSetType.pong, su, vl, true⟩ from rfl] at hq
      rw [Bool.and_eq_true, beq_iff_eq, beq_iff_eq] at hq
      obtain ⟨h1, h2⟩ := hq
      dsimp only at h1 h2
      subst h1
      subst h2
      exact hsc
    · rw [show choiceScoreSet ⟨SetType.chow, su, vl⟩ =
        ⟨MSetType.chow, su, vl, true⟩ from rfl] at hp
      simp at hp
  · intro h
    refine ⟨choiceScoreSet ⟨SetType.pong, s, v⟩, ?_, by simp [choiceScoreSet]⟩
    rw [List.mem_filter]
    exact ⟨List.mem_map_of_mem _ h, rfl⟩

theorem honor_pong_any (melds : List Meld) (R : List MTile) (scs : List SetChoice)
    (hv : ValidChoices R scs) (s : Suit) (hs : isNumberSuitB s = false) (v : Int) :
    (pongSetsOf (allSetsOf melds scs)).any
        (fun x => x.suit == s && x.value == v) =
      ((pongSetsOf (melds.map meldScoreSet)).any
        (fun x => x.suit == s && x.value == v) || decide (0 < R.count ⟨s, v⟩)) := by
  unfold allSetsOf pongSetsOf
  rw [List.filter_append, List.any_append]
  congr 1
  apply bool_eq_of_iff
  rw [concealed_pong_any_iff, decide_eq_true_iff]
  exact honor_pong_mem_iff R scs hv s hs v

theorem itemsWinds_eq (inp : ScoringInput) (pr : MTile) (R : List MTile)
    (scs scs' : List SetChoice) (hv : ValidChoices R scs)
    (hv' : ValidChoices R scs') :
    itemsWinds inp pr (pongSetsOf (allSetsOf inp.melds scs)) =
      itemsWinds inp pr (pongSetsOf (allSetsOf inp.melds scs')) := by
  have hAnyD : ∀ v, (pongSetsOf (allSetsOf inp.melds scs)).any
      (fun x => x.suit == Suit.dragon && x.value == v) =
      (pongSetsOf (allSetsOf inp.melds scs')).any
      (fun x => x.suit == Suit.dragon && x.value == v) := by
    intro v
    rw [honor_pong_any inp.melds R scs hv Suit.dragon rfl v,
      honor_pong_any inp.melds R scs' hv' Suit.dragon rfl v]
  have hAnyW : ∀ v, (pongSetsOf (allSetsOf inp.melds scs)).any
      (fun x => x.suit == Suit.wind && x.value == v) =
      (pongSetsOf (allSetsOf inp.melds scs')).any
      (fun x => x.suit == Suit.wind && x.value == v) := by
    intro v
    rw [honor_pong_any inp.melds R scs hv Suit.wind rfl v,
      honor_pong_any inp.melds R scs' hv' Suit.wind rfl v]
  have hDH : dragonHits (pongSetsOf (allSetsOf inp.melds scs)) =
      dragonHits (pongSetsOf (allSetsOf inp.melds scs')) := by
    unfold dragonHits
    exact List.filter_congr (fun dv _ => by rw [hAnyD dv])
  have hWP : windPongCount (pongSetsOf (allSetsOf inp.melds scs)) =
      windPongCount (pongSetsOf (allSetsOf inp.melds scs')) := by
    unfold windPongCount
    rw [List.filter_congr (fun wv _ => by rw [hAnyW wv])]
  unfold itemsWinds itemsWindKo itemsDragon
  rw [hDH, hWP, hAnyW (inp.prevailingWind + 1), hAnyW (inp.seatWind + 1)]

theorem filter_itemsFlags (inp : ScoringInput) (p : FanLabel × Nat → Bool)
    (hz : p (FanLabel.zimo, 1) = true) (hm : p (FanLabel.menqing, 1) = true)
    (hmz : p (FanLabel.menqingZimo, 1) = true) :
    (itemsFlags inp).filter p = itemsFlags inp := by
  unfold itemsFlags
  split_ifs <;> simp [hz, hm, hmz]

theorem filter_dragonMap_self (hits : List Int) (p : FanLabel × Nat → Bool)
    (h : ∀ dv, p (FanLabel.dragonKo dv, 1) = true) :
    ((hits.map (fun dv => (FanLabel.dragonKo dv, 1))).filter p) =
      hits.map (fun dv => (FanLabel.dragonKo dv, 1)) := by
  induction hits with
  | nil => rfl
  | cons a t ih => simp [List.filter_cons, h a, ih]

theorem filter_itemsDragon (inp : ScoringInput) (P : List ScoreSet)
    (p : FanLabel × Nat → Bool)
    (hz : p (FanLabel.zimo, 1) = true) (hm : p (FanLabel.menqing, 1) = true)
    (hmz : p (FanLabel.menqingZimo, 1) = true)
    (hdk : ∀ dv, p (FanLabel.dragonKo dv, 1) = true)
    (h83 : p (FanLabel.bigThreeDragons, 8) = true) :
    (itemsDragon inp P).filter p = itemsDragon inp P := by
  have hbase : (itemsFlags inp ++
      (dragonHits P).map (fun dv => (FanLabel.dragonKo dv, 1))).filter p =
      itemsFlags inp ++ (dragonHits P).map (fun dv => (FanLabel.dragonKo dv, 1)) := by
    rw [List.filter_append, filter_itemsFlags inp p hz hm hmz,
      filter_dragonMap_self _ p hdk]
  have hmemp := List.filter_eq_self.mp hbase
  unfold itemsDragon
  split_ifs
  · rw [List.filter_append, List.filter_filter,
      List.filter_congr (fun a ha => by rw [hmemp a ha, Bool.true_and]),
      show ([(FanLabel.bigThreeDragons, 8)].filter p) =
        [(FanLabel.bigThreeDragons, 8)] from by simp [h83]]
  · exact hbase

theorem filter_itemsWindKo (inp : ScoringInput) (P : List ScoreSet)
    (p : FanLabel × Nat → Bool)
    (hz : p (FanLabel.zimo, 1) = true) (hm : p (FanLabel.menqing, 1) = true)
    (hmz : p (FanLabel.menqingZimo, 1) = true)
    (hdk : ∀ dv, p (FanLabel.dragonKo dv, 1) = true)
    (h83 : p (FanLabel.bigThreeDragons, 8) = true)
    (hrw : p (FanLabel.roundWindKo, 1) = true)
    (hsw : p (FanLabel.seatWindKo, 1) = true) :
    (itemsWindKo inp P).filter p = itemsWindKo inp P := by
  unfold itemsWindKo
  rw [List.filter_append, List.filter_append,
    filter_itemsDragon inp P p hz hm hmz hdk h83,
    filter_if_single _ _ _ p hrw, filter_if_single _ _ _ p hsw]

theorem filter_itemsWinds (inp : ScoringInput) (pr : MTile) (P : List ScoreSet)
    (p : FanLabel × Nat → Bool)
    (hz : p (FanLabel.zimo, 1) = true) (hm : p (FanLabel.menqing, 1) = true)
    (hmz : p (FanLabel.menqingZimo, 1) = true)
    (hdk : ∀ dv, p (FanLabel.dragonKo dv, 1) = true)
    (h83 : p (FanLabel.bigThreeDragons, 8) = true)
    (hrw : p (FanLabel.roundWindKo, 1) = true)
    (hsw : p (FanLabel.seatWindKo, 1) = true)
    (hb4 : p (FanLabel.bigFourWinds, 16) = true)
    (hs4 : p (FanLabel.smallFourWinds, 8) = true) :
    (itemsWinds inp pr P).filter p = itemsWinds inp pr P := by
  have hko := filter_itemsWindKo inp P p hz hm hmz hdk h83 hrw hsw
  have hmemp := List.filter_eq_self.mp hko
  unfold itemsWinds
  split_ifs
  · rw [List.filter_append, List.filter_filter,
      List.filter_congr (fun a ha => by rw [hmemp a ha, Bool.true_and]),
      show ([(FanLabel.bigFourWinds, 16)].filter p) =
        [(FanLabel.bigFourWinds, 16)] from by simp [hb4]]
  · rw [List.filter_append, List.filter_filter,
      List.filter_congr (fun a ha => by rw [hmemp a ha, Bool.true_and]),
      show ([(FanLabel.smallFourWinds, 8)].filter p) =
        [(FanLabel.smallFourWinds, 8)] from by simp [hs4]]
  · exact hko

theorem fanSum_itemsShape (inp : ScoringInput) (pr : MTile) (sets : List ScoreSet) :
    fanSum (itemsShape inp pr sets) =
      fanSum (itemsWinds inp pr (pongSetsOf sets)) +
        ((if (pongSetsOf sets).length == 0 &&
            (allTilesOf pr sets).all (fun t => isNumberSuitB t.suit) then 1 else 0) +
         (if (chowSetsOf sets).length == 0 &&
            decide (0 < (pongSetsOf sets).length) then 2 else 0) +
         (if 3 ≤ (concealedPongsOf sets).length then 2 else 0)) := by
  unfold itemsShape
  rw [fanSum_append, fanSum_append, fanSum_append, fanSum_if_single,
    fanSum_if_single, fanSum_if_single]
  omega

theorem fanSum_itemsConcealed (inp : ScoringInput) (pr : MTile)
    (sets : List ScoreSet) :
    fanSum (itemsConcealed inp pr sets) =
      fanSum (itemsWinds inp pr (pongSetsOf sets)) +
        ((if (pongSetsOf sets).length == 0 &&
            (allTilesOf pr sets).all (fun t => isNumberSuitB t.suit) then 1 else 0) +
         (if (chowSetsOf sets).length == 0 &&
            decide (0 < (pongSetsOf sets).length) then 2 else 0) +
         (if 4 ≤ (concealedPongsOf sets).length then 5
          else if 3 ≤ (concealedPongsOf sets).length then 2 else 0)) := by
  unfold itemsConcealed
  by_cases h4 : 4 ≤ (concealedPongsOf sets).length
  · rw [if_pos h4, fanSum_append]
    unfold itemsShape
    rw [List.filter_append, List.filter_append, List.filter_append,
      filter_itemsWinds inp pr (pongSetsOf sets) _ rfl rfl rfl (fun dv => rfl)
        rfl rfl rfl rfl rfl,
      filter_if_single _ _ _ _ rfl, filter_if_single _ _ _ _ rfl,
      filter_if_single_neg _ _ _ _ rfl, List.append_nil,
      fanSum_append, fanSum_append, fanSum_if_single, fanSum_if_single,
      if_pos h4]
    simp only [fanSum, List.map_cons, List.map_nil, List.sum_cons, List.sum_nil]
    omega
  · rw [if_neg h4, fanSum_itemsShape, if_neg h4]

/-- The fan value of the suit-category item (section 15). -/
def suitFanOf (inp : ScoringInput) (pr : MTile) (sets : List ScoreSet) : Nat :=
  if !(decide (0 < numberSuitCount (allTilesOf pr sets))) &&
      (allTilesOf pr sets).any (fun t => isHonorB t.suit) then 16
  else if numberSuitCount (allTilesOf pr sets) == 1 &&
      !((allTilesOf pr sets).any (fun t => isHonorB t.suit)) then 8
  else if numberSuitCount (allTilesOf pr sets) == 1 &&
      (allTilesOf pr sets).any (fun t => isHonorB t.suit) then 4
  else 0

theorem fanSum_itemsSuit (inp : ScoringInput) (pr : MTile) (sets : List ScoreSet) :
    fanSum (itemsSuit inp pr sets) =
      fanSum (itemsConcealed inp pr sets) + suitFanOf inp pr sets := by
  unfold itemsSuit suitFanOf
  rw [fanSum_append]
  congr 1
  split_ifs <;> simp [fanSum]

/-- The fan total of the context items (sections 16–19). -/
def tailFanOf (inp : ScoringInput) : Nat :=
  (if inp.isLastTile && inp.isZimo then 1 else 0) +
  (if inp.isLastTile && !inp.isZimo then 1 else 0) +
  (if inp.isKongDraw then 1 else 0) +
  (if inp.isDealer then 1 + 2 * inp.lianZhuangCount else 0) +
  (if 5 ≤ inp.melds.length && !inp.isZimo then 2 else 0)

theorem fanSum_itemsTail (inp : ScoringInput) (pr : MTile) (sets : List ScoreSet) :
    fanSum (itemsTail inp pr sets) =
      fanSum (itemsSuit inp pr sets) + tailFanOf inp := by
  unfold itemsTail tailFanOf
  rw [fanSum_append, fanSum_append, fanSum_append, fanSum_append, fanSum_append,
    fanSum_if_single, fanSum_if_single, fanSum_if_single, fanSum_if_single,
    fanSum_if_single]
  omega

theorem scoreDecomp_le (inp : ScoringInput) (pr : MTile) (R : List MTile)
    (scs scs' : List SetChoice) (hv : ValidChoices R scs)
    (hv' : ValidChoices R scs') (hp : pongsOf scs ≤ pongsOf scs')
    (hmod : pongsOf scs % 3 = pongsOf scs' % 3) :
    scoreDecomp inp pr scs ≤ scoreDecomp inp pr scs' := by
  unfold scoreDecomp
  rw [fanSum_itemsTail, fanSum_itemsTail, fanSum_itemsSuit, fanSum_itemsSuit,
    fanSum_itemsConcealed, fanSum_itemsConcealed]
  have hperm : (allTilesOf pr (allSetsOf inp.melds scs)).Perm
      (allTilesOf pr (allSetsOf inp.melds scs')) :=
    (allTiles_perm inp.melds scs R pr hv).trans
      (allTiles_perm inp.melds scs' R pr hv').symm
  have hW := itemsWinds_eq inp pr R scs scs' hv hv'
  have hS : suitFanOf inp pr (allSetsOf inp.melds scs) =
      suitFanOf inp pr (allSetsOf inp.melds scs') := by
    unfold suitFanOf
    rw [numberSuitCount_perm _ _ hperm, perm_any _ _ hperm]
  have hAeq : (allTilesOf pr (allSetsOf inp.melds scs)).all
      (fun t => isNumberSuitB t.suit) =
      (allTilesOf pr (allSetsOf inp.melds scs')).all
      (fun t => isNumberSuitB t.suit) := perm_all _ _ hperm _
  rw [hW, hS, hAeq, pongSets_allSets_length, pongSets_allSets_length,
    chowSets_allSets_length, chowSets_allSets_length,
    concealedPongs_allSets_length, concealedPongs_allSets_length]
  have hn : scs.length = scs'.length := by
    have h1 := ValidChoices_length R scs hv
    have h2 := ValidChoices_length R scs' hv'
    omega
  have hc1 := pongsOf_add_chowsOf scs
  have hc2 := pongsOf_add_chowsOf scs'
  cases hAb : (allTilesOf pr (allSetsOf inp.melds scs')).all
      (fun t => isNumberSuitB t.suit) <;>
    simp only [Bool.and_false, Bool.and_true, Bool.false_eq_true, if_false,
      Bool.and_eq_true, beq_iff_eq, decide_eq_true_eq] <;>
    split_ifs <;> omega

theorem greedy_scoreDecomp_max (inp : ScoringInput) (pr : MTile) (R : List MTile)
    (gscs scs : List SetChoice) (hg : trySets R = some gscs)
    (hv : ValidChoices R scs) :
    scoreDecomp inp pr scs ≤ scoreDecomp inp pr gscs := by
  have hv' : ValidChoices R gscs := trySetsGo_sound _ _ _ hg
  have hple := trySetsGo_pong_max R.length R gscs scs (le_refl _) hg hv
  have hmod := pongsOf_mod3_eq R scs gscs hv hv'
  exact scoreDecomp_le inp pr R scs gscs hv hv' hple hmod

theorem mem_foldl_dedup (l : List MTile) :
    ∀ (acc : List MTile) (x : MTile),
      (x ∈ l.foldl (fun acc t => if t ∈ acc then acc else acc ++ [t]) acc ↔
        x ∈ acc ∨ x ∈ l) := by
  induction l with
  | nil =>
    intro acc x
    simp
  | cons t ts ih =>
    intro acc x
    rw [List.foldl_cons, ih]
    by_cases h : t ∈ acc
    · rw [if_pos h]
      constructor
      · rintro (ha | hts)
        · exact Or.inl ha
        · exact Or.inr (List.mem_cons_of_mem _ hts)
      · rintro (ha | hmc)
        · exact Or.inl ha
        · rcases List.mem_cons.mp hmc with rfl | hts
          · exact Or.inl h
          · exact Or.inr hts
    · rw [if_neg h]
      constructor
      · rintro (ha | hts)
        · rcases List.mem_append.mp ha with ha | hx
          · exact Or.inl ha
          · exact Or.inr (List.mem_cons.mpr (Or.inl (by simpa using hx)))
        · exact Or.inr (List.mem_cons_of_mem _ hts)
      · rintro (ha | hmc)
        · exact Or.inl (List.mem_append.mpr (Or.inl ha))
        · rcases List.mem_cons.mp hmc with rfl | hts
          · exact Or.inl (List.mem_append.mpr (Or.inr (by simp)))
          · exact Or.inr hts

theorem mem_firstUniques (tiles : List MTile) (x : MTile) :
    x ∈ firstUniques tiles ↔ x ∈ tiles := by
  unfold firstUniques
  rw [mem_foldl_dedup tiles [] x]
  simp

theorem mem_pairCandidates (tiles : List MTile) (k : MTile) :
    k ∈ pairCandidates tiles ↔ (k ∈ tiles ∧ 2 ≤ tiles.count k) := by
  unfold pairCandidates
  rw [List.mem_filter, mem_firstUniques]
  simp

theorem decomposeHand_mem (T : List MTile) (pr : MTile) (gscs : List SetChoice)
    (hc : 2 ≤ T.count pr)
    (hg : trySets (eraseKind pr.suit pr.value (eraseKind pr.suit pr.value T)) =
      some gscs) :
    (pr, gscs) ∈ decomposeHand T := by
  unfold decomposeHand
  rw [List.mem_filterMap]
  refine ⟨pr, ?_, ?_⟩
  · rw [mem_pairCandidates]
    exact ⟨List.count_pos_iff.mp (by omega), hc⟩
  · rw [hg]

theorem decomposeHand_sound (T : List MTile) (d : MTile × List SetChoice)
    (hd : d ∈ decomposeHand T) :
    2 ≤ T.count d.1 ∧
      trySets (eraseKind d.1.suit d.1.value (eraseKind d.1.suit d.1.value T)) =
        some d.2 := by
  unfold decomposeHand at hd
  rw [List.mem_filterMap] at hd
  obtain ⟨k, hk, hmk⟩ := hd
  rw [mem_pairCandidates] at hk
  cases hres : trySets (eraseKind k.suit k.value (eraseKind k.suit k.value T)) with
  | none => rw [hres] at hmk; simp at hmk
  | some scs =>
    rw [hres] at hmk
    injection hmk with hmk
    subst hmk
    exact ⟨hk.2, hres⟩

theorem decomposeHand_validDecomp (T : List MTile) (d : MTile × List SetChoice)
    (hd : d ∈ decomposeHand T) : ValidDecomp T d.1 d.2 := by
  obtain ⟨hc, hg⟩ := decomposeHand_sound T d hd
  exact ⟨hc, trySetsGo_sound _ _ _ hg⟩

theorem foldl_score_ge (inp : ScoringInput) (l : List (MTile × List SetChoice)) :
    ∀ a : Nat,
      a ≤ l.foldl (fun best d => if best < scoreDecomp inp d.1 d.2
          then scoreDecomp inp d.1 d.2 else best) a ∧
      ∀ d ∈ l, scoreDecomp inp d.1 d.2 ≤ l.foldl (fun best d =>
          if best < scoreDecomp inp d.1 d.2 then scoreDecomp inp d.1 d.2 else best) a := by
  induction l with
  | nil =>
    intro a
    exact ⟨le_refl _, by simp⟩
  | cons y t ih =>
    intro a
    rw [List.foldl_cons]
    obtain ⟨ih1, ih2⟩ :=
      ih (if a < scoreDecomp inp y.1 y.2 then scoreDecomp inp y.1 y.2 else a)
    refine ⟨le_trans (by split_ifs <;> omega) ih1, ?_⟩
    intro d hdm
    rcases List.mem_cons.mp hdm with rfl | hdm
    · exact le_trans (by split_ifs <;> omega) ih1
    · exact ih2 d hdm

theorem foldl_score_cases (inp : ScoringInput) (l : List (MTile × List SetChoice)) :
    ∀ a : Nat,
      l.foldl (fun best d => if best < scoreDecomp inp d.1 d.2
        then scoreDecomp inp d.1 d.2 else best) a = a ∨
      ∃ d ∈ l, l.foldl (fun best d => if best < scoreDecomp inp d.1 d.2
        then scoreDecomp inp d.1 d.2 else best) a = scoreDecomp inp d.1 d.2 := by
  induction l with
  | nil =>
    intro a
    left
    rfl
  | cons y t ih =>
    intro a
    rw [List.foldl_cons]
    rcases ih (if a < scoreDecomp inp y.1 y.2 then scoreDecomp inp y.1 y.2 else a)
      with h | ⟨d, hdm, h⟩
    · rw [h]
      split_ifs with hcond
      · right
        exact ⟨y, List.mem_cons_self _ _, rfl⟩
      · left
        rfl
    · right
      exact ⟨d, List.mem_cons_of_mem _ hdm, h⟩

/-- C3: whenever the full concealed hand (hand plus winning tile) admits a
structurally-valid pair+sets decomposition, the `totalFan` computed by
`calculateScore` dominates the fan total of every valid decomposition —
including decompositions the greedy `trySets` search does not itself
produce — and it equals `max 1 f` where `f` is the fan total of some valid
decomposition (the 雞胡 floor awarding a minimum one fan when no scoring
category applies). -/
theorem calculateScore_fan_max (inp : ScoringInput) (hand : List MTile)
    (wt : MTile) (pr : MTile) (scs : List SetChoice)
    (hd : ValidDecomp (hand ++ [wt]) pr scs) :
    scoreDecomp inp pr scs ≤ calculateScore inp hand wt ∧
      ∃ pr2 scs2, ValidDecomp (hand ++ [wt]) pr2 scs2 ∧
        calculateScore inp hand wt = max 1 (scoreDecomp inp pr2 scs2) := by
  have hvR := hd.2
  have hsome := trySetsGo_complete
    (eraseKind pr.suit pr.value (eraseKind pr.suit pr.value (hand ++ [wt]))).length
    (eraseKind pr.suit pr.value (eraseKind pr.suit pr.value (hand ++ [wt])))
    scs (le_refl _) hvR
  obtain ⟨gscs, hg⟩ := Option.isSome_iff_exists.mp hsome
  have hg' : trySets (eraseKind pr.suit pr.value
      (eraseKind pr.suit pr.value (hand ++ [wt]))) = some gscs := hg
  have hglb : scoreDecomp inp pr scs ≤ scoreDecomp inp pr gscs :=
    greedy_scoreDecomp_max inp pr _ gscs scs hg' hvR
  have hmemD : (pr, gscs) ∈ decomposeHand (hand ++ [wt]) :=
    decomposeHand_mem _ pr gscs hd.1 hg'
  have hgle : scoreDecomp inp pr gscs ≤
      (decomposeHand (hand ++ [wt])).foldl (fun best d =>
        if best < scoreDecomp inp d.1 d.2 then scoreDecomp inp d.1 d.2 else best) 0 :=
    (foldl_score_ge inp (decomposeHand (hand ++ [wt])) 0).2 (pr, gscs) hmemD
  unfold calculateScore
  dsimp only
  have hne : ((decomposeHand (hand ++ [wt])).length == 0) = false := by
    rw [beq_eq_false_iff_ne]
    intro hc
    rw [List.length_eq_zero] at hc
    rw [hc] at hmemD
    simp at hmemD
  rw [hne]
  simp only [Bool.false_eq_true, if_false]
  constructor
  · by_cases hb0 : (decomposeHand (hand ++ [wt])).foldl (fun best d =>
        if best < scoreDecomp inp d.1 d.2 then scoreDecomp inp d.1 d.2 else best) 0 = 0
    · rw [if_pos (by simp [hb0])]
      omega
    · rw [if_neg (by simp [hb0])]
      exact le_trans hglb hgle
  · rcases foldl_score_cases inp (decomposeHand (hand ++ [wt])) 0 with hz | ⟨d, hdm, hval⟩
    · refine ⟨pr, gscs, ⟨hd.1, trySetsGo_sound _ _ _ hg'⟩, ?_⟩
      rw [if_pos (by simp [hz])]
      have h0 : scoreDecomp inp pr gscs = 0 := by omega
      rw [h0]
      simp
    · refine ⟨d.1, d.2, decomposeHand_validDecomp _ _ hdm, ?_⟩
      by_cases hb0 : (decomposeHand (hand ++ [wt])).foldl (fun best d =>
          if best < scoreDecomp inp d.1 d.2 then scoreDecomp inp d.1 d.2 else best) 0 = 0
      · rw [if_pos (by simp [hb0])]
        have h0 : scoreDecomp inp d.1 d.2 = 0 := by omega
        rw [h0]
        simp
      · rw [if_neg (by simp [hb0])]
        rw [hval]
        have h1 : 1 ≤ scoreDecomp inp d.1 d.2 := by omega
        exact (Nat.max_eq_right h1).symm

/-- Scoring context for the C3 witness: no melds, all flags false. -/
def demoScoreInput : ScoringInput :=
  { melds := []
    isZimo := false
    isLastTile := false
    isKongDraw := false
    prevailingWind := 0
    seatWind := 0
    isDealer := false
    lianZhuangCount := 0 }

/-- Witness for C3 at a concrete hand: 1萬1萬2萬3萬 plus winning tile 4萬,
decomposed as the pair 1萬 with the chow 2-3-4萬. -/
theorem calculateScore_fan_max_witness :
    ValidDecomp ([⟨Suit.wan, 1⟩, ⟨Suit.wan, 1⟩, ⟨Suit.wan, 2⟩, ⟨Suit.wan, 3⟩] ++
        [⟨Suit.wan, 4⟩]) ⟨Suit.wan, 1⟩ [⟨SetType.chow, Suit.wan, 2⟩] ∧
      (scoreDecomp demoScoreInput ⟨Suit.wan, 1⟩ [⟨SetType.chow, Suit.wan, 2⟩] ≤
          calculateScore demoScoreInput [⟨Suit.wan, 1⟩, ⟨Suit.wan, 1⟩,
            ⟨Suit.wan, 2⟩, ⟨Suit.wan, 3⟩] ⟨Suit.wan, 4⟩ ∧
        ∃ pr2 scs2, ValidDecomp ([⟨Suit.wan, 1⟩, ⟨Suit.wan, 1⟩, ⟨Suit.wan, 2⟩,
            ⟨Suit.wan, 3⟩] ++ [⟨Suit.wan, 4⟩]) pr2 scs2 ∧
          calculateScore demoScoreInput [⟨Suit.wan, 1⟩, ⟨Suit.wan, 1⟩,
            ⟨Suit.wan, 2⟩, ⟨Suit.wan, 3⟩] ⟨Suit.wan, 4⟩ =
            max 1 (scoreDecomp demoScoreInput pr2 scs2)) :=
  ⟨by unfold ValidDecomp ValidChoices; decide,
    calculateScore_fan_max demoScoreInput
      [⟨Suit.wan, 1⟩, ⟨Suit.wan, 1⟩, ⟨Suit.wan, 2⟩, ⟨Suit.wan, 3⟩]
      ⟨Suit.wan, 4⟩ ⟨Suit.wan, 1⟩ [⟨SetType.chow, Suit.wan, 2⟩]
      (by unfold ValidDecomp ValidChoices; decide)⟩

end Mahjong
